import Mathlib

/-! BlockArt miner core (YozuBear/blockchain): shallow embedding and verification.

The Go package `miner` is embedded as pure Lean functions over an explicit
process state.  Conventions used throughout:

* Go `map[string]V` is `GoMap V`, the list of its entries.  Go leaves the
  iteration order of a map unspecified; whenever the source ranges over a map
  the definitions below visit the keys in the order `Env.rangeOrder` gives,
  which is only known to be a permutation of the keys.
* Go maps and pointers are references.  The four maps of a `BlockChainNode`
  are kept in a `Heap` and a node stores references (`Ref`) to them, exactly
  as the Go struct stores map headers.
* A Go run-time panic (nil dereference, slice out of range, failed type
  assertion) is the result `none`.
* Unsigned machine integers are `Nat` with explicit reduction modulo `2^w`.
* The source has no `go.mod` and is built by the current toolchain, where
  every iteration of a `for ... range` loop has its own loop variable: `&v`
  taken inside the body is the address of a variable that only that
  iteration assigns, and it keeps the value of that iteration.
* Library code outside the repository (MD5, gob, ECDSA, x509), the
  floating-point geometry engine and the order of map iteration are fields of
  `Env`.  That is how the chain logic sees them.
* The digest, the encodings and the geometry engine are also embedded
  themselves: MD5 and the gob bytes as functions on bytes, `svg.go`,
  `component.go` and `shape.go` over the class `GoFloat` of the `float64`
  operations.  What holds for every `GoFloat` holds for IEEE 754; values of
  arithmetic expressions are computed in the carrier `XR`, exact arithmetic
  with the special values of `float64`.
-/

namespace Miner

/-! ## Go maps -/

/-- A Go `map[string]V` as the list of its entries. -/
abbrev GoMap (V : Type) := List (String × V)

namespace GoMap

variable {V : Type}

/-- Lookup `m[k]` with the "comma ok" result as an `Option`. -/
def get : GoMap V → String → Option V
  | [], _ => none
  | (k', v) :: m, k => if k' = k then some v else get m k

/-- Assignment `m[k] = v`. -/
def set : GoMap V → String → V → GoMap V
  | [], k, v => [(k, v)]
  | (k', v') :: m, k, v => if k' = k then (k, v) :: m else (k', v') :: set m k v

/-- Builtin `delete(m, k)`. -/
def del : GoMap V → String → GoMap V
  | [], _ => []
  | (k', v') :: m, k => if k' = k then del m k else (k', v') :: del m k

/-- The "comma ok" test `_, ok := m[k]`. -/
def has (m : GoMap V) (k : String) : Bool := (get m k).isSome

/-- The keys of the map, in stored order. -/
def keys (m : GoMap V) : List String := m.map Prod.fst

end GoMap

/-! ## Data model (`shared/struct.go`, `miner/shape.go`, `miner/block.go`) -/

/-- Error values of `shared/struct.go`, plus `errors.New` strings and the
`*strconv.NumError` of a failed `strconv.ParseFloat`. -/
inductive Error where
  | DisconnectedError (s : String)
  | InsufficientInkError (ink : Nat)
  | InvalidShapeSvgStringError (s : String)
  | ShapeSvgStringTooLongError (s : String)
  | InvalidShapeHashError (s : String)
  | ShapeOwnerError (s : String)
  | OutOfBoundsError
  | ShapeOverlapError (s : String)
  | InvalidBlockHashError (s : String)
  | errorsNew (s : String)
  | strconvNumError (num : String)
  deriving DecidableEq, Repr

/-- The type `shared.ShapeType` (an `int`; `PATH = 0`, `CIRC = 1`). -/
abbrev ShapeType := Int

/-- The struct `Shape` of `shape.go`. -/
structure Shape where
  Owner : String
  ShapeType : ShapeType
  Svg : String
  Fill : String
  Stroke : String
  deriving DecidableEq, Repr

/-- The struct `shared.OpenArgs`: the two halves of an ECDSA signature. -/
structure OpenArgs where
  R : Int
  S : Int
  deriving DecidableEq, Repr

/-- The struct `Op` of `block.go`; `ValidNum` is a `uint8`.  The Go field
`Op Shape` is `OpShape` here, because a field cannot carry the name of its
structure. -/
structure Op where
  Add : Bool
  OpShape : Shape
  OpSig : OpenArgs
  PubKey : String
  ValidNum : Nat
  deriving DecidableEq, Repr

/-- The two implementations of the interface `Block`: `OpBlock` and `NoOpBlock`. -/
inductive Block where
  | OpBlock (PrevHash : String) (Ops : List Op) (PubKeyMiner : String) (Nonce : Nat)
  | NoOpBlock (PrevHash : String) (PubKeyMiner : String) (Nonce : Nat)
  deriving DecidableEq, Repr

/-- The type `RawBlockchain`: `[Genesis+1Node, ... , Leaf block]`. -/
abbrev RawBlockchain := List Block

/-- The struct `Canvas` of `common.go`. -/
structure Canvas where
  Shapes : GoMap Shape
  XMax : Nat
  YMax : Nat
  deriving DecidableEq, Repr

/-- The fields of `MinerNetSettings` that the chain logic reads. -/
structure MinerNetSettings where
  GenesisBlockHash : String
  InkPerOpBlock : Nat
  InkPerNoOpBlock : Nat
  PoWDifficultyOpBlock : Nat
  PoWDifficultyNoOpBlock : Nat
  CanvasXMax : Nat
  CanvasYMax : Nat
  deriving DecidableEq, Repr

/-- An `ecdsa.PublicKey` (the curve is left out). -/
structure PublicKey where
  X : Int
  Y : Int
  deriving DecidableEq, Repr

/-- The three ways `shared.DecodePubKey` can end: `hex.DecodeString` fails and
the error is returned; the type assertion `re.(*ecdsa.PublicKey)` panics
(x509 parse failure leaves `re` nil, or the key is not ECDSA); a key. -/
inductive DecodeResult where
  | hexError
  | assertPanic
  | key (k : PublicKey)
  deriving DecidableEq, Repr

/-- Library code and the geometry engine, which the chain logic calls. -/
structure Env where
  /-- The digest `crypto/md5`. -/
  md5 : List Nat → List Nat
  /-- An MD5 digest has 16 bytes. -/
  md5_length : ∀ bs, (md5 bs).length = 16
  /-- The gob encoding of a string, as `shared.Serialize` produces it. -/
  gobString : String → List Nat
  /-- The method `(*big.Int).GobEncode`. -/
  bigIntGob : Int → List Nat
  /-- The function `shared.DecodePubKey`. -/
  DecodePubKey : String → DecodeResult
  /-- The function `ecdsa.Verify(pub, hash, r, s)`. -/
  ecdsaVerify : PublicKey → List Nat → Int → Int → Bool
  /-- The method `Shape.Area`: the `uint64` ceiling of the area, and the error. -/
  shapeArea : Shape → Nat × Option Error
  /-- The method `Shape.Validate(canvas)`: `none` is a nil error. -/
  shapeValidate : Shape → Canvas → Option Error
  /-- The order in which a `for ... range` loop visits the keys of a map, given
  the keys in stored order.  Go does not specify it. -/
  rangeOrder : List String → List String
  /-- Whatever the order, a `range` loop visits every key once. -/
  rangeOrder_perm : ∀ ks, (rangeOrder ks).Perm ks

/-! ## Hashing (`block.go`, `shape.go`, `shared/util.go`) -/

/-- The conversion `[]byte(s)` of a Go string. -/
def stringBytes (s : String) : List Nat :=
  s.toUTF8.data.toList.map UInt8.toNat

/-- One character of `hextable = "0123456789abcdef"`. -/
def hexDigit (n : Nat) : Char :=
  if n < 10 then Char.ofNat (48 + n) else Char.ofNat (87 + n)

/-- The function `hex.EncodeToString`. -/
def hexEncode (bs : List Nat) : String :=
  String.mk (bs.flatMap fun b => [hexDigit (b / 16 % 16), hexDigit (b % 16)])

/-- The call `binary.BigEndian.PutUint32` into a fresh 4-byte slice. -/
def nonceBytes (n : Nat) : List Nat :=
  [n / 2 ^ 24 % 256, n / 2 ^ 16 % 256, n / 2 ^ 8 % 256, n % 256]

/-- The method `Shape.HashToBytes`. -/
def Shape.HashToBytes (env : Env) (s : Shape) : List Nat :=
  env.md5 (env.gobString (s.Svg ++ s.Fill ++ s.Stroke))

/-- The method `Op.HashToBytes`.  `opBytes[0] = 15` is `List.set _ 0 15`; the
slice starts with the 16-byte shape digest, so index 0 exists. -/
def Op.HashToBytes (env : Env) (op : Op) : List Nat :=
  let opBytes := Shape.HashToBytes env op.OpShape ++ env.bigIntGob op.OpSig.R ++
    env.bigIntGob op.OpSig.S ++ stringBytes op.PubKey ++ [op.ValidNum % 256]
  let opBytes := if !op.Add then opBytes.set 0 15 else opBytes
  env.md5 opBytes

/-- The method `Op.HashToString`. -/
def Op.HashToString (env : Env) (op : Op) : String :=
  hexEncode (Op.HashToBytes env op)

/-- The function `SetOpAdd`. -/
def SetOpAdd (op : Op) (add : Bool) : Op :=
  { OpShape := op.OpShape, OpSig := op.OpSig, PubKey := op.PubKey, ValidNum := op.ValidNum, Add := add }

namespace Block

/-- The method `GetPrevHash`. -/
def GetPrevHash : Block → String
  | OpBlock p _ _ _ => p
  | NoOpBlock p _ _ => p

/-- The method `GetMinerPubKey`. -/
def GetMinerPubKey : Block → String
  | OpBlock _ _ m _ => m
  | NoOpBlock _ m _ => m

/-- The method `GetNonce`. -/
def GetNonce : Block → Nat
  | OpBlock _ _ _ n => n
  | NoOpBlock _ _ n => n

/-- The method `GetOps`: nil for a `NoOpBlock`. -/
def GetOps : Block → List Op
  | OpBlock _ ops _ _ => ops
  | NoOpBlock _ _ _ => []

/-- The method `GetPowDifficulty` (a `uint8`). -/
def GetPowDifficulty (ns : MinerNetSettings) : Block → Nat
  | OpBlock _ _ _ _ => ns.PoWDifficultyOpBlock
  | NoOpBlock _ _ _ => ns.PoWDifficultyNoOpBlock

/-- The method `Hash` of `OpBlock` and of `NoOpBlock`. -/
def Hash (env : Env) : Block → String
  | OpBlock p ops m n =>
      hexEncode (env.md5 (stringBytes p ++ ops.flatMap (Op.HashToBytes env) ++ stringBytes m ++
        nonceBytes n))
  | NoOpBlock p m n =>
      hexEncode (env.md5 (stringBytes p ++ stringBytes m ++ nonceBytes n))

end Block

/-! ## Chain store (`blockchain.go`) -/

/-- A reference to a map in the `Heap`: what a Go map value is. -/
abbrev Ref := Nat

/-- The type `InkTable`: `map[string]uint32`. -/
abbrev InkTable := GoMap Nat

/-- The struct `MinerCanvas`. -/
structure MinerCanvas where
  Shape : Shape
  BlockHash : String
  deriving DecidableEq, Repr

/-- The type `Shapes`: `map[string]*MinerCanvas`.  Every pointer stored in it
is to a fresh struct that is never written again, so the struct is stored. -/
abbrev Shapes := GoMap MinerCanvas

/-- The struct `QueueShape`; `ValidNum` is a `uint8`. -/
structure QueueShape where
  Shape : Shape
  ValidNum : Nat
  Add : Bool
  BlockHash : String
  deriving DecidableEq, Repr

/-- The struct `BlockChainNode`.  Its four map fields are references. -/
structure BlockChainNode where
  Block : Block
  Children : List String
  Height : Nat
  InkTable : Ref
  Canvas : Ref
  QueueShapes : Ref
  OpLog : Ref
  deriving DecidableEq, Repr

/-- The maps that `make` has allocated, by kind; a reference is an index. -/
structure Heap where
  inkTables : List InkTable
  canvases : List Shapes
  queues : List (GoMap QueueShape)
  opLogs : List (GoMap Op)
  deriving DecidableEq, Repr

/-- An RPC call made to a peer by `FloodMinerNetworkOp` / `FloodMinerNetworkBlock`. -/
inductive Msg where
  | FloodOp (op : Op)
  | FloodOpBlock (b : Block)
  | FloodNoOpBlock (b : Block)
  deriving DecidableEq, Repr

/-- The package-level variables of `blockchain.go` and `common.go`, the heap of
maps, and the log of RPC calls made to peers (peer key, message). -/
structure State where
  treeTable : GoMap BlockChainNode
  longestLeafHash : String
  opQueue : GoMap Op
  blockWaitQ : List Block
  noParentBlocks : GoMap Block
  initialized : Bool
  heap : Heap
  ActiveNeighbours : List String
  sent : List (String × Msg)
  deriving DecidableEq, Repr

namespace Heap

/-- Dereference of an ink table. -/
def ink (h : Heap) (r : Ref) : InkTable := h.inkTables.getD r []

/-- Dereference of a canvas. -/
def canvas (h : Heap) (r : Ref) : Shapes := h.canvases.getD r []

/-- Dereference of a pending queue. -/
def queue (h : Heap) (r : Ref) : GoMap QueueShape := h.queues.getD r []

/-- Dereference of an op log. -/
def opLog (h : Heap) (r : Ref) : GoMap Op := h.opLogs.getD r []

end Heap

/-- The first part of `InitBlockchain` (lines 314–331): the global variables
are reset and the genesis node, with four freshly made maps, is put in
`treeTable`.  `ActiveNeighbours` is a variable of `common.go` and is kept;
`initialized` is false until the last lines of `InitBlockchain`. -/
def InitBlockchain_genesis (ns : MinerNetSettings) (neighbours : List String) : State :=
  { treeTable := GoMap.set [] ns.GenesisBlockHash
      { Block := Block.NoOpBlock "" "" 0, Children := [], Height := 0,
        InkTable := 0, Canvas := 0, QueueShapes := 0, OpLog := 0 }
    longestLeafHash := ns.GenesisBlockHash
    opQueue := []
    blockWaitQ := []
    noParentBlocks := []
    initialized := false
    heap := { inkTables := [[]], canvases := [[]], queues := [[]], opLogs := [[]] }
    ActiveNeighbours := neighbours
    sent := [] }

/-- The function `ShapeInk`: `uint32(area)`, the error of `Area` dropped. -/
def ShapeInk (env : Env) (shape : Shape) : Nat :=
  (env.shapeArea shape).1 % 2 ^ 32

/-! ### `strconv.ParseInt(s, 16, 0)` -/

/-- The digit value that `strconv.ParseUint` gives a byte; `none` is its
`default:` case (syntax error). -/
def digitVal (c : Char) : Option Nat :=
  if '0' ≤ c ∧ c ≤ '9' then some (c.toNat - '0'.toNat)
  else if 'a' ≤ c ∧ c ≤ 'z' then some (c.toNat - 'a'.toNat + 10)
  else if 'A' ≤ c ∧ c ≤ 'Z' then some (c.toNat - 'A'.toNat + 10)
  else none

/-- The `Err` field of a `*strconv.NumError`, or no error. -/
inductive NumErr where
  | ok
  | ErrSyntax
  | ErrRange
  deriving DecidableEq, Repr

/-- The digit loop of `strconv.ParseUint(s, 16, 64)`: a byte that is no digit,
or a digit of 16 or more, ends it with 0 and `ErrSyntax`; overflow of the
`uint64` ends it with `1<<64 - 1` and `ErrRange` (`cutoff` is `1<<60`). -/
def parseUintLoop : List Char → Nat → Nat × NumErr
  | [], n => (n, .ok)
  | c :: cs, n =>
    match digitVal c with
    | none => (0, .ErrSyntax)
    | some v =>
      if v ≥ 16 then (0, .ErrSyntax)
      else if n ≥ 2 ^ 60 then (2 ^ 64 - 1, .ErrRange)
      else
        let n16 := n * 16 % 2 ^ 64
        let n1 := (n16 + v) % 2 ^ 64
        if n1 < n16 ∨ n1 > 2 ^ 64 - 1 then (2 ^ 64 - 1, .ErrRange)
        else parseUintLoop cs n1

/-- The function `strconv.ParseUint(s, 16, 64)`: the empty string is a syntax
error. -/
def parseUint16 (s : List Char) : Nat × NumErr :=
  if s = [] then (0, .ErrSyntax) else parseUintLoop s 0

/-- The value `strconv.ParseInt(s, 16, 0)` returns (`int` has 64 bits); the
error is dropped, as `ZeroPrefix` drops it.  The empty string gives 0; a sign
is picked off; a syntax error of `ParseUint` gives 0; a magnitude of `1<<63`
or more gives `1<<63 - 1`, and one above `1<<63` after `-` gives `-1<<63`. -/
def parseInt16 (s : List Char) : Int :=
  match s with
  | [] => 0
  | c :: cs =>
    let neg := c = '-'
    let digits := if c = '+' ∨ c = '-' then cs else c :: cs
    let (un, err) := parseUint16 digits
    if err = .ErrSyntax then 0
    else if ¬ neg ∧ un ≥ 2 ^ 63 then 2 ^ 63 - 1
    else if neg ∧ un > 2 ^ 63 then -(2 ^ 63)
    else if neg then -(un : Int) else (un : Int)

/-- The function `ZeroPrefix`.  `hashString[:d]` panics when `d` exceeds the
length of the hash; the hash is ASCII, so bytes and characters coincide. -/
def ZeroPrefix (env : Env) (ns : MinerNetSettings) (block : Block) : Option Bool :=
  let hashString := block.Hash env
  let d := block.GetPowDifficulty ns
  if d ≤ hashString.data.length then
    some (decide (parseInt16 (hashString.data.take d) = 0))
  else none

/-! ### Validation -/

/-- The node `treeTable[longestLeafHash]`; `none` is a nil pointer. -/
def State.tip (s : State) : Option BlockChainNode :=
  s.treeTable.get s.longestLeafHash

/-- The function `ValidateShape`: the shapes of the tip canvas are copied into
a `Canvas` and `Shape.Validate` is called. -/
def ValidateShape (env : Env) (ns : MinerNetSettings) (s : State) (shape : Shape) :
    Option (Bool × Option Error) :=
  match s.tip with
  | none => none
  | some tip =>
    let latestShapesOnCanvas := s.heap.canvas tip.Canvas
    let shapes : GoMap Miner.Shape :=
      (env.rangeOrder latestShapesOnCanvas.keys).foldl
        (fun shapes key =>
          match latestShapesOnCanvas.get key with
          | some canvasPtr => shapes.set key canvasPtr.Shape
          | none => shapes)
        []
    let err := env.shapeValidate shape
      { Shapes := shapes, XMax := ns.CanvasXMax, YMax := ns.CanvasYMax }
    some (err.isNone, err)

/-- The function `ValidateOp`. -/
def ValidateOp (env : Env) (ns : MinerNetSettings) (s : State) (op : Op) :
    Option (Bool × Option Error) :=
  match env.DecodePubKey op.PubKey with
  | .hexError => some (false, some (.errorsNew "decode pubkey from str failed"))
  | .assertPanic => none
  | .key opPubKey =>
    let validated := env.ecdsaVerify opPubKey (Shape.HashToBytes env op.OpShape)
      op.OpSig.R op.OpSig.S
    if !validated then
      some (validated,
        some (.InvalidShapeHashError "shape hash not signed by provided pub key"))
    else
      match s.tip with
      | none => none
      | some tip =>
        if op.Add then
          let minerInk := ((s.heap.ink tip.InkTable).get op.PubKey).getD 0
          let opCost := ShapeInk env op.OpShape
          if opCost > minerInk then
            some (false, some (.InsufficientInkError minerInk))
          else
            ValidateShape env ns s op.OpShape
        else
          let addOp := SetOpAdd op true
          let shapeExistsOnCanvas := (s.heap.canvas tip.Canvas).has (addOp.HashToString env)
          if !shapeExistsOnCanvas then
            some (false, some (.ShapeOwnerError "shape doesn't exist on canvas"))
          else
            match (s.heap.queue tip.QueueShapes).get (op.HashToString env) with
            | some shapeQueue =>
              if !shapeQueue.Add then
                some (false, some (.errorsNew "shape was in queue to be deleted"))
              else some (validated, none)
            | none => some (validated, none)

/-- The loop of `ValidateBlock` over the ops of the block; before the first op
`validated` is the `true` of `ZeroPrefix` and `err` is nil. -/
def validateOps (env : Env) (ns : MinerNetSettings) (s : State) :
    List Op → Option (Bool × Option Error)
  | [] => some (true, none)
  | op :: ops =>
    match ValidateOp env ns s op with
    | none => none
    | some (validated, err) =>
      if !validated || err.isSome then some (validated, err)
      else validateOps env ns s ops

/-- The function `ValidateBlock`.  It writes `noParentBlocks` when the parent
is unknown, so it returns the state too. -/
def ValidateBlock (env : Env) (ns : MinerNetSettings) (s : State) (block : Block) :
    Option (State × Bool × Option Error) :=
  match ZeroPrefix env ns block with
  | none => none
  | some validated =>
    if !validated then
      some (s, false, some (.InvalidBlockHashError "invalid nonce"))
    else if !s.treeTable.has block.GetPrevHash then
      some ({ s with noParentBlocks := s.noParentBlocks.set (block.Hash env) block }, false,
        some (.InvalidBlockHashError "previous block pointer is not in blockchain"))
    else
      match validateOps env ns s block.GetOps with
      | none => none
      | some (validated, err) => some (s, validated, err)

/-! ### Applying a block -/

/-- One iteration of the loop `for key, _ := range queueShapes` of
`AddBlockToBlockchain`, on the pending queue and the canvas of the parent.
`ValidNum--` is a `uint8` decrement; `tipOpLog` is
`treeTable[longestLeafHash].OpLog`, `none` when that node is nil. -/
def commitEntry (env : Env) (tipOpLog : Option (GoMap Op))
    (acc : GoMap QueueShape × Shapes) (key : String) : Option (GoMap QueueShape × Shapes) :=
  match acc.1.get key with
  | none => none
  | some q =>
    let q := { q with ValidNum := (q.ValidNum + 255) % 256 }
    let queueShapes := acc.1.set key q
    if q.ValidNum > 0 then some (queueShapes, acc.2)
    else if q.Add then
      some (queueShapes.del key, acc.2.set key { Shape := q.Shape, BlockHash := q.BlockHash })
    else
      match tipOpLog with
      | none => none
      | some opLog =>
        match opLog.get key with
        | none => none
        | some deleteOp =>
          let addOp := SetOpAdd deleteOp true
          some (queueShapes.del key, acc.2.del (addOp.HashToString env))

/-- The whole loop over `queueShapes`. -/
def commitLoop (env : Env) (tipOpLog : Option (GoMap Op)) :
    List String → GoMap QueueShape × Shapes → Option (GoMap QueueShape × Shapes)
  | [], acc => some acc
  | key :: keys, acc =>
    match commitEntry env tipOpLog acc key with
    | none => none
    | some acc => commitLoop env tipOpLog keys acc

/-- The maps that the loop over the ops of an `OpBlock` writes. -/
structure OpLoopState where
  queueShapes : GoMap QueueShape
  opLog : GoMap Op
  opQueue : GoMap Op
  inkTable : InkTable
  deriving DecidableEq, Repr

/-- One iteration of `for _, op := range block.GetOps()` in
`AddBlockToBlockchain`.  `opLog[...] = &op` stores the address of the loop
variable of this iteration, which holds `op` and is never assigned again: the
entry reads as `op`.  The ink arithmetic is `uint32`. -/
def applyOp (env : Env) (blockHash : String) (st : OpLoopState) (op : Op) :
    OpLoopState :=
  let qs : QueueShape :=
    { Shape := op.OpShape, ValidNum := op.ValidNum, Add := op.Add, BlockHash := blockHash }
  let cost := ShapeInk env op.OpShape
  let old := (st.inkTable.get op.PubKey).getD 0
  { queueShapes := st.queueShapes.set (op.HashToString env) qs
    opLog := st.opLog.set (op.HashToString env) op
    opQueue := st.opQueue.del (op.HashToString env)
    inkTable :=
      if op.Add then st.inkTable.set op.PubKey ((old + 2 ^ 32 - cost) % 2 ^ 32)
      else st.inkTable.set op.PubKey ((old + cost) % 2 ^ 32) }

/-- The miner's reward: `inkTable[minerPubKey] = 0` when the key is new, then
`inkTable[minerPubKey] += reward` in `uint32`. -/
def rewardMiner (inkTable : InkTable) (minerPubKey : String) (reward : Nat) : InkTable :=
  let inkTable := if inkTable.has minerPubKey then inkTable else inkTable.set minerPubKey 0
  inkTable.set minerPubKey (((inkTable.get minerPubKey).getD 0 + reward) % 2 ^ 32)

/-- The `switch block.(type)` of `AddBlockToBlockchain`: the miner is
rewarded, and for an `OpBlock` the loop over its ops runs. -/
def blockSwitch (env : Env) (ns : MinerNetSettings) (block : Block) (blockHash : String)
    (st : OpLoopState) : OpLoopState :=
  match block with
  | .OpBlock _ ops minerPubKey _ =>
    let st0 := { st with
      inkTable := rewardMiner st.inkTable minerPubKey (ns.InkPerOpBlock % 2 ^ 32) }
    ops.foldl (applyOp env blockHash) st0
  | .NoOpBlock _ minerPubKey _ =>
    { st with inkTable := rewardMiner st.inkTable minerPubKey (ns.InkPerNoOpBlock % 2 ^ 32) }

/-- The body of `AddBlockToBlockchain` from `blockHash := block.Hash()` on
(lines 507–627), run on the state that the call of `ValidateBlock` leaves.
`rnd` is the value that `shared.RandomNumGenerator()` returns if it is called.
The four maps of the parent are updated in place and the new node receives
the same four references: the source never copies a map.  A parent whose
references are not in the heap has no counterpart in Go and is a failure. -/
def addBlockBody (env : Env) (ns : MinerNetSettings) (s : State) (block : Block)
    (rnd : Nat) : Option State :=
  let blockHash := block.Hash env
  let previousBlockHash := block.GetPrevHash
  match s.treeTable.get previousBlockHash with
  | none => none
  | some node =>
    let previousBlock := { node with Children := node.Children ++ [blockHash] }
    let treeTable := s.treeTable.set previousBlockHash previousBlock
    if ¬ (previousBlock.InkTable < s.heap.inkTables.length ∧
          previousBlock.Canvas < s.heap.canvases.length ∧
          previousBlock.QueueShapes < s.heap.queues.length ∧
          previousBlock.OpLog < s.heap.opLogs.length) then none
    else
    let canvas := s.heap.canvas previousBlock.Canvas
    let queueShapes := s.heap.queue previousBlock.QueueShapes
    let tipOpLog := (treeTable.get s.longestLeafHash).map fun n => s.heap.opLog n.OpLog
    match commitLoop env tipOpLog (env.rangeOrder queueShapes.keys) (queueShapes, canvas) with
    | none => none
    | some committed =>
      let queueShapes := committed.1
      let canvas := committed.2
      let opLog := s.heap.opLog previousBlock.OpLog
      let inkTable := s.heap.ink previousBlock.InkTable
      if (stringBytes block.GetMinerPubKey).length < 10 then none
      else
        let st := blockSwitch env ns block blockHash
          { queueShapes := queueShapes, opLog := opLog, opQueue := s.opQueue,
            inkTable := inkTable }
        let bct : BlockChainNode :=
          { Block := block, Children := [], Height := previousBlock.Height + 1,
            InkTable := previousBlock.InkTable, Canvas := previousBlock.Canvas,
            QueueShapes := previousBlock.QueueShapes, OpLog := previousBlock.OpLog }
        let treeTable := treeTable.set blockHash bct
        match treeTable.get s.longestLeafHash with
        | none => none
        | some longestLeaf =>
          let longestLeafHeight := longestLeaf.Height
          let longestLeafHash :=
            if bct.Height > longestLeafHeight then blockHash
            else if bct.Height = longestLeafHeight then
              (if rnd % 2 = 0 then blockHash else s.longestLeafHash)
            else s.longestLeafHash
          some { s with
            treeTable := treeTable
            longestLeafHash := longestLeafHash
            opQueue := st.opQueue
            heap :=
              { inkTables := s.heap.inkTables.set previousBlock.InkTable st.inkTable
                canvases := s.heap.canvases.set previousBlock.Canvas canvas
                queues := s.heap.queues.set previousBlock.QueueShapes st.queueShapes
                opLogs := s.heap.opLogs.set previousBlock.OpLog st.opLog } }

/-- The function `AddBlockToBlockchain`: it calls `ValidateBlock` (the result
is only logged, but the call can panic and can write `noParentBlocks`) and
goes on whatever the result. -/
def AddBlockToBlockchain (env : Env) (ns : MinerNetSettings) (s : State) (block : Block)
    (rnd : Nat) : Option State :=
  match ValidateBlock env ns s block with
  | none => none
  | some (s, _, _) => addBlockBody env ns s block rnd

/-! ### Dissemination -/

/-- The function `FloodMinerNetworkOp`: one RPC call per neighbour. -/
def FloodMinerNetworkOp (env : Env) (s : State) (args : Op) : State :=
  { s with sent := s.sent ++ (env.rangeOrder s.ActiveNeighbours).map fun k => (k, Msg.FloodOp args) }

/-- The function `FloodMinerNetworkBlock`: one RPC call per neighbour. -/
def FloodMinerNetworkBlock (env : Env) (s : State) (args : Block) : State :=
  { s with sent := s.sent ++ (env.rangeOrder s.ActiveNeighbours).map fun k =>
      match args with
      | .OpBlock _ _ _ _ => (k, Msg.FloodOpBlock args)
      | .NoOpBlock _ _ _ => (k, Msg.FloodNoOpBlock args) }

/-- The function `DisseminateOp`: the new state and the returned error. -/
def DisseminateOp (env : Env) (ns : MinerNetSettings) (s : State) (op : Op) :
    Option (State × Option Error) :=
  let opHashStr := op.HashToString env
  match s.tip with
  | none => none
  | some tip =>
    let existInLog := (s.heap.opLog tip.OpLog).has opHashStr
    let existInQueue := s.opQueue.has opHashStr
    if !existInLog && !existInQueue then
      match ValidateOp env ns s op with
      | none => none
      | some (validated, err) =>
        if !validated || err.isSome then some (s, err)
        else
          let s := { s with opQueue := s.opQueue.set opHashStr op }
          some (FloodMinerNetworkOp env s op, none)
    else some (s, none)

/-- The function `disseminateBlock`: the new state and the returned error. -/
def disseminateBlock (env : Env) (ns : MinerNetSettings) (s : State) (block : Block)
    (rnd : Nat) : Option (State × Option Error) :=
  let blockHashStr := block.Hash env
  if !s.treeTable.has blockHashStr then
    match ValidateBlock env ns s block with
    | none => none
    | some (s, validated, err) =>
      if !validated || err.isSome then some (s, err)
      else
        match AddBlockToBlockchain env ns s block rnd with
        | none => none
        | some s => some (FloodMinerNetworkBlock env s block, none)
  else some (s, none)

/-- The function `DisseminateBlock`. -/
def DisseminateBlock (env : Env) (ns : MinerNetSettings) (s : State) (block : Block)
    (rnd : Nat) : Option (State × Option Error) :=
  if !s.initialized then some ({ s with blockWaitQ := s.blockWaitQ ++ [block] }, none)
  else disseminateBlock env ns s block rnd

/-! ## Majority reconciliation (`miner-miner.go`) -/

/-- The address `&chain` taken in one iteration of the inner loop
`for _, chain := range chains` of `GetLongestChainInNetwork`.  Every iteration
has its own variable `chain`; the address is the number of the variable among
those the loop has declared so far. -/
structure ChainPtr where
  addr : Nat
  deriving DecidableEq, Repr

/-- The local type `BlockHashCountTable`: `map[string][]*RawBlockchain`. -/
abbrev BlockHashCountTable := GoMap (List ChainPtr)

/-- The local helper `getHashWithMaxCount`. -/
def getHashWithMaxCount (env : Env) (tbl : BlockHashCountTable) : Nat × String :=
  (env.rangeOrder tbl.keys).foldl
    (fun (acc : Nat × String) hash =>
      let chains := (tbl.get hash).getD []
      if chains.length > acc.1 then (chains.length, hash) else acc)
    (0, "")

/-- The local helper `GethMaxLengthOfChains`. -/
def GethMaxLengthOfChains (chains : List RawBlockchain) : Nat :=
  chains.foldl (fun maxLength chain => if chain.length > maxLength then chain.length
    else maxLength) 0

/-- The inner loop of `GetLongestChainInNetwork` at index `i`: the table it
fills, and the variables `chain` of its iterations, which the addresses in the
table point to.  The variable of an iteration holds the chain of that
iteration. -/
def countHashesAt (env : Env) (chains : List RawBlockchain) (i : Nat) :
    BlockHashCountTable × List RawBlockchain :=
  chains.foldl
    (fun (acc : BlockHashCountTable × List RawBlockchain) chain =>
      match chain[i]? with
      | some b =>
        let h := b.Hash env
        (acc.1.set h ((acc.1.get h).getD [] ++ [ChainPtr.mk acc.2.length]), acc.2 ++ [chain])
      | none => (acc.1, acc.2 ++ [chain]))
    ([], [])

/-- The outer loop `for i := ...; i >= 0; i--` of `GetLongestChainInNetwork`
from index `i` down: `maxHash`, the last table and the variables its addresses
point to. -/
def majorityLoop (env : Env) (chains : List RawBlockchain) (majority : Nat) :
    Nat → String × BlockHashCountTable × List RawBlockchain
  | 0 =>
    let inner := countHashesAt env chains 0
    let maxes := getHashWithMaxCount env inner.1
    if maxes.1 > majority then (maxes.2, inner.1, inner.2) else ("", inner.1, inner.2)
  | i + 1 =>
    let inner := countHashesAt env chains (i + 1)
    let maxes := getHashWithMaxCount env inner.1
    if maxes.1 > majority then (maxes.2, inner.1, inner.2)
    else majorityLoop env chains majority i

/-- The function `GetLongestChainInNetwork`.  `*(blockHashCountTbl[maxHash][0])`
reads the variable `chain` of the iteration that stored the first address;
`none` is the panic of indexing an empty slice. -/
def GetLongestChainInNetwork (env : Env) (chains : List RawBlockchain) :
    Option RawBlockchain :=
  let majority := chains.length / 2
  let loop := majorityLoop env chains majority (GethMaxLengthOfChains chains)
  let maxHash := loop.1
  let blockHashCountTbl := loop.2.1
  let chainVars := loop.2.2
  if maxHash = "" then some []
  else
    match (blockHashCountTbl.get maxHash).getD [] with
    | [] => none
    | p :: _ => chainVars[p.addr]?

/-! ## Example environment and inputs -/

/-- A stand-in for MD5 in worked examples: 16 bytes, each a running checksum
of the input.  The examples only use that the blocks they name get different
digests. -/
def toyDigest (bs : List Nat) : List Nat :=
  (List.range 16).map fun i => bs.foldl (fun acc b => (acc * 31 + b + i) % 256) i

/-- The environment of the worked examples: every key decodes, every signature
verifies, every shape has area 10 and is valid, maps are visited in stored
order. -/
def toyEnv : Env where
  md5 := toyDigest
  md5_length := by intro bs; simp [toyDigest]
  gobString := stringBytes
  bigIntGob := fun z => [z.natAbs % 256]
  DecodePubKey := fun _ => .key ⟨1, 1⟩
  ecdsaVerify := fun _ _ _ _ => true
  shapeArea := fun _ => (10, none)
  shapeValidate := fun _ _ => none
  rangeOrder := id
  rangeOrder_perm := fun _ => List.Perm.refl _

/-- Network settings of the worked examples (difficulty 0: every hash passes). -/
def exNS : MinerNetSettings :=
  { GenesisBlockHash := "83218ac34c1834c26781fe4bde918ee4", InkPerOpBlock := 20,
    InkPerNoOpBlock := 10, PoWDifficultyOpBlock := 0, PoWDifficultyNoOpBlock := 0,
    CanvasXMax := 1024, CanvasYMax := 1024 }

/-- Block A of the examples: a no-op block on genesis. -/
def exA : Block := .NoOpBlock "83218ac34c1834c26781fe4bde918ee4" "miner-0001" 1

/-- Block B of the examples: a no-op block on A. -/
def exB : Block := .NoOpBlock "a5c6e708294a6b8cadceef1031527394" "miner-0001" 2

/-- Block C of the examples: another no-op block on genesis, by another miner. -/
def exC : Block := .NoOpBlock "83218ac34c1834c26781fe4bde918ee4" "miner-0002" 3

/-! ## Vocabulary of the specification -/

/-- The number of chains that hold a block with hash `h` at index `i`. -/
def holdersAt (env : Env) (chains : List RawBlockchain) (i : Nat) (h : String) : Nat :=
  (chains.filter fun ch => decide ((ch[i]?).map (Block.Hash env) = some h)).length

/-- The first chain, in input order, whose block at index `i` has hash `h`. -/
def firstHolder (env : Env) (chains : List RawBlockchain) (i : Nat) (h : String) :
    Option RawBlockchain :=
  chains.find? fun ch => decide ((ch[i]?).map (Block.Hash env) = some h)

/-- The signed sum of the costs of the ops of `ops` that `pk` authored: minus
the cost for an add, plus the cost for a delete. -/
def inkDelta (env : Env) (ops : List Op) (pk : String) : Int :=
  (ops.map fun op =>
    if op.PubKey = pk then
      (if op.Add then -(ShapeInk env op.OpShape : Int) else (ShapeInk env op.OpShape : Int))
    else 0).sum

/-- The reward `AddBlockToBlockchain` pays for a block, by kind. -/
def blockReward (ns : MinerNetSettings) : Block → Nat
  | .OpBlock _ _ _ _ => ns.InkPerOpBlock
  | .NoOpBlock _ _ _ => ns.InkPerNoOpBlock

/-- The four maps of a node, read through the references the node holds. -/
structure Snapshot where
  ink : InkTable
  canvas : Shapes
  queue : GoMap QueueShape
  opLog : GoMap Op
  deriving DecidableEq, Repr

/-- The snapshot of the node stored under hash `h`. -/
def snapshotOf (s : State) (h : String) : Option Snapshot :=
  (s.treeTable.get h).map fun n =>
    { ink := s.heap.ink n.InkTable, canvas := s.heap.canvas n.Canvas,
      queue := s.heap.queue n.QueueShapes, opLog := s.heap.opLog n.OpLog }

/-- The condition under which the block tree takes a call
`AddBlockToBlockchain(b)`: the parent of `b` is known, and the hash of `b` is
new in `treeTable`, or it is the key of a node that holds this very block (the
same block arriving again) and is not the key of the genesis node.  A node is
identified by its block hash; a different block under a hash already in use
is what is excluded. -/
def Admissible (env : Env) (ns : MinerNetSettings) (s : State) (b : Block) : Prop :=
  (s.treeTable.get b.GetPrevHash).isSome = true ∧
  (s.treeTable.get (b.Hash env) = none ∨
    (b.Hash env ≠ ns.GenesisBlockHash ∧
      (s.treeTable.get (b.Hash env)).map BlockChainNode.Block = some b))

/-- The states that a sequence of calls of `AddBlockToBlockchain` on blocks
whose parent is known reaches from the genesis-only tree of `InitBlockchain`,
for any values `rnd` of the coin flips. -/
inductive Reachable (env : Env) (ns : MinerNetSettings) : State → Prop where
  | init (neighbours : List String) : Reachable env ns (InitBlockchain_genesis ns neighbours)
  | add {s s' : State} (b : Block) (rnd : Nat) :
      Reachable env ns s → Admissible env ns s b →
      AddBlockToBlockchain env ns s b rnd = some s' → Reachable env ns s'

/-- Every node but the genesis node has its parent in the tree, one level up. -/
def HeightInv (ns : MinerNetSettings) (s : State) : Prop :=
  ∀ h n, s.treeTable.get h = some n → h ≠ ns.GenesisBlockHash →
    ∃ p, s.treeTable.get n.Block.GetPrevHash = some p ∧ n.Height = p.Height + 1

/-- The node that `longestLeafHash` names exists and no node is higher. -/
def TipMax (s : State) : Prop :=
  ∃ t, s.treeTable.get s.longestLeafHash = some t ∧
    ∀ h n, s.treeTable.get h = some n → n.Height ≤ t.Height

/-- Every node holds the references to the four maps that `InitBlockchain`
made, and the heap holds exactly those four maps. -/
def SharedMaps (s : State) : Prop :=
  (∀ h n, s.treeTable.get h = some n →
    n.InkTable = 0 ∧ n.Canvas = 0 ∧ n.QueueShapes = 0 ∧ n.OpLog = 0) ∧
  s.heap.inkTables.length = 1 ∧ s.heap.canvases.length = 1 ∧
  s.heap.queues.length = 1 ∧ s.heap.opLogs.length = 1

/-- The pending queue has no key twice, and each of its keys is in the op log. -/
def QueueWF (s : State) : Prop :=
  (s.heap.queue 0).keys.Nodup ∧
  ∀ k, (s.heap.queue 0).get k ≠ none → (s.heap.opLog 0).get k ≠ none

/-- A filled 5 by 2 rectangle owned by `miner-0001`; its area is 10. -/
def exShape : Shape :=
  { Owner := "miner-0001", ShapeType := 0, Svg := "M 0 0 H 5 V 2 H 0 Z", Fill := "red",
    Stroke := "transparent" }

/-- An add op for `exShape` with `ValidNum = 0`. -/
def exOp0 : Op :=
  { Add := true, OpShape := exShape, OpSig := ⟨7, 9⟩, PubKey := "miner-0001", ValidNum := 0 }

/-- An add op for `exShape` with `ValidNum = 2`. -/
def exOp2 : Op :=
  { Add := true, OpShape := exShape, OpSig := ⟨7, 9⟩, PubKey := "miner-0001", ValidNum := 2 }

/-- Block D of the examples: an op block on A, mined by `miner-0002`, that
carries `exOp2`. -/
def exD : Block := .OpBlock "a5c6e708294a6b8cadceef1031527394" [exOp2] "miner-0002" 4

/-- Block E of the examples: an op block on A, mined by `miner-0002`, that
carries `exOp0`. -/
def exE : Block := .OpBlock "a5c6e708294a6b8cadceef1031527394" [exOp0] "miner-0002" 5

/-- Block F of the examples: a no-op block on E. -/
def exF : Block := .NoOpBlock "f8193a5b7c9dbedf0021426384a5c6e7" "miner-0002" 6

/-- The genesis-only tree of the examples, with one peer. -/
def exS0 : State := InitBlockchain_genesis exNS ["peer-0001"]

/-- The example state after block A is applied to the genesis-only tree. -/
def exS1 : State := (AddBlockToBlockchain toyEnv exNS exS0 exA 0).getD exS0

/-- The example state after `exOp2` is disseminated in `exS1`. -/
def exS1q : State := ((DisseminateOp toyEnv exNS exS1 exOp2).map Prod.fst).getD exS1

/-- The example state after block D is applied to `exS1`. -/
def exS1D : State := (AddBlockToBlockchain toyEnv exNS exS1 exD 0).getD exS1

/-- The example state after block E is applied to `exS1`. -/
def exS1E : State := (AddBlockToBlockchain toyEnv exNS exS1 exE 0).getD exS1

/-- The example state after block F is applied to `exS1E`. -/
def exS1EF : State := (AddBlockToBlockchain toyEnv exNS exS1E exF 0).getD exS1E

/-- The example state after block C, a sibling of A, is applied to `exS1`. -/
def exS1C : State := (AddBlockToBlockchain toyEnv exNS exS1 exC 1).getD exS1

/-- Block G of the examples: a no-op block on D. -/
def exG : Block := .NoOpBlock "f718395a7b9cbddeff20416283a4c5e6" "miner-0002" 7

/-- Block H of the examples: a no-op block on G. -/
def exH : Block := .NoOpBlock "e10223446586a7c8e90a2b4c6d8eafd0" "miner-0002" 8

/-- The example state after block G is applied to `exS1D`. -/
def exS1DG : State := (AddBlockToBlockchain toyEnv exNS exS1D exG 0).getD exS1D

/-- The example state after block H is applied to `exS1DG`. -/
def exS1DGH : State := (AddBlockToBlockchain toyEnv exNS exS1DG exH 0).getD exS1DG

/-- The example state `exS1q` once initialization is over. -/
def exS1qInit : State := { exS1q with initialized := true }

/-- A filled square of side 70000; its area is 4900000000, above `2^32`. -/
def exBigShape : Shape :=
  { Owner := "miner-0001", ShapeType := 0, Svg := "M 0 0 H 70000 V 70000 H 0 Z", Fill := "red",
    Stroke := "transparent" }

/-- An add op for `exBigShape`. -/
def exBigOp : Op :=
  { Add := true, OpShape := exBigShape, OpSig := ⟨7, 9⟩, PubKey := "miner-0001", ValidNum := 2 }

/-- The example environment, with `Shape.Area` giving the area of `exBigShape`. -/
def bigAreaEnv : Env :=
  { toyEnv with
    shapeArea := fun sh => if sh.Svg = "M 0 0 H 70000 V 70000 H 0 Z" then (4900000000, none)
      else (10, none) }

/-- Settings with a canvas that bounds `exBigShape`. -/
def bigNS : MinerNetSettings := { exNS with CanvasXMax := 100000, CanvasYMax := 100000 }

/-- The example state `exS1` with 700000000 ink for `miner-0001`. -/
def exRich : State :=
  { exS1 with heap := { exS1.heap with inkTables := [[("miner-0001", 700000000)]] } }

/-- The example state after block C, which hangs under genesis, is applied to
`exS1DG`, whose longest leaf G is at height 3. -/
def exS1DGC : State := (AddBlockToBlockchain toyEnv exNS exS1DG exC 0).getD exS1DG

/-! ## The digest and the encodings behind the hashes (`crypto/md5`, `encoding/gob`, `math/big`) -/

/-- The per-round shift amounts of MD5 (RFC 1321). -/
def md5Shifts : List Nat :=
  [7, 12, 17, 22, 7, 12, 17, 22, 7, 12, 17, 22, 7, 12, 17, 22,
   5, 9, 14, 20, 5, 9, 14, 20, 5, 9, 14, 20, 5, 9, 14, 20,
   4, 11, 16, 23, 4, 11, 16, 23, 4, 11, 16, 23, 4, 11, 16, 23,
   6, 10, 15, 21, 6, 10, 15, 21, 6, 10, 15, 21, 6, 10, 15, 21]

/-- The per-round additive constants of MD5, the integer parts of
2^32 * |sin(i + 1)|. -/
def md5Consts : List Nat :=
  [3614090360, 3905402710, 606105819, 3250441966,
   4118548399, 1200080426, 2821735955, 4249261313,
   1770035416, 2336552879, 4294925233, 2304563134,
   1804603682, 4254626195, 2792965006, 1236535329,
   4129170786, 3225465664, 643717713, 3921069994,
   3593408605, 38016083, 3634488961, 3889429448,
   568446438, 3275163606, 4107603335, 1163531501,
   2850285829, 4243563512, 1735328473, 2368359562,
   4294588738, 2272392833, 1839030562, 4259657740,
   2763975236, 1272893353, 4139469664, 3200236656,
   681279174, 3936430074, 3572445317, 76029189,
   3654602809, 3873151461, 530742520, 3299628645,
   4096336452, 1126891415, 2878612391, 4237533241,
   1700485571, 2399980690, 4293915773, 2240044497,
   1873313359, 4264355552, 2734768916, 1309151649,
   4149444226, 3174756917, 718787259, 3951481745]

/-- Rotation of a 32-bit word to the left. -/
def rotl32 (x s : Nat) : Nat :=
  (x * 2 ^ s + x / 2 ^ (32 - s)) % 2 ^ 32

/-- The four 32-bit words of the MD5 state. -/
structure Md5State where
  a : Nat
  b : Nat
  c : Nat
  d : Nat
  deriving DecidableEq, Repr

/-- The little-endian 32-bit word number i of a 64-byte chunk. -/
def md5Word (chunk : List Nat) (i : Nat) : Nat :=
  chunk.getD (4 * i) 0 + chunk.getD (4 * i + 1) 0 * 2 ^ 8 +
    chunk.getD (4 * i + 2) 0 * 2 ^ 16 + chunk.getD (4 * i + 3) 0 * 2 ^ 24

/-- Bitwise complement of a 32-bit word. -/
def not32 (x : Nat) : Nat := 2 ^ 32 - 1 - x

/-- One of the 64 steps of the MD5 compression function. -/
def md5Step (chunk : List Nat) (st : Md5State) (i : Nat) : Md5State :=
  let f :=
    if i < 16 then (st.b &&& st.c) ||| (not32 st.b &&& st.d)
    else if i < 32 then (st.d &&& st.b) ||| (not32 st.d &&& st.c)
    else if i < 48 then st.b ^^^ st.c ^^^ st.d
    else st.c ^^^ (st.b ||| not32 st.d)
  let g :=
    if i < 16 then i
    else if i < 32 then (5 * i + 1) % 16
    else if i < 48 then (3 * i + 5) % 16
    else (7 * i) % 16
  let x := (st.a + f + md5Consts.getD i 0 + md5Word chunk g) % 2 ^ 32
  ⟨st.d, (st.b + rotl32 x (md5Shifts.getD i 0)) % 2 ^ 32, st.b, st.c⟩

/-- The MD5 compression function on one 64-byte chunk. -/
def md5Block (st : Md5State) (chunk : List Nat) : Md5State :=
  let r := (List.range 64).foldl (md5Step chunk) st
  ⟨(st.a + r.a) % 2 ^ 32, (st.b + r.b) % 2 ^ 32, (st.c + r.c) % 2 ^ 32,
    (st.d + r.d) % 2 ^ 32⟩

/-- The little-endian bytes of a word, n of them. -/
def leBytes (n x : Nat) : List Nat :=
  (List.range n).map fun i => x / 2 ^ (8 * i) % 256

/-- The MD5 padding: a 1 bit, zeros up to 56 mod 64, the bit length in 64 bits. -/
def md5Pad (bs : List Nat) : List Nat :=
  bs ++ [128] ++ List.replicate ((119 - bs.length % 64) % 64) 0 ++
    leBytes 8 (8 * bs.length % 2 ^ 64)

/-- The digest crypto/md5 computes (RFC 1321), on a list of bytes. -/
def md5Sum (bs : List Nat) : List Nat :=
  let p := md5Pad (bs.map (· % 256))
  let st := (List.range (p.length / 64)).foldl
    (fun st i => md5Block st ((p.drop (64 * i)).take 64))
    (⟨0x67452301, 0xefcdab89, 0x98badcfe, 0x10325476⟩ : Md5State)
  leBytes 4 st.a ++ leBytes 4 st.b ++ leBytes 4 st.c ++ leBytes 4 st.d

/-- The base-256 digits of a number put in front of a list, most significant
first; `fuel` bounds the number of digits. -/
def beBytesAux : Nat → Nat → List Nat → List Nat
  | 0, _, acc => acc
  | fuel + 1, n, acc => if n = 0 then acc else beBytesAux fuel (n / 256) (n % 256 :: acc)

/-- The big-endian bytes of a natural number, without leading zeros (none for 0). -/
def beBytes (n : Nat) : List Nat := beBytesAux n n []

/-- An unsigned integer on the gob wire: one byte below 128, else the negated
byte count followed by the big-endian bytes. -/
def gobUint (n : Nat) : List Nat :=
  if n < 128 then [n] else (256 - (beBytes n).length) % 256 :: beBytes n

/-- The message `gob.NewEncoder(buff).Encode(s)` writes for a string on a fresh
encoder, which is what `shared.Serialize` returns: the length of the rest, the
type id of `string` (6, as the signed integer 12), the zero delta of a
top-level value that is not a struct, the byte count, the bytes. -/
def gobEncodeString (s : String) : List Nat :=
  let body := [12, 0] ++ gobUint (stringBytes s).length ++ stringBytes s
  gobUint body.length ++ body

/-- The method `(*big.Int).GobEncode` on a non-nil integer: a byte with the
version 1 and the sign bit, then the magnitude in big-endian bytes. -/
def bigIntGobEncode (z : Int) : List Nat :=
  (if z < 0 then 3 else 2) :: beBytes z.natAbs

/-- The byte string `Op.HashToBytes` hands to `shared.HashByteArr`: the
concatenation `opBytes`, with its first byte overwritten for a delete op. -/
def Op.hashInput (env : Env) (op : Op) : List Nat :=
  let opBytes := Shape.HashToBytes env op.OpShape ++ env.bigIntGob op.OpSig.R ++
    env.bigIntGob op.OpSig.S ++ stringBytes op.PubKey ++ [op.ValidNum % 256]
  if !op.Add then opBytes.set 0 15 else opBytes

/-! ## The chain on the wire (`miner-miner.go`) -/

/-- The struct `GeneralBlock` of `block.go`. -/
structure GeneralBlock where
  PrevHash : String
  PubKeyMiner : String
  Nonce : Nat
  Ops : List Op
  deriving DecidableEq, Repr

/-- The type `RawGenBlockchain`. -/
abbrev RawGenBlockchain := List GeneralBlock

/-- The method `MinerMinerRPC.GetChain`, from the chain `GetLongestChain()`
returned: the reply it stores. -/
def GetChain (rawChain : RawBlockchain) : RawGenBlockchain :=
  rawChain.map fun block =>
    match block with
    | .OpBlock prevHash ops pubKeyMiner nonce =>
        { PrevHash := prevHash, PubKeyMiner := pubKeyMiner, Nonce := nonce, Ops := ops }
    | .NoOpBlock prevHash pubKeyMiner nonce =>
        { PrevHash := prevHash, PubKeyMiner := pubKeyMiner, Nonce := nonce, Ops := [] }

/-- The inner loop of `GetNetworkBlockchain`: one reply turned into a raw chain. -/
def GetNetworkBlockchain_rawChain (reply : RawGenBlockchain) : RawBlockchain :=
  reply.map fun genBlock =>
    if genBlock.Ops.length = 0 then
      .NoOpBlock genBlock.PrevHash genBlock.PubKeyMiner genBlock.Nonce
    else
      .OpBlock genBlock.PrevHash genBlock.Ops genBlock.PubKeyMiner genBlock.Nonce

/-- The function `GetNetworkBlockchain`, from the outcome of the call
`MinerMinerRPC.GetChain` to each neighbour (`none`: the call failed). -/
def GetNetworkBlockchain (env : Env) (replies : List (Option RawGenBlockchain)) :
    Option RawBlockchain :=
  GetLongestChainInNetwork env
    (replies.filterMap fun r => r.map GetNetworkBlockchain_rawChain)

/-! ## The longest chain, client side (`art-app.go`) -/

/-- The struct `block` of `art-app.go`; `parentBlock` is `none` for a nil pointer. -/
inductive block where
  | mk (parentBlock : Option block) (blockHash : String)

/-- The field `blockHash`. -/
def block.blockHash : block → String
  | .mk _ h => h

/-- The field `parentBlock`. -/
def block.parentBlock : block → Option block
  | .mk p _ => p

/-- The loop over `allBlocks[currDepth]` in `getLongestChain`: the slice
`allBlocks[currDepth+1]` it builds, or the error of the first failing
`GetChildren`. -/
def childrenOfDepth (GetChildren : String → Except String (List String)) :
    List block → Except String (List block)
  | [] => .ok []
  | blk :: rest =>
    match GetChildren blk.blockHash with
    | .error e => .error e
    | .ok children =>
      match childrenOfDepth GetChildren rest with
      | .error e => .error e
      | .ok more => .ok (children.map (fun child => block.mk (some blk) child) ++ more)

/-- The outer `for` loop of `getLongestChain`, from `allBlocks[currDepth]`:
the depth and the slice at the `break`, or the error.  `none`: the loop has
not ended after `fuel` rounds. -/
def groupByDepth (GetChildren : String → Except String (List String)) :
    Nat → Nat → List block → Option (Except String (Nat × List block))
  | 0, _, _ => none
  | fuel + 1, currDepth, blocks =>
    match childrenOfDepth GetChildren blocks with
    | .error e => some (.error e)
    | .ok [] => some (.ok (currDepth, blocks))
    | .ok (b :: bs) => groupByDepth GetChildren fuel (currDepth + 1) (b :: bs)

/-- The last loop of `getLongestChain`: `n` steps up the parent pointers, each
hash put in front.  `none`: a nil pointer is dereferenced. -/
def prependParents : Nat → block → List String → Option (List String)
  | 0, _, longestChain => some longestChain
  | n + 1, currBlk, longestChain =>
    match currBlk.parentBlock with
    | none => none
    | some parent => prependParents n parent (parent.blockHash :: longestChain)

/-- The function `getLongestChain`, with the children lookup it uses (the
canvas call, or the test function wrapped in `Except.ok`): the chain and the
error it returns.  `none`: no return within `fuel` rounds of the outer loop,
or a panic. -/
def getLongestChain (fuel : Nat) (GetChildren : String → Except String (List String))
    (genHash : String) : Option (List String × Option String) :=
  match groupByDepth GetChildren fuel 0 [block.mk none genHash] with
  | none => none
  | some (.error e) => some ([], some e)
  | some (.ok (currDepth, blocks)) =>
    match blocks with
    | [] => none
    | currBlk :: _ =>
      (prependParents currDepth currBlk [currBlk.blockHash]).map fun ch => (ch, none)

/-- The function `art_app_tests.GetChildren`. -/
def art_app_tests.GetChildren (hash : String) : List String :=
  if hash = "A" then ["B", "C"]
  else if hash = "B" then ["D", "E"]
  else if hash = "C" then ["H"]
  else if hash = "D" then ["F"]
  else if hash = "F" then ["G"]
  else if hash = "E" then ["I"]
  else if hash = "Z" then ["O", "P", "J"]
  else if hash = "O" then ["R", "S"]
  else if hash = "P" then ["Q"]
  else if hash = "J" then ["K"]
  else if hash = "R" then ["T"]
  else if hash = "S" then ["U"]
  else if hash = "K" then ["L"]
  else if hash = "L" then ["M"]
  else if hash = "M" then ["N"]
  else if hash = "й" then ["ц", "у", "к"]
  else if hash = "ц" then ["е"]
  else if hash = "у" then ["н", "г"]
  else if hash = "к" then ["ш", "з"]
  else if hash = "н" then ["ф", "ы", "в"]
  else if hash = "ш" then ["а"]
  else if hash = "з" then ["п"]
  else if hash = "ы" then ["р"]
  else if hash = "в" then ["о"]
  else if hash = "п" then ["д"]
  else if hash = "р" then ["я"]
  else []

/-! ## Examples for the hashes and the wire -/

/-- The example environment with the real digest and encodings. -/
def refEnv : Env :=
  { toyEnv with
    md5 := md5Sum
    md5_length := by intro bs; simp [md5Sum, leBytes]
    gobString := gobEncodeString
    bigIntGob := bigIntGobEncode }

/-- A stroked line whose shape digest is 0ffce72cc6df784fc08c0f9c242f0b5d. -/
def exLineShape : Shape :=
  { Owner := "miner-0001", ShapeType := 0, Svg := "M 0 0 L 6 0", Fill := "transparent",
    Stroke := "red" }

/-- An op for `exLineShape`. -/
def exLineOp : Op :=
  { Add := true, OpShape := exLineShape, OpSig := ⟨7, 9⟩, PubKey := "miner-0001",
    ValidNum := 2 }

/-- The nodes at a distance from the genesis hash, in a tree given by its
children function. -/
def treeLevel (children : String → List String) (genHash : String) : Nat → List String
  | 0 => [genHash]
  | d + 1 => (treeLevel children genHash d).flatMap children

/-- What `getLongestChain` relies on for a block at depth `d`: the walk up its
parent pointers gives a chain from the genesis hash down to the block. -/
def block.WellLinked (children : String → List String) (genHash : String) (d : Nat)
    (blk : block) : Prop :=
  ∃ chain, prependParents d blk [blk.blockHash] = some chain ∧
    chain.head? = some genHash ∧ chain.getLast? = some blk.blockHash ∧
    chain.length = d + 1 ∧ List.Chain' (fun a b => b ∈ children a) chain

/-! ## Floating point (`float64`)

The geometry code computes in `float64`.  It is embedded over any carrier `F`
with the operations of the class `GoFloat`, one for each `float64` operation
the code uses, so that a statement proved for every `GoFloat` holds for IEEE
754 binary64 and its rounding.  Statements that need the value of an
arithmetic expression are made for the carrier `XR` further down. -/

/-- The `float64` operations of the geometry code. -/
class GoFloat (F : Type) extends Add F, Sub F, Mul F, Div F where
  /-- The conversion of an integer constant or of a `uint32` to `float64`. -/
  ofInt : Int → F
  /-- The comparison `==`. -/
  eq : F → F → Bool
  /-- The comparison `<`. -/
  lt : F → F → Bool
  /-- The comparison `<=`. -/
  le : F → F → Bool
  /-- The function `math.Abs`. -/
  abs : F → F
  /-- The function `math.Sqrt`. -/
  sqrt : F → F
  /-- The call `math.Pow(x, 2)`. -/
  pow2 : F → F
  /-- The function `math.Ceil`. -/
  ceil : F → F
  /-- The conversion `uint64(x)`. -/
  toUint64 : F → Nat
  /-- The constant `math.Pi`. -/
  pi : F
  /-- The constant `0.000001`. -/
  epsilon : F
  /-- The call `strconv.ParseFloat(s, 64)`: the value, and whether the error
  is nil. -/
  ParseFloat : String → F × Bool

section Geometry

variable {F : Type} [GoFloat F]

/-! ## Components (`component.go`) -/

/-- The struct `Point`. -/
structure Point (F : Type) where
  X : F
  Y : F
  deriving DecidableEq, Repr

/-- The struct `Segment`. -/
structure Segment (F : Type) where
  PStart : Point F
  PEnd : Point F
  YInt : F
  Slope : F
  deriving DecidableEq, Repr

/-- The struct `Group`. -/
structure Group (F : Type) where
  Segments : List (Segment F)
  deriving DecidableEq, Repr

/-- The struct `Circle`. -/
structure Circle (F : Type) where
  R : F
  X : F
  Y : F
  deriving DecidableEq, Repr

/-- The three implementations of the interface `Component`. -/
inductive Component (F : Type) where
  | Point (p : Point F)
  | Group (g : Group F)
  | Circle (c : Circle F)
  deriving DecidableEq, Repr

/-- The variable `epsilon`. -/
def epsilon : F := GoFloat.epsilon

/-- The function `FloatEQ`. -/
def FloatEQ (a b : F) : Bool := GoFloat.lt (GoFloat.abs (a - b)) epsilon

/-- The function `FloatLEQ`. -/
def FloatLEQ (a b : F) : Bool := GoFloat.le (a - epsilon) (b + epsilon)

/-- The function `FloatGEQ`. -/
def FloatGEQ (a b : F) : Bool := FloatLEQ b a

/-- The function `Sqrt`. -/
def Sqrt (x : F) : F := GoFloat.sqrt x

/-- The function `Sqr`. -/
def Sqr (x : F) : F := GoFloat.pow2 x

/-- The function `Distance`. -/
def Distance (x1 x2 y1 y2 : F) : F :=
  GoFloat.sqrt (GoFloat.pow2 (x1 - x2) + GoFloat.pow2 (y1 - y2))

/-- The method `Point.Equals`. -/
def Point.Equals (p point : Point F) : Bool :=
  FloatEQ p.X point.X && FloatEQ p.Y point.Y

/-- The method `Point.IsBetween`. -/
def Point.IsBetween (p p1 p2 : Point F) : Bool :=
  ((FloatLEQ p.X p1.X && FloatGEQ p.X p2.X) || (FloatLEQ p.X p2.X && FloatGEQ p.X p1.X)) &&
    ((FloatLEQ p.Y p1.Y && FloatGEQ p.Y p2.Y) || (FloatLEQ p.Y p2.Y && FloatGEQ p.Y p1.Y))

/-- The method `Point.IsBoundedBy`; `a >= b` is `b <= a`. -/
def Point.IsBoundedBy (p : Point F) (xMin xMax yMin yMax : F) : Bool :=
  GoFloat.le xMin p.X && GoFloat.le p.X xMax && GoFloat.le yMin p.Y && GoFloat.le p.Y yMax

/-- The function `NewSegment`. -/
def NewSegment (p1 p2 : Point F) : Segment F :=
  let deltaX := p2.X - p1.X
  let deltaX := if GoFloat.eq deltaX (GoFloat.ofInt 0) then epsilon else deltaX
  let slope := (p2.Y - p1.Y) / deltaX
  let yInt := p1.Y - slope * p1.X
  ⟨p1, p2, yInt, slope⟩

/-- The method `Segment.GetY`. -/
def Segment.GetY (s : Segment F) (x : F) : F := s.Slope * x + s.YInt

/-- The method `Segment.IntersectsPoint`. -/
def Segment.IntersectsPoint (s : Segment F) (p : Point F) : Bool :=
  p.IsBetween s.PStart s.PEnd && FloatEQ ((p.Y - s.YInt) / s.Slope) p.X

/-- The method `Segment.IntersectsWith`. -/
def Segment.IntersectsWith (s s2 : Segment F) : Bool :=
  if GoFloat.eq s.Slope s2.Slope then false
  else
    let x := (s2.YInt - s.YInt) / (s.Slope - s2.Slope)
    let y := s.GetY x
    let p : Point F := ⟨x, y⟩
    p.IsBetween s.PStart s.PEnd && p.IsBetween s2.PStart s2.PEnd

/-- The method `Segment.Crosses`. -/
def Segment.Crosses (s s2 : Segment F) : Bool :=
  if s.IntersectsWith s2 then
    if !s.PStart.Equals s2.PStart && !s.PStart.Equals s2.PEnd &&
        !s.PEnd.Equals s2.PStart && !s.PEnd.Equals s2.PEnd then true
    else false
  else false

/-- The method `Segment.Length`. -/
def Segment.Length (s : Segment F) : F :=
  Distance s.PStart.X s.PEnd.X s.PStart.Y s.PEnd.Y

/-- The method `Circle.IntersectsPoint`. -/
def Circle.IntersectsPoint (c : Circle F) (p : Point F) : Bool :=
  FloatEQ c.R (Distance c.X p.X c.Y p.Y)

/-- The method `Circle.IntersectsSegment`. -/
def Circle.IntersectsSegment (c : Circle F) (seg : Segment F) : Bool :=
  let coeffA := GoFloat.ofInt 1 + Sqr seg.Slope
  let coeffB := GoFloat.ofInt 2 * seg.Slope * seg.YInt - GoFloat.ofInt 2 * seg.Slope * c.Y -
    GoFloat.ofInt 2 * c.X
  let coeffC := c.X + Sqr seg.YInt - GoFloat.ofInt 2 * seg.YInt * c.Y + Sqr c.Y - Sqr c.R
  let term1 := GoFloat.ofInt (-1) * coeffB
  let term2 := Sqr coeffB - GoFloat.ofInt 4 * coeffA * coeffC
  let denom := GoFloat.ofInt 2 * coeffA
  if GoFloat.lt term2 (GoFloat.ofInt 0) then false
  else
    let x1 := (term1 + Sqrt term2) / denom
    let y1 := seg.GetY x1
    if seg.IntersectsPoint ⟨x1, y1⟩ then true
    else
      let x2 := (term1 - Sqrt term2) / denom
      let y2 := seg.GetY x2
      if seg.IntersectsPoint ⟨x2, y2⟩ then true else false

/-- The method `Circle.IntersectsCircle`. -/
def Circle.IntersectsCircle (c0 c1 : Circle F) : Bool :=
  let d := Distance c0.X c1.X c0.Y c1.Y
  let r0 := c0.R
  let r1 := c1.R
  if !FloatLEQ d (r0 + r1) || !FloatGEQ d (GoFloat.abs (r0 - r1)) then false else true

/-- The method `Point.IntersectsBorder`. -/
def Point.IntersectsBorder (p : Point F) : Component F → Bool
  | .Point q => p.Equals q
  | .Group g => g.Segments.any fun segment => segment.IntersectsPoint p
  | .Circle c => c.IntersectsPoint p

/-- The method `Circle.IntersectsBorder`. -/
def Circle.IntersectsBorder (c : Circle F) : Component F → Bool
  | .Point q => c.IntersectsPoint q
  | .Group g => g.Segments.any fun seg => c.IntersectsSegment seg
  | .Circle c1 => c.IntersectsCircle c1

/-- The method `Group.IntersectsBorder`. -/
def Group.IntersectsBorder (g : Group F) : Component F → Bool
  | .Point q => q.IntersectsBorder (.Group g)
  | .Group g1 => g1.Segments.any fun s1 => g.Segments.any fun s2 => s1.IntersectsWith s2
  | .Circle c => c.IntersectsBorder (.Group g)

/-- The method `Point.Area`. -/
def Point.Area (_p : Point F) (_fill _stroke : Bool) : F := GoFloat.ofInt 0

/-- The method `Group.Area`. -/
def Group.Area (g : Group F) (fill stroke : Bool) : F :=
  let area : F := GoFloat.ofInt 0
  let area :=
    if fill then
      GoFloat.abs (g.Segments.foldl
        (fun area s => area + (s.PStart.X * s.PEnd.Y - s.PStart.Y * s.PEnd.X)) area) /
          GoFloat.ofInt 2
    else area
  if stroke then g.Segments.foldl (fun area s => area + s.Length) area else area

/-- The method `Circle.Area`. -/
def Circle.Area (c : Circle F) (fill stroke : Bool) : F :=
  let area : F := GoFloat.ofInt 0
  let area := if fill then area + c.R * c.R * GoFloat.pi else area
  if stroke then area + GoFloat.ofInt 2 * c.R * GoFloat.pi else area

/-- The method `Point.ContainsPoint`. -/
def Point.ContainsPoint (p point : Point F) (_fill : Bool) : Bool := p.Equals point

/-- The method `Group.ContainsPoint`. -/
def Group.ContainsPoint (g : Group F) (point : Point F) (fill : Bool) : Bool :=
  if !fill then false
  else
    let pOut : Point F := ⟨GoFloat.ofInt (-1), GoFloat.ofInt (-1)⟩
    let testSeg := NewSegment point pOut
    let numIntersections := g.Segments.foldl
      (fun n seg => if testSeg.IntersectsWith seg then n + 1 else n) 0
    numIntersections % 2 != 0

/-- The method `Circle.ContainsPoint`. -/
def Circle.ContainsPoint (c : Circle F) (point : Point F) (fill : Bool) : Bool :=
  if !fill then false
  else
    let pOut : Point F := ⟨GoFloat.ofInt (-1), GoFloat.ofInt (-1)⟩
    let testSeg := NewSegment point pOut
    let numIntersections := if c.IntersectsSegment testSeg then 1 else 0
    numIntersections % 2 != 0

/-- The method `Group.IsBoundedBy`. -/
def Group.IsBoundedBy (g : Group F) (xMin xMax yMin yMax : F) : Bool :=
  g.Segments.all fun segment =>
    !(!segment.PStart.IsBoundedBy xMin xMax yMin yMax ||
      !segment.PEnd.IsBoundedBy xMin xMax yMin yMax)

/-- The method `Circle.IsBoundedBy`. -/
def Circle.IsBoundedBy (c : Circle F) (xMin xMax yMin yMax : F) : Bool :=
  let circXMin := c.X - c.R
  let circXMax := c.X + c.R
  let circYMin := c.Y - c.R
  let circYMax := c.Y + c.R
  FloatLEQ xMin circXMin && FloatGEQ xMax circXMax &&
    FloatLEQ yMin circYMin && FloatGEQ yMax circYMax

/-- The loops of `Group.IsSimpleClosed`: does a segment cross a later one. -/
def Group.selfCrosses : List (Segment F) → Bool
  | [] => false
  | s :: rest => rest.any (fun s2 => s.Crosses s2) || Group.selfCrosses rest

/-- The method `Group.IsSimpleClosed`.  `none`: `g.Segments[0]` is out of range. -/
def Group.IsSimpleClosed (g : Group F) : Option Bool :=
  match g.Segments.head?, g.Segments.getLast? with
  | some first, some last =>
    let firstPoint := first.PStart
    let lastPoint := last.PEnd
    if !firstPoint.Equals lastPoint then some false
    else if Group.selfCrosses g.Segments then some false
    else some true
  | _, _ => none

/-- The method `Group.GetPoint`.  `none`: `g.Segments[0]` is out of range. -/
def Group.GetPoint (g : Group F) : Option (Point F) :=
  g.Segments.head?.map fun s => s.PStart

/-- The interface method `IntersectsBorder`. -/
def Component.IntersectsBorder : Component F → Component F → Bool
  | .Point p, c => p.IntersectsBorder c
  | .Group g, c => g.IntersectsBorder c
  | .Circle c0, c => c0.IntersectsBorder c

/-- The interface method `Area`. -/
def Component.Area : Component F → Bool → Bool → F
  | .Point p, fill, stroke => p.Area fill stroke
  | .Group g, fill, stroke => g.Area fill stroke
  | .Circle c, fill, stroke => c.Area fill stroke

/-- The interface method `ContainsPoint`. -/
def Component.ContainsPoint : Component F → Miner.Point F → Bool → Bool
  | .Point p, point, fill => p.ContainsPoint point fill
  | .Group g, point, fill => g.ContainsPoint point fill
  | .Circle c, point, fill => c.ContainsPoint point fill

/-- The interface method `IsBoundedBy`. -/
def Component.IsBoundedBy : Component F → F → F → F → F → Bool
  | .Point p, xMin, xMax, yMin, yMax => p.IsBoundedBy xMin xMax yMin yMax
  | .Group g, xMin, xMax, yMin, yMax => g.IsBoundedBy xMin xMax yMin yMax
  | .Circle c, xMin, xMax, yMin, yMax => c.IsBoundedBy xMin xMax yMin yMax

/-- The interface method `IsSimpleClosed`; `none` is a panic. -/
def Component.IsSimpleClosed : Component F → Option Bool
  | .Point _ => some false
  | .Group g => g.IsSimpleClosed
  | .Circle _ => some true

/-- The interface method `GetPoint`; `none` is a panic. -/
def Component.GetPoint : Component F → Option (Miner.Point F)
  | .Point p => some p
  | .Group g => g.GetPoint
  | .Circle c => some ⟨c.X, c.Y⟩

/-! ## The parser (`svg.go`) -/

/-- The comparison `==` of two `Point` structs: field by field. -/
def Point.keyEq (p q : Point F) : Bool := GoFloat.eq p.X q.X && GoFloat.eq p.Y q.Y

/-- The type `AdjacencyMap`, a `map[Point][]Point`, as the list of its entries.
A key is found by `==`, so a point with a NaN coordinate is never found. -/
abbrev AdjacencyMap (F : Type) := List (Point F × List (Point F))

/-- The lookup `points[p]` with its `exists` flag. -/
def AdjacencyMap.get : AdjacencyMap F → Point F → Option (List (Point F))
  | [], _ => none
  | (q, ns) :: rest, p => if Point.keyEq q p then some ns else AdjacencyMap.get rest p

/-- The assignment `points[p] = ns`.  When the key is there the run time
stores the key anew as well, since a key with a `float64` in it may equal the
one in the map without being the same (the two zeros). -/
def AdjacencyMap.set : AdjacencyMap F → Point F → List (Point F) → AdjacencyMap F
  | [], p, ns => [(p, ns)]
  | (q, qs) :: rest, p, ns =>
    if Point.keyEq q p then (p, ns) :: rest else (q, qs) :: AdjacencyMap.set rest p ns

/-- The call `delete(points, p)`. -/
def AdjacencyMap.del : AdjacencyMap F → Point F → AdjacencyMap F
  | [], _ => []
  | (q, qs) :: rest, p =>
    if Point.keyEq q p then rest else (q, qs) :: AdjacencyMap.del rest p

/-- The number of neighbour entries of a map: what `removeGroup` uses up. -/
def AdjacencyMap.size (points : AdjacencyMap F) : Nat :=
  (points.map fun e => e.2.length).sum

/-- The order in which a `for ... range` loop visits an `AdjacencyMap`, given
its entries in stored order.  Go leaves it open; it is a permutation. -/
structure GeoEnv (F : Type) where
  rangeOrder : AdjacencyMap F → AdjacencyMap F
  rangeOrder_perm : ∀ points, (rangeOrder points).Perm points

/-- The segment of space-free bytes that `strings.Split(s, " ")` cuts out, on
the characters of `s`. -/
def splitSpaces : List Char → List (List Char)
  | [] => [[]]
  | ch :: cs =>
    if ch = ' ' then [] :: splitSpaces cs
    else
      match splitSpaces cs with
      | [] => [[ch]]
      | t :: ts => (ch :: t) :: ts

/-- The call `strings.Split(s, " ")`. -/
def stringsSplit (s : String) : List String := (splitSpaces s.data).map String.mk

/-- The function `createPoint`. -/
def createPoint (xStr yStr : String) (relative : Bool) (prev : Point F) : Point F :=
  let zero : Point F := ⟨GoFloat.ofInt 0, GoFloat.ofInt 0⟩
  if xStr = "" ∧ yStr = "" then zero
  else
    let xr : Option F :=
      if xStr = "" then some prev.X
      else
        let r := GoFloat.ParseFloat xStr
        if !r.2 then none else if relative then some (r.1 + prev.X) else some r.1
    match xr with
    | none => zero
    | some x =>
      let yr : Option F :=
        if yStr = "" then some prev.Y
        else
          let r := GoFloat.ParseFloat yStr
          if !r.2 then none else if relative then some (r.1 + prev.Y) else some r.1
      match yr with
      | none => zero
      | some y => ⟨x, y⟩

/-- What `parseCommand` returns, with the value it leaves in `*lastM`. -/
structure Command (F : Type) where
  new : Point F
  offset : Nat
  connected : Bool
  valid : Bool
  lastM : Point F

/-- The function `parseCommand`, for `i < len(tokens)`.  `strings.ToLower` is
taken on ASCII letters, which is what it does to the tokens the `switch`
lets through. -/
def parseCommand (tokens : List String) (i : Nat) (prev lastM : Point F) : Command F :=
  let zero : Point F := ⟨GoFloat.ofInt 0, GoFloat.ofInt 0⟩
  let numTokens := tokens.length
  let tok := tokens.getD i ""
  let relative := decide (String.mk (tok.data.map Char.toLower) = tok)
  if tok = "Z" ∨ tok = "z" then ⟨lastM, 0, true, true, lastM⟩
  else if tok = "M" ∨ tok = "m" then
    if i + 2 < numTokens then
      let new := createPoint (tokens.getD (i + 1) "") (tokens.getD (i + 2) "") relative prev
      ⟨new, 2, false, true, new⟩
    else ⟨zero, 0, false, false, lastM⟩
  else if tok = "L" ∨ tok = "l" then
    if i + 2 < numTokens then
      ⟨createPoint (tokens.getD (i + 1) "") (tokens.getD (i + 2) "") relative prev, 2, true,
        true, lastM⟩
    else ⟨zero, 0, false, false, lastM⟩
  else if tok = "H" ∨ tok = "h" then
    if i + 1 < numTokens then
      ⟨createPoint (tokens.getD (i + 1) "") "" relative prev, 1, true, true, lastM⟩
    else ⟨zero, 0, false, false, lastM⟩
  else if tok = "V" ∨ tok = "v" then
    if i + 1 < numTokens then
      ⟨createPoint "" (tokens.getD (i + 1) "") relative prev, 1, true, true, lastM⟩
    else ⟨zero, 0, false, false, lastM⟩
  else ⟨zero, 0, false, false, lastM⟩

/-- The function `popNeighbour`: the neighbour returned and the slice left. -/
def popNeighbour (neighbours : List (Point F)) : Point F × List (Point F) :=
  match neighbours with
  | [] => (⟨GoFloat.ofInt 0, GoFloat.ofInt 0⟩, [])
  | next :: rest => (next, rest)

/-- The index at which the `range` loop of `removeNeighbour` stops: that of the
first neighbour equal to `toRemove`, else the last index (0 on an empty
slice). -/
def removeNeighbourIndex (toRemove : Point F) : List (Point F) → Nat
  | [] => 0
  | [_] => 0
  | neighbour :: rest => if neighbour.Equals toRemove then 0
      else removeNeighbourIndex toRemove rest + 1

/-- The function `removeNeighbour`: the slice left. -/
def removeNeighbour (neighbours : List (Point F)) (toRemove : Point F) : List (Point F) :=
  let index := removeNeighbourIndex toRemove neighbours
  if neighbours.length > index + 1 then neighbours.take index ++ neighbours.drop (index + 1)
  else neighbours.take index

/-- The function `removeDisconnectedPoints`: the components returned and the
map left. -/
def removeDisconnectedPoints (ge : GeoEnv F) (points : AdjacencyMap F) :
    List (Component F) × AdjacencyMap F :=
  let toRemove := ((ge.rangeOrder points).filter fun e => e.2.length = 0).map Prod.fst
  (toRemove.map Component.Point, toRemove.foldl AdjacencyMap.del points)

/-- The function `removeGroup`: the segments returned and the map left.  Every
call takes a neighbour out of the map, so `fuel` above `points.size` is never
used up. -/
def removeGroup : Nat → Point F → AdjacencyMap F → List (Segment F) × AdjacencyMap F
  | 0, _, points => ([], points)
  | fuel + 1, curr, points =>
    match AdjacencyMap.get points curr with
    | none => ([], points)
    | some [] => ([], points)
    | some (n :: ns) =>
      let popped := popNeighbour (n :: ns)
      let next := popped.1
      let points := AdjacencyMap.set points curr popped.2
      let nextNeighbours := (AdjacencyMap.get points next).getD []
      let points := AdjacencyMap.set points next (removeNeighbour nextNeighbours curr)
      let segment := NewSegment next curr
      let r := removeGroup fuel next points
      (r.1 ++ [segment], r.2)

/-- The function `removeGroups`.  `none`: the recursion has not ended after
`fuel` calls. -/
def removeGroups (ge : GeoEnv F) : Nat → AdjacencyMap F → Option (List (Component F))
  | 0, _ => none
  | fuel + 1, points =>
    let points := (removeDisconnectedPoints ge points).2
    if points.length = 0 then some []
    else
      let point : Point F :=
        ((ge.rangeOrder points).head?.map Prod.fst).getD ⟨GoFloat.ofInt 0, GoFloat.ofInt 0⟩
      let r := removeGroup (points.size + 1) point points
      (removeGroups ge fuel r.2).map fun groups => groups ++ [Component.Group ⟨r.1⟩]

/-- What the loop of `parseSVGPath` does to the map for a point that differs
from the previous one: the point gets an entry, and when the command
connects, each of the two points is appended to the list of the other. -/
def addPoint (points : AdjacencyMap F) (prevPoint newPoint : Point F) (connected : Bool) :
    AdjacencyMap F :=
  let points :=
    match AdjacencyMap.get points newPoint with
    | none => AdjacencyMap.set points newPoint []
    | some _ => points
  if connected then
    let points := AdjacencyMap.set points newPoint
      ((AdjacencyMap.get points newPoint).getD [] ++ [prevPoint])
    AdjacencyMap.set points prevPoint
      ((AdjacencyMap.get points prevPoint).getD [] ++ [newPoint])
  else points

/-- The loop of `parseSVGPath` from index `i` on: the map it builds, or `none`
when a command is not valid.  The index grows with every round, so `fuel`
from `len(tokens) - i` on is never used up. -/
def parsePathLoop (tokens : List String) :
    Nat → Nat → Point F → Point F → AdjacencyMap F → Option (AdjacencyMap F)
  | 0, _, _, _, points => some points
  | fuel + 1, i, prevPoint, lastM, points =>
    if i < tokens.length then
      let cmd := parseCommand tokens i prevPoint lastM
      if !cmd.valid then none
      else if !prevPoint.Equals cmd.new then
        parsePathLoop tokens fuel (i + cmd.offset + 1) cmd.new cmd.lastM
          (addPoint points prevPoint cmd.new cmd.connected)
      else parsePathLoop tokens fuel (i + cmd.offset + 1) prevPoint cmd.lastM points
    else some points

/-- The function `parseSVGPath`.  `none`: `removeGroups` does not return. -/
def parseSVGPath (ge : GeoEnv F) (svg : String) :
    Option (List (Component F) × Option Error) :=
  let tokens := stringsSplit svg
  if tokens.getD 0 "" ≠ "M" then some ([], some (.InvalidShapeSvgStringError svg))
  else
    let zero : Point F := ⟨GoFloat.ofInt 0, GoFloat.ofInt 0⟩
    match parsePathLoop tokens tokens.length 0 zero zero [] with
    | none => some ([], some (.InvalidShapeSvgStringError svg))
    | some points =>
      let single := removeDisconnectedPoints ge points
      (removeGroups ge (single.2.size + 1) single.2).map fun groups =>
        (single.1 ++ groups, none)

/-- The loop of `parseSVGCircle` from index `i` on, for `fuel` rounds: the
components and the error returned. -/
def parseCircleLoop (svg : String) (tokens : List String) :
    Nat → Nat → Circle F → Option Error → List (Component F) × Option Error
  | 0, _, circ, err => ([Component.Circle circ], err)
  | fuel + 1, i, circ, err =>
    if i < tokens.length then
      if tokens.length ≤ i + 1 ∨ err ≠ none then ([], some (.InvalidShapeSvgStringError svg))
      else
        let r : F × Bool := GoFloat.ParseFloat (tokens.getD (i + 1) "")
        let err : Option Error :=
          if r.2 then none else some (.strconvNumError (tokens.getD (i + 1) ""))
        let tok := tokens.getD i ""
        if tok = "cx" then parseCircleLoop svg tokens fuel (i + 2) { circ with X := r.1 } err
        else if tok = "cy" then
          parseCircleLoop svg tokens fuel (i + 2) { circ with Y := r.1 } err
        else if tok = "r" then
          parseCircleLoop svg tokens fuel (i + 2) { circ with R := r.1 } err
        else parseCircleLoop svg tokens fuel (i + 2) circ
          (some (.InvalidShapeSvgStringError svg))
    else ([Component.Circle circ], err)

/-- The function `parseSVGCircle`; its loop makes at most three rounds. -/
def parseSVGCircle (svg : String) : List (Component F) × Option Error :=
  let tokens := stringsSplit svg
  if tokens.length ≠ 2 ∧ tokens.length ≠ 6 then ([], some (.InvalidShapeSvgStringError svg))
  else
    parseCircleLoop svg tokens 3 0 ⟨GoFloat.ofInt 0, GoFloat.ofInt 0, GoFloat.ofInt 0⟩ none

/-- The constant `maxSVGLen`. -/
def maxSVGLen : Nat := 128

/-- The function `ParseSVGString`; `len(svg)` counts bytes.  `none`: the call
does not return. -/
def ParseSVGString (ge : GeoEnv F) (svg : String) (shapeType : ShapeType) :
    Option (List (Component F) × Option Error) :=
  if svg.utf8ByteSize > maxSVGLen then some ([], some (.ShapeSvgStringTooLongError svg))
  else if shapeType = 0 then parseSVGPath ge svg
  else if shapeType = 1 then some (parseSVGCircle svg)
  else some ([], some (.InvalidShapeSvgStringError svg))

/-! ## Shapes (`shape.go`) -/

/-- The method `Shape.IsFilled`. -/
def Shape.IsFilled (s : Shape) : Bool := s.Fill != "transparent"

/-- The method `Shape.HasStroke`. -/
def Shape.HasStroke (s : Shape) : Bool := s.Stroke != "transparent"

/-- The method `Shape.WithinCanvas`. -/
def Shape.WithinCanvas (_s : Shape) (canvas : Canvas) (components : List (Component F)) :
    Bool :=
  let xMax : F := GoFloat.ofInt canvas.XMax
  let yMax : F := GoFloat.ofInt canvas.YMax
  components.all fun comp => comp.IsBoundedBy (GoFloat.ofInt 0) xMax (GoFloat.ofInt 0) yMax

/-- The method `Shape.IsFillValid`; `none` is a panic. -/
def Shape.IsFillValid (s : Shape) (components : List (Component F)) : Option Bool :=
  if !s.IsFilled then some true
  else
    match components with
    | [comp] => comp.IsSimpleClosed
    | _ => some false

/-- The condition of the `if` in the inner loop of `Shape.IllegalOverlap`, with
the short circuit of `||`; `none` is a panic. -/
def overlapTest (oldComp newComp : Component F) (oldFill newFill : Bool) : Option Bool :=
  if newComp.IntersectsBorder oldComp then some true
  else
    match oldComp.GetPoint with
    | none => none
    | some oldPoint =>
      if newComp.ContainsPoint oldPoint newFill then some true
      else
        match newComp.GetPoint with
        | none => none
        | some newPoint => some (oldComp.ContainsPoint newPoint oldFill)

/-- A nested loop that returns `true` at the first pair that passes a test. -/
def firstPair {A B : Type} (test : A → B → Option Bool) (bs : List B) :
    List A → Option Bool
  | [] => some false
  | a :: rest =>
    match bs.foldl (fun acc b =>
        match acc with
        | some false => test a b
        | other => other) (some false) with
    | some false => firstPair test bs rest
    | other => other

/-- What `Shape.IllegalOverlap` needs besides the canvas: the order in which it
visits the shapes of the canvas, and for each of them the order in which the
parser visits the adjacency map when the shape is parsed again. -/
structure CanvasEnv (F : Type) where
  shapesOrder : GoMap Shape → GoMap Shape
  shapesOrder_perm : ∀ shapes, (shapesOrder shapes).Perm shapes
  parseEnv : String → GeoEnv F

/-- The loop of `Shape.IllegalOverlap` over the shapes; `none`: a panic, or a
parse that does not return. -/
def illegalOverlapLoop (ce : CanvasEnv F) (s : Shape) (newComps : List (Component F)) :
    List (String × Shape) → Option Bool
  | [] => some false
  | (key, oldShape) :: rest =>
    if oldShape.Owner = s.Owner then illegalOverlapLoop ce s newComps rest
    else
      match ParseSVGString (ce.parseEnv key) oldShape.Svg oldShape.ShapeType with
      | none => none
      | some (oldComps, _) =>
        match firstPair (fun oldComp newComp =>
            overlapTest oldComp newComp oldShape.IsFilled s.IsFilled) newComps oldComps with
        | some false => illegalOverlapLoop ce s newComps rest
        | other => other

/-- The method `Shape.IllegalOverlap`. -/
def Shape.IllegalOverlap (ce : CanvasEnv F) (s : Shape) (canvas : Canvas)
    (newComps : List (Component F)) : Option Bool :=
  illegalOverlapLoop ce s newComps (ce.shapesOrder canvas.Shapes)

/-- The method `Shape.Validate`, on the carrier `F`: `some none` is a nil
error, `none` a panic or a call that does not return. -/
def Shape.Validate (ge : GeoEnv F) (ce : CanvasEnv F) (s : Shape) (canvas : Canvas) :
    Option (Option Error) :=
  match ParseSVGString ge s.Svg s.ShapeType with
  | none => none
  | some (_, some err) => some (some err)
  | some (components, none) =>
    if !s.WithinCanvas canvas components then some (some .OutOfBoundsError)
    else if !s.HasStroke && !s.IsFilled then some (some (.InvalidShapeSvgStringError s.Svg))
    else
      match s.IsFillValid components with
      | none => none
      | some false => some (some (.InvalidShapeSvgStringError s.Svg))
      | some true =>
        match s.IllegalOverlap ce canvas components with
        | none => none
        | some true => some (some (.ShapeOverlapError s.Svg))
        | some false => some none

/-- The method `Shape.Area`, on the carrier `F`: the `uint64` and the error;
`none` is a panic or a call that does not return. -/
def Shape.Area (ge : GeoEnv F) (s : Shape) : Option (Nat × Option Error) :=
  match ParseSVGString ge s.Svg s.ShapeType with
  | none => none
  | some (_, some err) => some (0, some err)
  | some (components, none) =>
    match s.IsFillValid components with
    | none => none
    | some false => some (0, some (.InvalidShapeSvgStringError s.Svg))
    | some true =>
      let area : F := components.foldl
        (fun area comp => area + comp.Area s.IsFilled s.HasStroke) (GoFloat.ofInt 0)
      some (GoFloat.toUint64 (GoFloat.ceil area), none)

end Geometry

/-! ## Exact arithmetic with the special values of `float64`

The carrier `XR` has the rational numbers and the three special values of
`float64`.  Its operations are those of IEEE 754 without the rounding: they
agree with `float64` wherever the `float64` result is exact, which is so for
integers of moderate size and their sums, differences and products.  The two
zeros of `float64` are one here; a division by zero gives the infinity with
the sign of the dividend. -/

/-- A rational number, or one of `+Inf`, `-Inf`, `NaN`. -/
inductive XR where
  | fin (q : ℚ)
  | posInf
  | negInf
  | nan
  deriving DecidableEq, Repr

namespace XR

/-- Is the value a number. -/
def isFin : XR → Bool
  | fin _ => true
  | _ => false

/-- The sign of a value that is not `NaN`. -/
def sgn : XR → Int
  | fin q => if q = 0 then 0 else if 0 < q then 1 else -1
  | posInf => 1
  | negInf => -1
  | nan => 0

/-- The infinity of a sign, `NaN` for sign 0. -/
def ofSign (s : Int) : XR :=
  if s = 0 then nan else if 0 < s then posInf else negInf

/-- Negation. -/
def neg : XR → XR
  | fin q => fin (-q)
  | posInf => negInf
  | negInf => posInf
  | nan => nan

/-- Addition. -/
def add : XR → XR → XR
  | fin a, fin b => fin (a + b)
  | nan, _ => nan
  | _, nan => nan
  | posInf, negInf => nan
  | negInf, posInf => nan
  | posInf, _ => posInf
  | _, posInf => posInf
  | negInf, _ => negInf
  | _, negInf => negInf

/-- Subtraction. -/
def sub (a b : XR) : XR := add a (neg b)

/-- Multiplication. -/
def mul : XR → XR → XR
  | fin a, fin b => fin (a * b)
  | nan, _ => nan
  | _, nan => nan
  | a, b => ofSign (sgn a * sgn b)

/-- Division. -/
def div : XR → XR → XR
  | fin a, fin b => if b = 0 then ofSign (sgn (fin a)) else fin (a / b)
  | nan, _ => nan
  | _, nan => nan
  | fin _, _ => fin 0
  | a, fin b => ofSign (sgn a * (if 0 ≤ b then 1 else -1))
  | _, _ => nan

/-- The comparison `<`. -/
def lt : XR → XR → Bool
  | fin a, fin b => decide (a < b)
  | nan, _ => false
  | _, nan => false
  | negInf, negInf => false
  | negInf, _ => true
  | posInf, _ => false
  | _, posInf => true
  | _, _ => false

/-- The comparison `==`. -/
def eq : XR → XR → Bool
  | fin a, fin b => decide (a = b)
  | posInf, posInf => true
  | negInf, negInf => true
  | _, _ => false

/-- The comparison `<=`. -/
def le (a b : XR) : Bool := lt a b || eq a b

/-- The function `math.Abs`. -/
def abs : XR → XR
  | fin q => fin |q|
  | posInf => posInf
  | negInf => posInf
  | nan => nan

/-- The number of binary digits of a number; `fuel` bounds it. -/
def bitLenAux : Nat → Nat → Nat
  | 0, _ => 0
  | fuel + 1, n => if n = 0 then 0 else bitLenAux fuel (n / 2) + 1

/-- The integer square root, bit by bit from bit `b` down. -/
def natSqrtAux (n : Nat) : Nat → Nat → Nat
  | 0, r => r
  | b + 1, r => if (r + 2 ^ b) * (r + 2 ^ b) ≤ n then natSqrtAux n b (r + 2 ^ b)
      else natSqrtAux n b r

/-- The integer square root. -/
def natSqrt (n : Nat) : Nat := natSqrtAux n (bitLenAux n n) 0

/-- The square root of a rational number that is not negative: exact on the
squares of rational numbers, and cut off after 12 decimal places else. -/
def sqrtQ (q : ℚ) : ℚ :=
  mkRat (natSqrt (q.num.toNat * q.den * 10 ^ 24)) (q.den * 10 ^ 12)

/-- The function `math.Sqrt`. -/
def sqrt : XR → XR
  | fin q => if q < 0 then nan else fin (sqrtQ q)
  | posInf => posInf
  | negInf => nan
  | nan => nan

/-- The function `math.Ceil`. -/
def ceil : XR → XR
  | fin q => fin ⌈q⌉
  | x => x

/-- The conversion `uint64(x)` as the compiler for amd64 makes it: the
fraction is cut off, a negative number above `-2^63` comes out as its two's
complement, and what is out of range, an infinity or `NaN` as `2^63`. -/
def toUint64 : XR → Nat
  | fin q =>
    let t : Int := if 0 ≤ q then ⌊q⌋ else -⌊-q⌋
    if t ≤ -(2 ^ 63) then 2 ^ 63
    else if 2 ^ 64 ≤ t then 2 ^ 63
    else (t % 2 ^ 64).toNat
  | _ => 2 ^ 63

/-- The value of a character as a digit in base 10 or 16. -/
def digitVal (base : Nat) (c : Char) : Option Nat :=
  if c.isDigit then some (c.toNat - 48)
  else if base = 16 ∧ 'a' ≤ c.toLower ∧ c.toLower ≤ 'f' then some (c.toLower.toNat - 87)
  else none

/-- The digits at the head of a list, read in base `base` after the value
`v`, underscores passed over: the value, the number of digits read, the
rest. -/
def readDigits (base : Nat) : List Char → Nat → Nat → Nat × Nat × List Char
  | [], v, n => (v, n, [])
  | ch :: cs, v, n =>
    if ch = '_' then readDigits base cs v n
    else
      match digitVal base ch with
      | some d => readDigits base cs (v * base + d) (n + 1)
      | none => (v, n, ch :: cs)

/-- The digits of an exponent, underscores passed over; the value stops
growing at 10000. -/
def readExpDigits : List Char → Nat → Nat × List Char
  | [], e => (e, [])
  | ch :: cs, e =>
    if ch = '_' then readExpDigits cs e
    else if ch.isDigit then readExpDigits cs (if e < 10000 then e * 10 + (ch.toNat - 48) else e)
    else (e, ch :: cs)

/-- The exponent part of a literal: nothing, or the letter `expChar` with a
signed integer that starts with a digit.  The result says whether there is
an exponent, and gives its value. -/
def readExponent (expChar : Char) : List Char → Option (Bool × Int)
  | [] => some (false, 0)
  | ch :: cs =>
    if ch.toLower = expChar then
      let signed : Bool × List Char :=
        match cs with
        | '-' :: r => (true, r)
        | '+' :: r => (false, r)
        | r => (false, r)
      match signed.2 with
      | [] => none
      | d :: _ =>
        if !d.isDigit then none
        else
          let r := readExpDigits signed.2 0
          if r.2 ≠ [] then none
          else some (true, if signed.1 then -(r.1 : Int) else (r.1 : Int))
    else none

/-- The scan of `underscoreOK`: `saw` is the kind of the last character. -/
def underscoreScan (hex : Bool) : Char → List Char → Bool
  | saw, [] => saw != '_'
  | saw, c :: cs =>
    if c.isDigit || (hex && decide ('a' ≤ c.toLower ∧ c.toLower ≤ 'f')) then
      underscoreScan hex '0' cs
    else if c = '_' then (if saw != '0' then false else underscoreScan hex '_' cs)
    else if saw = '_' then false
    else underscoreScan hex '!' cs

/-- The function `underscoreOK` of `strconv`: an underscore stands between
two digits, or between a base prefix and a digit. -/
def underscoreOK (cs : List Char) : Bool :=
  let body : List Char :=
    match cs with
    | '-' :: r => r
    | '+' :: r => r
    | r => r
  match body with
  | '0' :: c :: r =>
    if c.toLower = 'b' ∨ c.toLower = 'o' ∨ c.toLower = 'x' then
      underscoreScan (c.toLower = 'x') '0' r
    else underscoreScan false '^' body
  | _ => underscoreScan false '^' body

/-- A literal as `readFloat` of `strconv` reads it: sign, then decimal digits
with at most one point and an optional exponent `e`, or after `0x`
hexadecimal digits with at most one point and an exponent `p`. -/
def readFloat (cs : List Char) : Option ℚ :=
  let signed : Bool × List Char :=
    match cs with
    | '-' :: r => (true, r)
    | '+' :: r => (false, r)
    | r => (false, r)
  let based : Nat × List Char :=
    match signed.2 with
    | '0' :: c :: d :: r => if c.toLower = 'x' then (16, d :: r) else (10, signed.2)
    | r => (10, r)
  let base := based.1
  let ip := readDigits base based.2 0 0
  let fp : Nat × Nat × List Char :=
    match ip.2.2 with
    | '.' :: r => readDigits base r ip.1 0
    | r => (ip.1, 0, r)
  if ip.2.1 + fp.2.1 = 0 then none
  else
    match readExponent (if base = 16 then 'p' else 'e') fp.2.2 with
    | none => none
    | some e =>
      if base = 16 ∧ e.1 = false then none
      else if cs.contains '_' ∧ underscoreOK cs = false then none
      else
        let m : ℚ := if signed.1 then -(fp.1 : ℚ) else (fp.1 : ℚ)
        let b : Nat := if base = 16 then 2 else 10
        let ex : Int := if base = 16 then e.2 - 4 * fp.2.1 else e.2 - fp.2.1
        some (if 0 ≤ ex then m * (b ^ ex.toNat : Nat) else m / (b ^ (-ex).toNat : Nat))

/-- The least magnitude that `float64` rounds to `2^1024`, that is to an
infinity: `2^1024 - 2^970`, half a step above the greatest `float64`. -/
def float64Overflow : Nat :=
  179769313486231580793728971405303415079934132710037826936173778980444968292764750946649017977587207096330286416692887910946555547851940402630657488671505820681908902000708383676273854845817711531764475730270069855571366959622842914819860834936475292719074168444365510704342711559699508093042880177904174497792

/-- The call `strconv.ParseFloat(s, 64)` without the rounding: the literals
of the Go syntax, decimal or hexadecimal, underscores between digits, and in
any case of letters the special values.  A number too large for `float64`
(its magnitude is `float64Overflow` at least) gives the infinity of its sign
with the error `ErrRange`.  On a syntax error the value is 0. -/
def ParseFloat (s : String) : XR × Bool :=
  let low := s.data.map Char.toLower
  if low = "inf".data ∨ low = "+inf".data ∨ low = "infinity".data ∨ low = "+infinity".data then
    (posInf, true)
  else if low = "-inf".data ∨ low = "-infinity".data then (negInf, true)
  else if low = "nan".data then (nan, true)
  else
    match readFloat s.data with
    | some q =>
      if float64Overflow * q.den ≤ q.num.natAbs then
        (if 0 ≤ q.num then posInf else negInf, false)
      else (fin q, true)
    | none => (fin 0, false)

end XR

instance instGoFloatXR : GoFloat XR where
  add := XR.add
  sub := XR.sub
  mul := XR.mul
  div := XR.div
  ofInt := fun z => .fin z
  eq := XR.eq
  lt := XR.lt
  le := XR.le
  abs := XR.abs
  sqrt := XR.sqrt
  pow2 := fun x => XR.mul x x
  ceil := XR.ceil
  toUint64 := XR.toUint64
  pi := .fin (884279719003555 / 281474976710656)
  epsilon := .fin (1 / 1000000)
  ParseFloat := XR.ParseFloat

/-- A `range` loop that visits the entries in stored order. -/
def storedOrder (F : Type) : GeoEnv F := ⟨id, fun _ => List.Perm.refl _⟩

/-- The canvas visited in stored order, every shape parsed in stored order. -/
def storedCanvasOrder (F : Type) : CanvasEnv F :=
  ⟨id, fun _ => List.Perm.refl _, fun _ => storedOrder F⟩

/-- A point with two numbers as coordinates. -/
def Point.isFin (p : Point XR) : Bool := p.X.isFin && p.Y.isFin

/-! ## Vocabulary for the parser -/

/-- The adjacency map that the loop of `parseSVGPath` builds for a
description (empty when a command is not valid). -/
def pathPoints (F : Type) [GoFloat F] (svg : String) : AdjacencyMap F :=
  (parsePathLoop (stringsSplit svg) (stringsSplit svg).length 0
    ⟨GoFloat.ofInt 0, GoFloat.ofInt 0⟩ ⟨GoFloat.ofInt 0, GoFloat.ofInt 0⟩ []).getD []

/-- The outcomes of `removeGroup` on the map of a description, one for each
point at which the tracing may start. -/
def traceStarts (F : Type) [GoFloat F] (svg : String) :
    List (List (Segment F) × AdjacencyMap F) :=
  (pathPoints F svg).map fun e =>
    removeGroup ((pathPoints F svg).size + 1) e.1 (pathPoints F svg)

/-- Each segment ends where the next one starts. -/
def linked {F : Type} [DecidableEq F] : List (Segment F) → Bool
  | [] => true
  | [_] => true
  | s :: t :: rest => decide (s.PEnd = t.PStart) && linked (t :: rest)

/-- Each segment ends where the next one starts, and the last one ends where
the first one starts. -/
def closedChain {F : Type} [DecidableEq F] (segments : List (Segment F)) : Bool :=
  match segments.head?, segments.getLast? with
  | some first, some last => linked segments && decide (last.PEnd = first.PStart)
  | _, _ => false

/-- The assignment that the `switch` of `parseSVGCircle` makes for a key. -/
def Circle.setKey {F : Type} (key : String) (val : F) (c : Circle F) : Circle F :=
  if key = "cx" then { c with X := val }
  else if key = "cy" then { c with Y := val }
  else if key = "r" then { c with R := val }
  else c

/-- A description of 129 bytes. -/
def exLongSvg : String := String.mk (List.replicate 129 'M')

/-- The 8-vertex polygon of the tests (`NonConvexPolySVG`). -/
def NonConvexPolySVG : String := "M 1 1 h 130 L 101 41 h -100 v -20 h 60 v -10 h -60 z"

/-- The hourglass of the tests (`HourGlassSVG`). -/
def HourGlassSVG : String := "M 5 5 L 0 10 L 10 10 L 5 15 z"

/-- The line of the tests (`SingleLineSVG`). -/
def SingleLineSVG : String := "M 20 10 L 30 40"

/-- A path whose first vertex is within `epsilon` of the origin. -/
def exNearOriginSvg : String := "M 0.0000001 0 L 5 0 L 5 5 Z"

/-- The triangle of the overlap test of `svg_test.go`. -/
def exTriangleSvg : String := "M 10 10 v 5 h 8 z"

/-- The conditions under which `parseSVGPath` gives one group for a
description, whatever the order of map iteration: the description starts with
`M`, every command is valid, no point is left alone, and a tracing from any
point uses up all the neighbour lists. -/
def oneLoop (svg : String) : Bool :=
  decide ((stringsSplit svg).getD 0 "" = "M") &&
  (parsePathLoop (F := XR) (stringsSplit svg) (stringsSplit svg).length 0
    ⟨GoFloat.ofInt 0, GoFloat.ofInt 0⟩ ⟨GoFloat.ofInt 0, GoFloat.ofInt 0⟩ []).isSome &&
  decide (pathPoints XR svg ≠ []) &&
  (pathPoints XR svg).all (fun e => decide (e.2 ≠ [])) &&
  (traceStarts XR svg).all (fun r => r.2.all fun e => e.1.isFin && decide (e.2 = []))

/-- The tokens of a closed loop after its first vertex: `c` commands `L` for
the vertices from number `k` on, then `Z`. -/
def loopRest (xs ys : Nat → String) : Nat → Nat → List String
  | _, 0 => ["Z"]
  | k, c + 1 => "L" :: xs k :: ys k :: loopRest xs ys (k + 1) c

/-- The tokens of the description `M x0 y0 L x1 y1 ... L x(n-1) y(n-1) Z`. -/
def loopTokens (n : Nat) (xs ys : Nat → String) : List String :=
  "M" :: xs 0 :: ys 0 :: loopRest xs ys 1 (n - 1)

/-- The neighbours of vertex `i` on the open path through the first `k`
vertices of `p`. -/
def chainNeighbours {F : Type} (p : Nat → Point F) (k i : Nat) : List (Point F) :=
  (if 0 < i then [p (i - 1)] else []) ++ (if i + 1 < k then [p (i + 1)] else [])

/-- The adjacency map of the open path through the first `k` vertices. -/
def ChainTable {F : Type} [GoFloat F] (p : Nat → Point F) (k : Nat) (M : AdjacencyMap F) :
    Prop :=
  (M.map Prod.fst).Perm ((List.range k).map p) ∧
  ∀ i < k, AdjacencyMap.get M (p i) = some (chainNeighbours p k i)

/-- The adjacency map of the closed loop through `n` vertices, as the parser
builds it. -/
def CycleTable {F : Type} [GoFloat F] (p : Nat → Point F) (n : Nat) (M : AdjacencyMap F) :
    Prop :=
  (M.map Prod.fst).Perm ((List.range n).map p) ∧
  AdjacencyMap.get M (p 0) = some [p 1, p (n - 1)] ∧
  (∀ i, 0 < i → i < n - 1 → AdjacencyMap.get M (p i) = some [p (i - 1), p (i + 1)]) ∧
  AdjacencyMap.get M (p (n - 1)) = some [p (n - 2), p 0]

/-- The vertices `p 0, ..., p (n-1)` are told apart by `Equals` and by `==`:
each of them is `Equals` and `==` to itself, as a point is whose coordinates
are numbers, and to none of the others.  (For `float64` numbers two points
that are not `Equals` are not `==` either.) -/
def distinctVertices {F : Type} [GoFloat F] (p : Nat → Point F) (n : Nat) : Prop :=
  ∀ i < n, ∀ j < n,
    (p i).Equals (p j) = decide (i = j) ∧ Point.keyEq (p i) (p j) = decide (i = j)

/-- A set `S` of points on which `==` is equality and every point is
`Equals` to itself. -/
structure KeySet {F : Type} [GoFloat F] [DecidableEq F] (S : Point F → Prop) : Prop where
  keyEq_eq : ∀ a b, S a → S b → Point.keyEq a b = decide (a = b)
  Equals_self : ∀ a, S a → a.Equals a = true

/-- The x tokens of the triangle "M 1 1 L 5 1 L 5 4 Z". -/
def exTriXs (i : Nat) : String := if i = 0 then "1" else "5"

/-- The y tokens of the triangle "M 1 1 L 5 1 L 5 4 Z". -/
def exTriYs (i : Nat) : String := if i = 2 then "4" else "1"

/-- The vertices of the triangle "M 1 1 L 5 1 L 5 4 Z". -/
def exTriPoints (i : Nat) : Point XR :=
  ⟨if i = 0 then .fin 1 else .fin 5, if i = 2 then .fin 4 else .fin 1⟩

/-- The x tokens of the triangle "M 0 0 L 5 0 L 5 4 Z". -/
def exOriginXs (i : Nat) : String := if i = 0 then "0" else "5"

/-- The y tokens of the triangle "M 0 0 L 5 0 L 5 4 Z". -/
def exOriginYs (i : Nat) : String := if i = 2 then "4" else "0"

/-- The vertices of the triangle "M 0 0 L 5 0 L 5 4 Z". -/
def exOriginPoints (i : Nat) : Point XR :=
  ⟨if i = 0 then .fin 0 else .fin 5, if i = 2 then .fin 4 else .fin 0⟩

/-- The number of argument tokens of the command at index `i`, when the token
there is a command letter that has its argument tokens after it; `none`
else.  The argument tokens themselves are not looked at. -/
def commandArgs (tokens : List String) (i : Nat) : Option Nat :=
  let tok := tokens.getD i ""
  if tok = "Z" ∨ tok = "z" then some 0
  else if tok = "M" ∨ tok = "m" then if i + 2 < tokens.length then some 2 else none
  else if tok = "L" ∨ tok = "l" then if i + 2 < tokens.length then some 2 else none
  else if tok = "H" ∨ tok = "h" then if i + 1 < tokens.length then some 1 else none
  else if tok = "V" ∨ tok = "v" then if i + 1 < tokens.length then some 1 else none
  else none

/-- Every token in command position, from index `i` on, is a command letter
with its argument tokens after it (`fuel` bounds the number of commands). -/
def commandsValid (tokens : List String) : Nat → Nat → Bool
  | 0, _ => true
  | fuel + 1, i =>
    if i < tokens.length then
      match commandArgs tokens i with
      | none => false
      | some args => commandsValid tokens fuel (i + args + 1)
    else true

/-! ## Vocabulary for the bounds check -/

/-- The constant `time.Second`, in the nanoseconds that a `time.Duration`
counts. -/
def timeSecond : Nat := 1000000000

/-- The value of `timeOutDuration` after the `switch` of `FindNonce`.  The
difficulty is a `uint8` and 25 an untyped constant, so the product is a
`uint8` product; the conversion to `time.Duration` comes after it. -/
def FindNonce_timeOutDuration (ns : MinerNetSettings) : Block → Nat
  | .OpBlock _ _ _ _ => ns.PoWDifficultyOpBlock % 2 ^ 8 * 25 % 2 ^ 8
  | .NoOpBlock _ _ _ => ns.PoWDifficultyNoOpBlock % 2 ^ 8 * 25 % 2 ^ 8

/-- The assignment `opBlk.Nonce = nonce` or `noOpBlk.Nonce = nonce`. -/
def Block.setNonce : Block → Nat → Block
  | .OpBlock p ops m _, nonce => .OpBlock p ops m nonce
  | .NoOpBlock p m _, nonce => .NoOpBlock p m nonce

/-- The function `FindNonce`, from round `i` of its loop on, for at most `fuel`
rounds.  Round `i` begins at `elapsed i` nanoseconds after the call of
`time.After`, whose channel holds its value once the duration
`timeOutDuration * time.Second` is over (an `int64` product, below `2^63`);
`rnd i` is what `shared.RandomNumGenerator()` returns in that round, a
`uint32`.  The result `some none` is the nil block; `none` is a panic of
`ZeroPrefix`, or a loop that has not ended after `fuel` rounds. -/
def FindNonce (env : Env) (ns : MinerNetSettings) (elapsed rnd : Nat → Nat) (block : Block) :
    Nat → Nat → Option (Option Block)
  | 0, _ => none
  | fuel + 1, i =>
    if FindNonce_timeOutDuration ns block * timeSecond ≤ elapsed i then some none
    else
      let blk := block.setNonce (rnd i % 2 ^ 32)
      match ZeroPrefix env ns blk with
      | none => none
      | some true => some (some blk)
      | some false => FindNonce env ns elapsed rnd block fuel (i + 1)

/-- Settings with difficulty 11 for op blocks. -/
def exNS11 : MinerNetSettings := { exNS with PoWDifficultyOpBlock := 11 }

/-- A clock that shows 10 seconds more in every round of the loop. -/
def exElapsed (i : Nat) : Nat := i * 10 * timeSecond

/-! ## Examples for the ink accounts -/

/-- An op block on A, mined by `miner-0002`, that carries two add ops of
`miner-0001`, each of cost 10. -/
def exTwoAdds : Block :=
  .OpBlock "a5c6e708294a6b8cadceef1031527394" [exOp0, exOp2] "miner-0002" 9

/-- The balance of a key in the ink table of the node stored under a hash. -/
def inkOf (s : State) (h pk : String) : Option Nat :=
  (snapshotOf s h).bind fun sn => sn.ink.get pk

/-! ## Lemmas on Go maps -/

namespace GoMap

variable {V : Type}

theorem get_set_self (m : GoMap V) (k : String) (v : V) : (m.set k v).get k = some v := by
  induction m with
  | nil => simp [set, get]
  | cons e m ih =>
    obtain ⟨k', v'⟩ := e
    by_cases h : k' = k
    · simp [set, get, h]
    · simp [set, get, h, ih]

theorem get_set_ne (m : GoMap V) {k k' : String} (v : V) (hne : k' ≠ k) :
    (m.set k v).get k' = m.get k' := by
  induction m with
  | nil => simp [set, get, Ne.symm hne]
  | cons e m ih =>
    obtain ⟨k₀, v₀⟩ := e
    by_cases h : k₀ = k
    · subst h
      simp [set, get, Ne.symm hne]
    · by_cases h' : k₀ = k'
      · subst h'
        simp [set, get, h]
      · simp [set, get, h, h', ih]

theorem get_del_self (m : GoMap V) (k : String) : (m.del k).get k = none := by
  induction m with
  | nil => simp [del, get]
  | cons e m ih =>
    obtain ⟨k', v'⟩ := e
    by_cases h : k' = k
    · simp [del, h, ih]
    · simp [del, get, h, ih]

theorem get_del_ne (m : GoMap V) {k k' : String} (hne : k' ≠ k) :
    (m.del k).get k' = m.get k' := by
  induction m with
  | nil => simp [del, get]
  | cons e m ih =>
    obtain ⟨k₀, v₀⟩ := e
    by_cases h : k₀ = k
    · subst h
      simp [del, get, Ne.symm hne, ih]
    · by_cases h' : k₀ = k'
      · subst h'
        simp [del, get, h]
      · simp [del, get, h, h', ih]

end GoMap

/-! ## Majority reconciliation -/

theorem countHashesAt_fold_snd (env : Env) (i : Nat) (chains : List RawBlockchain)
    (acc : BlockHashCountTable × List RawBlockchain) :
    (chains.foldl
      (fun (acc : BlockHashCountTable × List RawBlockchain) chain =>
        match chain[i]? with
        | some b =>
          let h := b.Hash env
          (acc.1.set h ((acc.1.get h).getD [] ++ [ChainPtr.mk acc.2.length]), acc.2 ++ [chain])
        | none => (acc.1, acc.2 ++ [chain]))
      acc).2 = acc.2 ++ chains := by
  induction chains generalizing acc with
  | nil => simp
  | cons ch cs ih =>
    rw [List.foldl_cons, ih]
    cases hc : ch[i]? <;> simp

/-- The variables of the inner loop hold the chains of the input, in order. -/
theorem countHashesAt_snd (env : Env) (chains : List RawBlockchain) (i : Nat) :
    (countHashesAt env chains i).2 = chains := by
  unfold countHashesAt
  rw [countHashesAt_fold_snd]
  rfl

theorem holdersAt_cons (env : Env) (ch : RawBlockchain) (cs : List RawBlockchain) (i : Nat)
    (h : String) :
    holdersAt env (ch :: cs) i h
      = (if (ch[i]?).map (Block.Hash env) = some h then 1 else 0) + holdersAt env cs i h := by
  unfold holdersAt
  rw [List.filter_cons]
  by_cases hc : (ch[i]?).map (Block.Hash env) = some h
  · simp [hc]; omega
  · simp [hc]

theorem countHashesAt_fold_get (env : Env) (i : Nat) (h : String) (chains : List RawBlockchain)
    (acc : BlockHashCountTable × List RawBlockchain) :
    (((chains.foldl
      (fun (acc : BlockHashCountTable × List RawBlockchain) chain =>
        match chain[i]? with
        | some b =>
          let h := b.Hash env
          (acc.1.set h ((acc.1.get h).getD [] ++ [ChainPtr.mk acc.2.length]), acc.2 ++ [chain])
        | none => (acc.1, acc.2 ++ [chain]))
      acc).1.get h).getD []).length
      = ((acc.1.get h).getD []).length + holdersAt env chains i h := by
  induction chains generalizing acc with
  | nil => simp [holdersAt]
  | cons ch cs ih =>
    rw [List.foldl_cons, ih, holdersAt_cons]
    cases hc : ch[i]? with
    | none => simp
    | some b =>
      by_cases hb : b.Hash env = h
      · subst hb
        simp [GoMap.get_set_self]
        omega
      · simp [hb, GoMap.get_set_ne _ _ (Ne.symm hb)]

/-- An entry of the table that is not empty keeps its first address. -/
theorem countHashesAt_fold_head (env : Env) (i : Nat) (h : String) (chains : List RawBlockchain)
    (acc : BlockHashCountTable × List RawBlockchain) (hne : (acc.1.get h).getD [] ≠ []) :
    (((chains.foldl
      (fun (acc : BlockHashCountTable × List RawBlockchain) chain =>
        match chain[i]? with
        | some b =>
          let h := b.Hash env
          (acc.1.set h ((acc.1.get h).getD [] ++ [ChainPtr.mk acc.2.length]), acc.2 ++ [chain])
        | none => (acc.1, acc.2 ++ [chain]))
      acc).1.get h).getD []).head? = ((acc.1.get h).getD []).head? := by
  induction chains generalizing acc with
  | nil => rfl
  | cons ch cs ih =>
    rw [List.foldl_cons]
    cases hc : ch[i]? with
    | none => exact ih _ hne
    | some b =>
      by_cases hb : b.Hash env = h
      · subst hb
        rw [ih]
        · simp only [GoMap.get_set_self, Option.getD_some]
          cases hl : (acc.1.get (b.Hash env)).getD [] with
          | nil => exact absurd hl hne
          | cons x xs => rfl
        · simp [GoMap.get_set_self]
      · rw [ih]
        · simp only [GoMap.get_set_ne _ _ (Ne.symm hb)]
        · simpa only [GoMap.get_set_ne _ _ (Ne.symm hb)] using hne

/-- The first address of an entry that the inner loop creates points to the
variable of the first chain, in input order, that holds the hash. -/
theorem countHashesAt_fold_first (env : Env) (i : Nat) (h : String) (chains : List RawBlockchain)
    (acc : BlockHashCountTable × List RawBlockchain) (hnil : (acc.1.get h).getD [] = [])
    (p : ChainPtr)
    (hp : (((chains.foldl
      (fun (acc : BlockHashCountTable × List RawBlockchain) chain =>
        match chain[i]? with
        | some b =>
          let h := b.Hash env
          (acc.1.set h ((acc.1.get h).getD [] ++ [ChainPtr.mk acc.2.length]), acc.2 ++ [chain])
        | none => (acc.1, acc.2 ++ [chain]))
      acc).1.get h).getD []).head? = some p) :
    (acc.2 ++ chains)[p.addr]? = firstHolder env chains i h := by
  induction chains generalizing acc with
  | nil => simp [hnil] at hp
  | cons ch cs ih =>
    rw [List.foldl_cons] at hp
    cases hc : ch[i]? with
    | none =>
      simp only [hc] at hp
      have := ih (acc.1, acc.2 ++ [ch]) hnil hp
      simp only [List.append_assoc, List.singleton_append] at this
      rw [this]
      simp [firstHolder, List.find?_cons, hc]
    | some b =>
      simp only [hc] at hp
      by_cases hb : b.Hash env = h
      · subst hb
        rw [countHashesAt_fold_head] at hp
        · simp only [GoMap.get_set_self, Option.getD_some, hnil, List.nil_append,
            List.head?_cons, Option.some.injEq] at hp
          subst hp
          have hget : (acc.2 ++ ch :: cs)[acc.2.length]? = some ch := by
            rw [List.getElem?_append_right (le_refl _)]
            simp
          show (acc.2 ++ ch :: cs)[acc.2.length]? = _
          rw [hget]
          simp [firstHolder, List.find?_cons, hc]
        · simp [GoMap.get_set_self]
      · have hnil2 : ((acc.1.set (b.Hash env)
            ((acc.1.get (b.Hash env)).getD [] ++ [ChainPtr.mk acc.2.length])).get h).getD [] = [] := by
          rw [GoMap.get_set_ne _ _ (Ne.symm hb)]
          exact hnil
        have := ih (_, acc.2 ++ [ch]) hnil2 hp
        simp only [List.append_assoc, List.singleton_append] at this
        rw [this]
        simp [firstHolder, List.find?_cons, hc, hb]

/-- The entry of a hash, when it is not empty, starts with the address of the
variable that holds the first chain holding the hash. -/
theorem countHashesAt_first (env : Env) (chains : List RawBlockchain) (i : Nat) (h : String)
    (p : ChainPtr) (ps : List ChainPtr)
    (hp : ((countHashesAt env chains i).1.get h).getD [] = p :: ps) :
    (countHashesAt env chains i).2[p.addr]? = firstHolder env chains i h := by
  rw [countHashesAt_snd]
  have := countHashesAt_fold_first env i h chains ([], []) rfl p
    (by
      have hp2 := hp
      unfold countHashesAt at hp2
      rw [hp2]
      rfl)
  simpa using this

/-- The table of the inner loop counts, for every hash, the chains holding it. -/
theorem countHashesAt_get (env : Env) (chains : List RawBlockchain) (i : Nat) (h : String) :
    (((countHashesAt env chains i).1.get h).getD []).length = holdersAt env chains i h := by
  unfold countHashesAt
  rw [countHashesAt_fold_get]
  simp [GoMap.get]

theorem getHashWithMaxCount_fold (tbl : BlockHashCountTable) (ks : List String)
    (acc : Nat × String) (hacc : acc.1 = 0 ∨ acc.1 = ((tbl.get acc.2).getD []).length) :
    let r := ks.foldl
      (fun (acc : Nat × String) hash =>
        let chains := (tbl.get hash).getD []
        if chains.length > acc.1 then (chains.length, hash) else acc) acc
    r.1 = 0 ∨ r.1 = ((tbl.get r.2).getD []).length := by
  induction ks generalizing acc with
  | nil => simpa using hacc
  | cons k ks ih =>
    simp only [List.foldl_cons]
    apply ih
    split
    · right; rfl
    · exact hacc

/-- The count that `getHashWithMaxCount` returns is 0 or the length of the
entry of the hash returned with it, whatever the iteration order. -/
theorem getHashWithMaxCount_spec (env : Env) (tbl : BlockHashCountTable) :
    (getHashWithMaxCount env tbl).1 = 0 ∨
    (getHashWithMaxCount env tbl).1 = ((tbl.get (getHashWithMaxCount env tbl).2).getD []).length := by
  unfold getHashWithMaxCount
  exact getHashWithMaxCount_fold tbl _ (0, "") (Or.inl rfl)

/-! ### Hashes are 32 hexadecimal digits -/

theorem hexEncode_length (bs : List Nat) : (hexEncode bs).length = 2 * bs.length := by
  unfold hexEncode
  show (List.flatMap _ _).length = _
  induction bs with
  | nil => rfl
  | cons b bs ih => simp [List.flatMap_cons, ih]; omega

theorem Block.Hash_length (env : Env) (b : Block) : (b.Hash env).length = 32 := by
  cases b <;> simp [Block.Hash, hexEncode_length, env.md5_length]

theorem Block.Hash_ne_empty (env : Env) (b : Block) : b.Hash env ≠ "" := by
  intro h
  have := Block.Hash_length env b
  rw [h] at this
  simp at this

theorem rangeOrder_nil (env : Env) : env.rangeOrder [] = [] :=
  List.Perm.eq_nil (env.rangeOrder_perm [])

theorem rangeOrder_singleton (env : Env) (k : String) : env.rangeOrder [k] = [k] :=
  List.perm_singleton.mp (env.rangeOrder_perm [k])

/-- Without a majority at any index up to `n`, the loop ends with `maxHash = ""`. -/
theorem majorityLoop_no_majority (env : Env) (chains : List RawBlockchain) (majority : Nat)
    (hno : ∀ i h, holdersAt env chains i h ≤ majority) (n : Nat) :
    (majorityLoop env chains majority n).1 = "" := by
  have key : ∀ i, ¬ (getHashWithMaxCount env (countHashesAt env chains i).1).1 > majority := by
    intro i
    rcases getHashWithMaxCount_spec env (countHashesAt env chains i).1 with h0 | h1
    · omega
    · rw [h1, countHashesAt_get]
      have := hno i (getHashWithMaxCount env (countHashesAt env chains i).1).2
      omega
  induction n with
  | zero =>
    simp only [majorityLoop]
    rw [if_neg (key 0)]
  | succ n ih =>
    simp only [majorityLoop]
    rw [if_neg (key (n + 1))]
    exact ih

theorem holdersAt_le_length (env : Env) (chains : List RawBlockchain) (i : Nat) (h : String) :
    holdersAt env chains i h ≤ chains.length := by
  unfold holdersAt
  exact List.length_filter_le _ _

theorem holdersAt_all_empty (env : Env) (chains : List RawBlockchain)
    (hall : ∀ ch ∈ chains, ch = []) (i : Nat) (h : String) : holdersAt env chains i h = 0 := by
  induction chains with
  | nil => simp [holdersAt]
  | cons ch cs ih =>
    rw [holdersAt_cons, ih (fun x hx => hall x (List.mem_cons_of_mem _ hx))]
    have : ch = [] := hall ch (List.mem_cons_self _ _)
    subst this
    simp

theorem holdersAt_pair_differ (env : Env) (c1 c2 : RawBlockchain)
    (hdiff : ∀ (i : Nat) (b1 b2 : Block), c1[i]? = some b1 → c2[i]? = some b2 → b1.Hash env ≠ b2.Hash env)
    (i : Nat) (h : String) : holdersAt env [c1, c2] i h ≤ 1 := by
  rw [holdersAt_cons, holdersAt_cons]
  have hnil : holdersAt env [] i h = 0 := by simp [holdersAt]
  rw [hnil]
  cases h1 : c1[i]? with
  | none => simp; split <;> omega
  | some b1 =>
    cases h2 : c2[i]? with
    | none => simp; split <;> omega
    | some b2 =>
      have := hdiff i b1 b2 h1 h2
      by_cases e1 : b1.Hash env = h
      · have e2 : ¬ b2.Hash env = h := fun e2 => this (e1.trans e2.symm)
        simp [e1, e2]
      · simp [e1]
        split <;> omega

/-- C2: `GetLongestChainInNetwork` returns the empty chain whenever no index
has a block hash held by strictly more than half of the chains; in particular
for no chains at all, for chains that are all empty, and for two chains whose
blocks differ at every index. -/
theorem C2_GetLongestChainInNetwork_no_majority_empty (env : Env) :
    (∀ chains : List RawBlockchain,
        (∀ i h, ¬ 2 * holdersAt env chains i h > chains.length) →
        GetLongestChainInNetwork env chains = some []) ∧
    GetLongestChainInNetwork env [] = some [] ∧
    (∀ chains : List RawBlockchain, (∀ ch ∈ chains, ch = []) →
        GetLongestChainInNetwork env chains = some []) ∧
    (∀ c1 c2 : RawBlockchain,
        (∀ (i : Nat) (b1 b2 : Block), c1[i]? = some b1 → c2[i]? = some b2 → b1.Hash env ≠ b2.Hash env) →
        GetLongestChainInNetwork env [c1, c2] = some []) := by
  have main : ∀ chains : List RawBlockchain,
      (∀ i h, ¬ 2 * holdersAt env chains i h > chains.length) →
      GetLongestChainInNetwork env chains = some [] := by
    intro chains hno
    have hloop := majorityLoop_no_majority env chains (chains.length / 2)
      (fun i h => by have := hno i h; omega) (GethMaxLengthOfChains chains)
    unfold GetLongestChainInNetwork
    simp only []
    rw [if_pos hloop]
  refine ⟨main, ?_, ?_, ?_⟩
  · exact main [] (fun i h => by simp [holdersAt])
  · intro chains hall
    exact main chains (fun i h => by rw [holdersAt_all_empty env chains hall]; omega)
  · intro c1 c2 hdiff
    exact main [c1, c2] (fun i h => by
      have := holdersAt_pair_differ env c1 c2 hdiff i h
      simp only [List.length_cons, List.length_nil]
      omega)

set_option maxRecDepth 100000 in
theorem toy_exA_exC_differ : ∀ (i : Nat) (b1 b2 : Block), [exA][i]? = some b1 →
    [exC][i]? = some b2 → b1.Hash toyEnv ≠ b2.Hash toyEnv := by
  intro i b1 b2 h1 h2
  cases i with
  | zero =>
    simp at h1 h2
    subst h1 h2
    decide
  | succ j => simp at h1

/-- Witness for C2: the two one-block chains `[exA]` and `[exC]` differ at
index 0, and two empty chains are all empty; each gives the empty chain. -/
theorem C2_GetLongestChainInNetwork_no_majority_empty_witness :
    GetLongestChainInNetwork toyEnv [[exA], [exC]] = some [] ∧
    GetLongestChainInNetwork toyEnv [[], []] = some [] ∧
    GetLongestChainInNetwork toyEnv [[exA], [exC]] = some [] :=
  ⟨(C2_GetLongestChainInNetwork_no_majority_empty toyEnv).2.2.2 [exA] [exC] toy_exA_exC_differ,
   (C2_GetLongestChainInNetwork_no_majority_empty toyEnv).2.2.1 [[], []]
     (by intro ch hch; simp at hch; exact hch),
   (C2_GetLongestChainInNetwork_no_majority_empty toyEnv).1 [[exA], [exC]]
     (fun i h => by
       have := holdersAt_pair_differ toyEnv [exA] [exC] toy_exA_exC_differ i h
       simp only [List.length_cons, List.length_nil]
       omega)⟩

/-! ## Applying a block: structure of the result -/

theorem ValidateBlock_state (env : Env) (ns : MinerNetSettings) (s s1 : State) (b : Block)
    (v : Bool) (e : Option Error) (h : ValidateBlock env ns s b = some (s1, v, e)) :
    s1 = s ∨ (s.treeTable.get b.GetPrevHash = none ∧
      s1 = { s with noParentBlocks := s.noParentBlocks.set (b.Hash env) b }) := by
  unfold ValidateBlock at h
  split at h
  · simp at h
  · split at h
    · simp only [Option.some.injEq, Prod.mk.injEq] at h
      exact Or.inl h.1.symm
    · split at h
      · rename_i hp
        simp only [Option.some.injEq, Prod.mk.injEq] at h
        right
        refine ⟨?_, h.1.symm⟩
        simpa [GoMap.has] using hp
      · split at h
        · simp at h
        · simp only [Option.some.injEq, Prod.mk.injEq] at h
          exact Or.inl h.1.symm

theorem addBlockBody_none_of_no_parent (env : Env) (ns : MinerNetSettings) (s : State)
    (b : Block) (rnd : Nat) (h : s.treeTable.get b.GetPrevHash = none) :
    addBlockBody env ns s b rnd = none := by
  unfold addBlockBody
  simp only [h]

/-- A successful `AddBlockToBlockchain` is a `ValidateBlock` that leaves the
state alone, followed by the body. -/
theorem AddBlockToBlockchain_inv (env : Env) (ns : MinerNetSettings) (s s' : State) (b : Block)
    (rnd : Nat) (h : AddBlockToBlockchain env ns s b rnd = some s') :
    (∃ v e, ValidateBlock env ns s b = some (s, v, e)) ∧ addBlockBody env ns s b rnd = some s' := by
  unfold AddBlockToBlockchain at h
  split at h
  · simp at h
  · rename_i s1 v e hv
    rcases ValidateBlock_state env ns s s1 b v e hv with h1 | ⟨hnone, h1⟩
    · subst h1
      exact ⟨⟨v, e, hv⟩, h⟩
    · exfalso
      have : addBlockBody env ns s1 b rnd = none :=
        addBlockBody_none_of_no_parent env ns s1 b rnd (by rw [h1]; exact hnone)
      rw [this] at h
      simp at h

/-- What a successful run of the body of `AddBlockToBlockchain` produces. -/
theorem addBlockBody_inv (env : Env) (ns : MinerNetSettings) (s s' : State) (block : Block)
    (rnd : Nat) (h : addBlockBody env ns s block rnd = some s') :
    ∃ node committed tipNode,
      s.treeTable.get block.GetPrevHash = some node ∧
      (node.InkTable < s.heap.inkTables.length ∧ node.Canvas < s.heap.canvases.length ∧
        node.QueueShapes < s.heap.queues.length ∧ node.OpLog < s.heap.opLogs.length) ∧
      10 ≤ (stringBytes block.GetMinerPubKey).length ∧
      s'.treeTable = (s.treeTable.set block.GetPrevHash
          { node with Children := node.Children ++ [block.Hash env] }).set (block.Hash env)
          { Block := block, Children := [], Height := node.Height + 1,
            InkTable := node.InkTable, Canvas := node.Canvas,
            QueueShapes := node.QueueShapes, OpLog := node.OpLog } ∧
      s'.treeTable.get s.longestLeafHash = some tipNode ∧
      s'.longestLeafHash =
        (if node.Height + 1 > tipNode.Height then block.Hash env
         else if node.Height + 1 = tipNode.Height then
           (if rnd % 2 = 0 then block.Hash env else s.longestLeafHash)
         else s.longestLeafHash) ∧
      s'.heap.inkTables = s.heap.inkTables.set node.InkTable
        (blockSwitch env ns block (block.Hash env)
          { queueShapes := committed.1, opLog := s.heap.opLog node.OpLog,
            opQueue := s.opQueue, inkTable := s.heap.ink node.InkTable }).inkTable ∧
      s'.heap.queues = s.heap.queues.set node.QueueShapes
        (blockSwitch env ns block (block.Hash env)
          { queueShapes := committed.1, opLog := s.heap.opLog node.OpLog,
            opQueue := s.opQueue, inkTable := s.heap.ink node.InkTable }).queueShapes ∧
      s'.heap.canvases = s.heap.canvases.set node.Canvas committed.2 ∧
      s'.heap.opLogs = s.heap.opLogs.set node.OpLog
        (blockSwitch env ns block (block.Hash env)
          { queueShapes := committed.1, opLog := s.heap.opLog node.OpLog,
            opQueue := s.opQueue, inkTable := s.heap.ink node.InkTable }).opLog ∧
      commitLoop env
        (((s.treeTable.set block.GetPrevHash
          { node with Children := node.Children ++ [block.Hash env] }).get
            s.longestLeafHash).map fun n => s.heap.opLog n.OpLog)
        (env.rangeOrder (s.heap.queue node.QueueShapes).keys)
        (s.heap.queue node.QueueShapes, s.heap.canvas node.Canvas) = some committed := by
  unfold addBlockBody at h
  simp only [] at h
  split at h
  · simp at h
  · rename_i node hnode
    split at h
    · simp at h
    · rename_i hrefs
      split at h
      · simp at h
      · rename_i committed hcommit
        split at h
        · simp at h
        · rename_i hkey
          split at h
          · simp at h
          · rename_i tipNode htip
            simp only [Option.some.injEq] at h
            subst h
            exact ⟨node, committed, tipNode, hnode, not_not.mp hrefs, by omega, rfl, htip, rfl,
              rfl, rfl, rfl, rfl, hcommit⟩

theorem list_getD_set_self {α : Type} (l : List α) (i : Nat) (v d : α) (hi : i < l.length) :
    (l.set i v).getD i d = v := by
  simp [List.getD_eq_getElem?_getD, List.getElem?_set, hi]

/-! ## Ink accounting -/

theorem rewardMiner_get (t : InkTable) (m : String) (r : Nat) (pk : String) :
    (rewardMiner t m r).get pk
      = if pk = m then some (((t.get m).getD 0 + r) % 2 ^ 32) else t.get pk := by
  unfold rewardMiner
  by_cases hpk : pk = m
  · subst hpk
    rw [if_pos rfl, GoMap.get_set_self]
    by_cases hh : t.has pk = true
    · simp [hh]
    · simp only [hh, Bool.false_eq_true, if_false, GoMap.get_set_self]
      simp only [GoMap.has, Option.isSome_iff_exists, not_exists] at hh
      cases hg : t.get pk with
      | none => rfl
      | some x => exact absurd hg (hh x)
  · rw [if_neg hpk, GoMap.get_set_ne _ _ hpk]
    by_cases hh : t.has m = true
    · simp [hh]
    · simp [hh, GoMap.get_set_ne _ _ hpk]

theorem ShapeInk_lt (env : Env) (sh : Shape) : ShapeInk env sh < 2 ^ 32 :=
  Nat.mod_lt _ (by norm_num)

theorem applyOp_ink_get (env : Env) (bh : String) (st : OpLoopState) (op : Op)
    (pk : String) :
    ((applyOp env bh st op).inkTable.get pk)
      = if op.PubKey = pk then
          (if op.Add then
            some (((st.inkTable.get pk).getD 0 + 2 ^ 32 - ShapeInk env op.OpShape) % 2 ^ 32)
           else some (((st.inkTable.get pk).getD 0 + ShapeInk env op.OpShape) % 2 ^ 32))
        else st.inkTable.get pk := by
  unfold applyOp
  by_cases hpk : op.PubKey = pk
  · subst hpk
    by_cases ha : op.Add = true
    · simp [ha, GoMap.get_set_self]
    · simp [ha, GoMap.get_set_self]
  · have hne : pk ≠ op.PubKey := fun e => hpk e.symm
    by_cases ha : op.Add = true
    · simp [ha, hpk, GoMap.get_set_ne _ _ hne]
    · simp [ha, hpk, GoMap.get_set_ne _ _ hne]

theorem inkDelta_cons (env : Env) (op : Op) (ops : List Op) (pk : String) :
    inkDelta env (op :: ops) pk
      = (if op.PubKey = pk then
          (if op.Add then -(ShapeInk env op.OpShape : Int) else (ShapeInk env op.OpShape : Int))
         else 0) + inkDelta env ops pk := by
  simp [inkDelta]

/-- The loop over the ops of a block moves the balance of `pk` by the signed
sum of the costs of the ops `pk` authored, modulo `2^32`. -/
theorem foldl_applyOp_ink (env : Env) (bh : String) (pk : String) (ops : List Op) :
    ∀ st : OpLoopState,
      ((((ops.foldl (applyOp env bh) st).inkTable.get pk).getD 0 : Nat) : Int)
        ≡ ((st.inkTable.get pk).getD 0 : Nat) + inkDelta env ops pk [ZMOD 2 ^ 32] := by
  induction ops with
  | nil =>
    intro st
    simp [inkDelta, Int.ModEq]
  | cons op ops ih =>
    intro st
    rw [List.foldl_cons, inkDelta_cons]
    refine (ih (applyOp env bh st op)).trans ?_
    rw [applyOp_ink_get]
    have hlt := ShapeInk_lt env op.OpShape
    by_cases hpk : op.PubKey = pk
    · by_cases ha : op.Add = true
      · simp only [hpk, ha, if_true, Option.getD_some]
        unfold Int.ModEq
        push_cast
        omega
      · simp only [hpk, ha, if_true, Option.getD_some, Bool.false_eq_true, if_false]
        unfold Int.ModEq
        push_cast
        omega
    · simp only [hpk, if_false]
      unfold Int.ModEq
      omega

/-- The loop over the ops of a block leaves alone the balance of a key that
authored none of them. -/
theorem foldl_applyOp_ink_frame (env : Env) (bh : String) (pk : String)
    (ops : List Op) (hno : ∀ op ∈ ops, op.PubKey ≠ pk) :
    ∀ st : OpLoopState,
      (ops.foldl (applyOp env bh) st).inkTable.get pk = st.inkTable.get pk := by
  induction ops with
  | nil => intro st; rfl
  | cons op ops ih =>
    intro st
    rw [List.foldl_cons, ih (fun o ho => hno o (List.mem_cons_of_mem _ ho)), applyOp_ink_get,
      if_neg (hno op (List.mem_cons_self _ _))]

/-! ## Snapshots are shared between nodes -/

set_option maxRecDepth 1000000 in
/-- C3 (code defect): a node's four maps are Go map values, i.e. references,
and `AddBlockToBlockchain` writes through the parent's references and hands
the same references to the new node.  Applying the valid no-op block A under
the genesis node changes the genesis node's ink table; applying C, a sibling
of A, changes the ink table of A; applying the op block D changes the pending
queue and op log of the genesis node and of A; applying H, which commits the
op, changes the canvas of every node. -/
theorem C3_AddBlockToBlockchain_mutates_existing_snapshots :
    ValidateBlock toyEnv exNS exS0 exA = some (exS0, true, none) ∧
    AddBlockToBlockchain toyEnv exNS exS0 exA 0 = some exS1 ∧
    snapshotOf exS0 exNS.GenesisBlockHash = some ⟨[], [], [], []⟩ ∧
    snapshotOf exS1 exNS.GenesisBlockHash = some ⟨[("miner-0001", 10)], [], [], []⟩ ∧
    ValidateBlock toyEnv exNS exS1 exC = some (exS1, true, none) ∧
    AddBlockToBlockchain toyEnv exNS exS1 exC 1 = some exS1C ∧
    snapshotOf exS1 (exA.Hash toyEnv) = some ⟨[("miner-0001", 10)], [], [], []⟩ ∧
    snapshotOf exS1C (exA.Hash toyEnv)
      = some ⟨[("miner-0001", 10), ("miner-0002", 10)], [], [], []⟩ ∧
    AddBlockToBlockchain toyEnv exNS exS1 exD 0 = some exS1D ∧
    (snapshotOf exS1D exNS.GenesisBlockHash).map (fun p => (p.queue.keys, p.opLog.keys))
      = some ([exOp2.HashToString toyEnv], [exOp2.HashToString toyEnv]) ∧
    (snapshotOf exS1D (exA.Hash toyEnv)).map (fun p => (p.queue.keys, p.opLog.keys))
      = some ([exOp2.HashToString toyEnv], [exOp2.HashToString toyEnv]) ∧
    AddBlockToBlockchain toyEnv exNS exS1DG exH 0 = some exS1DGH ∧
    (snapshotOf exS1DG (exD.Hash toyEnv)).map (fun p => p.canvas.keys) = some [] ∧
    (snapshotOf exS1DGH (exD.Hash toyEnv)).map (fun p => p.canvas.keys)
      = some [exOp2.HashToString toyEnv] ∧
    (snapshotOf exS1DGH exNS.GenesisBlockHash).map (fun p => p.canvas.keys)
      = some [exOp2.HashToString toyEnv] := by
  decide

theorem blockSwitch_ink (env : Env) (ns : MinerNetSettings) (block : Block) (bh : String)
    (st : OpLoopState) (pk : String) :
    ((((blockSwitch env ns block bh st).inkTable.get pk).getD 0 : Nat) : Int)
      ≡ ((st.inkTable.get pk).getD 0 : Nat)
        + (if pk = block.GetMinerPubKey then (blockReward ns block : Int) else 0)
        + inkDelta env block.GetOps pk [ZMOD 2 ^ 32] := by
  cases block with
  | OpBlock p ops m n =>
    simp only [blockSwitch, Block.GetMinerPubKey, Block.GetOps, blockReward]
    have hrew : ((((rewardMiner st.inkTable m (ns.InkPerOpBlock % 2 ^ 32)).get pk).getD 0 : Nat)
        : Int) ≡ ((st.inkTable.get pk).getD 0 : Nat)
          + (if pk = m then (ns.InkPerOpBlock : Int) else 0) [ZMOD 2 ^ 32] := by
      rw [rewardMiner_get]
      by_cases hpk : pk = m
      · subst hpk
        simp only [if_true, Option.getD_some]
        unfold Int.ModEq
        push_cast
        omega
      · simp [hpk, Int.ModEq]
    refine (foldl_applyOp_ink env bh pk ops _).trans ?_
    exact Int.ModEq.add_right _ hrew
  | NoOpBlock p m n =>
    simp only [blockSwitch, Block.GetMinerPubKey, Block.GetOps, blockReward]
    rw [rewardMiner_get]
    by_cases hpk : pk = m
    · subst hpk
      simp only [if_true, Option.getD_some, inkDelta, List.map_nil, List.sum_nil, add_zero]
      unfold Int.ModEq
      push_cast
      omega
    · simp [hpk, Int.ModEq, inkDelta]

theorem blockSwitch_ink_frame (env : Env) (ns : MinerNetSettings) (block : Block) (bh : String)
    (st : OpLoopState) (pk : String) (hm : pk ≠ block.GetMinerPubKey)
    (hno : ∀ op ∈ block.GetOps, op.PubKey ≠ pk) :
    (blockSwitch env ns block bh st).inkTable.get pk = st.inkTable.get pk := by
  cases block with
  | OpBlock p ops m n =>
    simp only [blockSwitch]
    simp only [Block.GetMinerPubKey] at hm
    simp only [Block.GetOps] at hno
    rw [foldl_applyOp_ink_frame env bh pk ops hno]
    simp [rewardMiner_get, hm]
  | NoOpBlock p m n =>
    simp only [Block.GetMinerPubKey] at hm
    simp [blockSwitch, rewardMiner_get, hm]

/-- C4 (as amended): `AddBlockToBlockchain` moves ink at INCLUSION.  In the
application of `block` under parent `node`, the balance of every key `pk` in
the (shared) ink table becomes the old balance, plus the block reward if `pk`
mined the block, minus the cost of every add op and plus the cost of every
delete op that `pk` authored in this block, in `uint32` arithmetic, whatever
the `ValidNum` of those ops.  A key that neither mined the block nor authored
an op in it keeps its balance, also when one of its pending entries reaches
zero in this application.  The new node reads the same ink table. -/
theorem C4_ink_moves_at_inclusion (env : Env) (ns : MinerNetSettings) (s s' : State)
    (block : Block) (rnd : Nat) (node : BlockChainNode)
    (hadd : AddBlockToBlockchain env ns s block rnd = some s')
    (hnode : s.treeTable.get block.GetPrevHash = some node) :
    (∀ pk : String,
      ((((s'.heap.ink node.InkTable).get pk).getD 0 : Nat) : Int)
        ≡ (((s.heap.ink node.InkTable).get pk).getD 0 : Nat)
          + (if pk = block.GetMinerPubKey then (blockReward ns block : Int) else 0)
          + inkDelta env block.GetOps pk [ZMOD 2 ^ 32]) ∧
    (∀ pk : String, pk ≠ block.GetMinerPubKey → (∀ op ∈ block.GetOps, op.PubKey ≠ pk) →
      (s'.heap.ink node.InkTable).get pk = (s.heap.ink node.InkTable).get pk) ∧
    (∃ n', s'.treeTable.get (block.Hash env) = some n' ∧ n'.InkTable = node.InkTable) := by
  obtain ⟨_, hbody⟩ := AddBlockToBlockchain_inv env ns s s' block rnd hadd
  obtain ⟨node', committed, tipNode, hnode', hrefs, _, htree, _, _, hink, _, _, _, _⟩ :=
    addBlockBody_inv env ns s s' block rnd hbody
  rw [hnode] at hnode'
  cases hnode'
  have hget : s'.heap.ink node.InkTable
      = (blockSwitch env ns block (block.Hash env)
          { queueShapes := committed.1, opLog := s.heap.opLog node.OpLog,
            opQueue := s.opQueue, inkTable := s.heap.ink node.InkTable }).inkTable := by
    unfold Heap.ink
    rw [hink]
    exact list_getD_set_self _ _ _ _ hrefs.1
  refine ⟨fun pk => ?_, fun pk hm hno => ?_, ?_⟩
  · rw [hget]
    exact blockSwitch_ink env ns block _ _ pk
  · rw [hget]
    exact blockSwitch_ink_frame env ns block _ _ pk hm hno
  · rw [htree, GoMap.get_set_self]
    exact ⟨_, rfl, rfl⟩

set_option maxRecDepth 1000000 in
/-- Counterexample to C4 as stated: `miner-0001` holds 10 ink; block D, mined
by `miner-0002`, includes the add op `exOp2` of `miner-0001` with
`ValidNum = 2` and cost 10.  Applying D takes the balance to 0 at once, while
the op is still pending with 2 confirmations to go; the two later blocks G and
H, of which H commits the shape to the canvas, leave the balance at 0. -/
theorem C4_counterexample :
    AddBlockToBlockchain toyEnv exNS exS1 exD 0 = some exS1D ∧
    AddBlockToBlockchain toyEnv exNS exS1D exG 0 = some exS1DG ∧
    AddBlockToBlockchain toyEnv exNS exS1DG exH 0 = some exS1DGH ∧
    exOp2 ∈ exD.GetOps ∧ exOp2.ValidNum = 2 ∧ exOp2.PubKey ≠ exD.GetMinerPubKey ∧
    ShapeInk toyEnv exOp2.OpShape = 10 ∧
    (exS1.heap.ink 0).get "miner-0001" = some 10 ∧
    (exS1D.heap.ink 0).get "miner-0001" = some 0 ∧
    ((exS1D.heap.queue 0).get (exOp2.HashToString toyEnv)).map QueueShape.ValidNum = some 2 ∧
    (exS1D.heap.canvas 0).has (exOp2.HashToString toyEnv) = false ∧
    (exS1DG.heap.ink 0).get "miner-0001" = some 0 ∧
    (exS1DG.heap.canvas 0).has (exOp2.HashToString toyEnv) = false ∧
    (exS1DGH.heap.ink 0).get "miner-0001" = some 0 ∧
    (exS1DGH.heap.canvas 0).has (exOp2.HashToString toyEnv) = true := by
  decide

set_option maxRecDepth 1000000 in
/-- Witness for C4 (as amended): block D applied to the example state. -/
theorem C4_ink_moves_at_inclusion_witness :
    ((((exS1D.heap.ink 0).get "miner-0001").getD 0 : Nat) : Int)
      ≡ (((exS1.heap.ink 0).get "miner-0001").getD 0 : Nat)
        + (if "miner-0001" = exD.GetMinerPubKey then (blockReward exNS exD : Int) else 0)
        + inkDelta toyEnv exD.GetOps "miner-0001" [ZMOD 2 ^ 32] :=
  (C4_ink_moves_at_inclusion toyEnv exNS exS1 exS1D exD 0
    { Block := exA, Children := [], Height := 1, InkTable := 0, Canvas := 0, QueueShapes := 0,
      OpLog := 0 } (by decide) (by decide)).1 "miner-0001"

/-! ## The `uint8` countdown of pending entries -/

set_option maxRecDepth 1000000 in
/-- C5 (code defect): `ValidNum--` is a `uint8` decrement made before the
test `ValidNum > 0`.  The op `exOp0` has `ValidNum = 0`; block E, which
includes it, leaves its pending entry at 0; the next block F takes the entry
to 255, above the original 0, one block after the origin block, and the shape
is not committed to the canvas.  Every block of the run passes
`ValidateBlock` when it is applied. -/
theorem C5_pending_countdown_wraps_at_zero :
    ValidateBlock toyEnv exNS exS0 exA = some (exS0, true, none) ∧
    AddBlockToBlockchain toyEnv exNS exS0 exA 0 = some exS1 ∧
    ValidateBlock toyEnv exNS exS1 exE = some (exS1, true, none) ∧
    AddBlockToBlockchain toyEnv exNS exS1 exE 0 = some exS1E ∧
    ValidateBlock toyEnv exNS exS1E exF = some (exS1E, true, none) ∧
    AddBlockToBlockchain toyEnv exNS exS1E exF 0 = some exS1EF ∧
    exOp0 ∈ exE.GetOps ∧ exOp0.ValidNum = 0 ∧
    exS1E.longestLeafHash = exE.Hash toyEnv ∧
    (snapshotOf exS1E (exE.Hash toyEnv)).map
        (fun p => (p.queue.get (exOp0.HashToString toyEnv)).map
          fun q => (q.ValidNum, q.BlockHash))
      = some (some (0, exE.Hash toyEnv)) ∧
    exS1EF.longestLeafHash = exF.Hash toyEnv ∧
    exF.GetPrevHash = exE.Hash toyEnv ∧
    (snapshotOf exS1EF (exF.Hash toyEnv)).map
        (fun p => (p.queue.get (exOp0.HashToString toyEnv)).map
          fun q => (q.ValidNum, q.BlockHash))
      = some (some (255, exE.Hash toyEnv)) ∧
    (snapshotOf exS1EF (exF.Hash toyEnv)).map
        (fun p => p.canvas.has (exOp0.HashToString toyEnv)) = some false := by
  decide

/-! ## Heights and the longest leaf -/

theorem InitBlockchain_genesis_get (ns : MinerNetSettings) (nb : List String) (h : String)
    (n : BlockChainNode) (hget : (InitBlockchain_genesis ns nb).treeTable.get h = some n) :
    h = ns.GenesisBlockHash ∧ n.Height = 0 := by
  simp only [InitBlockchain_genesis, GoMap.set, GoMap.get] at hget
  split at hget
  · rename_i hh
    simp only [Option.some.injEq] at hget
    subst hget
    exact ⟨hh.symm, rfl⟩
  · simp at hget

/-- One admissible call: the facts about heights that the proof of the
invariant needs, from the shape of the new `treeTable`. -/
theorem addBlock_heights (env : Env) (ns : MinerNetSettings) (s s' : State) (b : Block)
    (rnd : Nat) (hinv : HeightInv ns s) (hadm : Admissible env ns s b)
    (hadd : AddBlockToBlockchain env ns s b rnd = some s') :
    ∃ node bct,
      s.treeTable.get b.GetPrevHash = some node ∧
      s'.treeTable.get (b.Hash env) = some bct ∧ bct.Block = b ∧
      bct.Height = node.Height + 1 ∧
      b.GetPrevHash ≠ b.Hash env ∧
      (∀ k p, s.treeTable.get k = some p →
        ∃ p', s'.treeTable.get k = some p' ∧ p'.Height = p.Height ∧
          (k ≠ b.Hash env → p'.Block = p.Block)) ∧
      (∀ k p', s'.treeTable.get k = some p' → k ≠ b.Hash env →
        ∃ p, s.treeTable.get k = some p ∧ p'.Height = p.Height ∧ p'.Block = p.Block) ∧
      (∃ tipNode, s'.treeTable.get s.longestLeafHash = some tipNode ∧
        s'.longestLeafHash =
          (if node.Height + 1 > tipNode.Height then b.Hash env
           else if node.Height + 1 = tipNode.Height then
             (if rnd % 2 = 0 then b.Hash env else s.longestLeafHash)
           else s.longestLeafHash)) := by
  obtain ⟨_, hbody⟩ := AddBlockToBlockchain_inv env ns s s' b rnd hadd
  obtain ⟨node, committed, tipNode, hnode, _, _, htree, htip, hleaf, _, _, _, _, _⟩ :=
    addBlockBody_inv env ns s s' b rnd hbody
  have hne : b.GetPrevHash ≠ b.Hash env := by
    intro heq
    rcases hadm.2 with hnone | ⟨hg, hmap⟩
    · rw [← heq, hnode] at hnone
      simp at hnone
    · obtain ⟨n, hn, hnb⟩ := Option.map_eq_some'.mp hmap
      obtain ⟨p, hp, hh⟩ := hinv _ n hn hg
      rw [hnb, heq, hn] at hp
      cases hp
      omega
  have hold : ∀ n, s.treeTable.get (b.Hash env) = some n → n.Height = node.Height + 1 := by
    intro n hn
    rcases hadm.2 with hnone | ⟨hg, hmap⟩
    · rw [hn] at hnone
      simp at hnone
    · obtain ⟨n', hn', hnb⟩ := Option.map_eq_some'.mp hmap
      rw [hn] at hn'
      cases hn'
      obtain ⟨p, hp, hh⟩ := hinv _ n hn hg
      rw [hnb, hnode] at hp
      cases hp
      exact hh
  refine ⟨node, _, hnode, by rw [htree, GoMap.get_set_self], rfl, rfl, hne, ?_, ?_,
    ⟨tipNode, htip, hleaf⟩⟩
  · intro k p hk
    by_cases hkb : k = b.Hash env
    · subst hkb
      refine ⟨_, by rw [htree, GoMap.get_set_self], ?_, fun h => absurd rfl h⟩
      exact (hold p hk).symm
    · by_cases hkp : k = b.GetPrevHash
      · subst hkp
        rw [hnode] at hk
        cases hk
        exact ⟨{ node with Children := node.Children ++ [b.Hash env] },
          by rw [htree, GoMap.get_set_ne _ _ hkb, GoMap.get_set_self], rfl, fun _ => rfl⟩
      · exact ⟨p, by rw [htree, GoMap.get_set_ne _ _ hkb, GoMap.get_set_ne _ _ hkp]; exact hk,
          rfl, fun _ => rfl⟩
  · intro k p' hk hkb
    rw [htree, GoMap.get_set_ne _ _ hkb] at hk
    by_cases hkp : k = b.GetPrevHash
    · subst hkp
      rw [GoMap.get_set_self] at hk
      cases hk
      exact ⟨node, hnode, rfl, rfl⟩
    · rw [GoMap.get_set_ne _ _ hkp] at hk
      exact ⟨p', hk, rfl, rfl⟩

/-- One admissible call keeps "height = parent's height + 1". -/
theorem addBlock_HeightInv (env : Env) (ns : MinerNetSettings) (s s' : State) (b : Block)
    (rnd : Nat) (hinv : HeightInv ns s) (hadm : Admissible env ns s b)
    (hadd : AddBlockToBlockchain env ns s b rnd = some s') : HeightInv ns s' := by
  obtain ⟨node, bct, hnode, hbct, hblk, hh, hne, hfwd, hbwd, _⟩ :=
    addBlock_heights env ns s s' b rnd hinv hadm hadd
  intro h n' hn' hg
  by_cases hhb : h = b.Hash env
  · subst hhb
    rw [hbct] at hn'
    cases hn'
    obtain ⟨p', hp', hph, _⟩ := hfwd _ node hnode
    exact ⟨p', by rw [hblk]; exact hp', by rw [hh, hph]⟩
  · obtain ⟨n, hn, hnh, hnb⟩ := hbwd h n' hn' hhb
    obtain ⟨p, hp, hph⟩ := hinv h n hn hg
    obtain ⟨p', hp', hp'h, _⟩ := hfwd _ p hp
    exact ⟨p', by rw [hnb]; exact hp', by rw [hnh, hph, hp'h]⟩

/-- One admissible call keeps `longestLeafHash` on a node of maximal height,
whatever the coin flip. -/
theorem addBlock_TipMax (env : Env) (ns : MinerNetSettings) (s s' : State) (b : Block)
    (rnd : Nat) (hinv : HeightInv ns s) (htip : TipMax s) (hadm : Admissible env ns s b)
    (hadd : AddBlockToBlockchain env ns s b rnd = some s') : TipMax s' := by
  obtain ⟨node, bct, hnode, hbct, hblk, hh, hne, hfwd, hbwd, tipNode, htn, hleaf⟩ :=
    addBlock_heights env ns s s' b rnd hinv hadm hadd
  obtain ⟨t, ht, hmax⟩ := htip
  obtain ⟨t', ht', ht'h, _⟩ := hfwd _ t ht
  rw [htn] at ht'
  cases ht'
  have hnodele : node.Height ≤ t.Height := hmax _ node hnode
  have hall : ∀ k p', s'.treeTable.get k = some p' →
      p'.Height ≤ t.Height ∨ p'.Height = node.Height + 1 := by
    intro k p' hk
    by_cases hkb : k = b.Hash env
    · subst hkb
      rw [hbct] at hk
      cases hk
      exact Or.inr hh
    · obtain ⟨p, hp, hph, _⟩ := hbwd k p' hk hkb
      exact Or.inl (by rw [hph]; exact hmax k p hp)
  by_cases h1 : node.Height + 1 > tipNode.Height
  · rw [if_pos h1] at hleaf
    refine ⟨bct, by rw [hleaf]; exact hbct, fun k p' hk => ?_⟩
    rcases hall k p' hk with h | h <;> omega
  · rw [if_neg h1] at hleaf
    by_cases h2 : node.Height + 1 = tipNode.Height
    · rw [if_pos h2] at hleaf
      by_cases h3 : rnd % 2 = 0
      · rw [if_pos h3] at hleaf
        refine ⟨bct, by rw [hleaf]; exact hbct, fun k p' hk => ?_⟩
        rcases hall k p' hk with h | h <;> omega
      · rw [if_neg h3] at hleaf
        refine ⟨tipNode, by rw [hleaf]; exact htn, fun k p' hk => ?_⟩
        rcases hall k p' hk with h | h <;> omega
    · rw [if_neg h2] at hleaf
      refine ⟨tipNode, by rw [hleaf]; exact htn, fun k p' hk => ?_⟩
      rcases hall k p' hk with h | h <;> omega

/-- Both invariants hold in every reachable state. -/
theorem Reachable_inv (env : Env) (ns : MinerNetSettings) (s : State)
    (hr : Reachable env ns s) : HeightInv ns s ∧ TipMax s := by
  induction hr with
  | init nb =>
    constructor
    · intro h n hn hg
      exact absurd (InitBlockchain_genesis_get ns nb h n hn).1 hg
    · refine ⟨_, GoMap.get_set_self _ _ _, fun h n hn => ?_⟩
      have := (InitBlockchain_genesis_get ns nb h n hn).2
      omega
  | add b rnd _ hadm hadd ih =>
    exact ⟨addBlock_HeightInv env ns _ _ b rnd ih.1 hadm hadd,
      addBlock_TipMax env ns _ _ b rnd ih.1 ih.2 hadm hadd⟩

/-- C6: after any sequence of `AddBlockToBlockchain` calls on blocks whose
parent is known, from the genesis-only tree of `InitBlockchain`, every
non-genesis node has Height = its parent's Height + 1, and `longestLeafHash`
names a node whose Height is the maximum over `treeTable`, whichever way the
coin flips fell; and a further arrival that is strictly shallower than the
longest leaf leaves `longestLeafHash` unchanged. -/
theorem C6_heights_and_longest_leaf (env : Env) (ns : MinerNetSettings) (s : State)
    (hr : Reachable env ns s) :
    (∀ h n, s.treeTable.get h = some n → h ≠ ns.GenesisBlockHash →
      ∃ p, s.treeTable.get n.Block.GetPrevHash = some p ∧ n.Height = p.Height + 1) ∧
    (∃ t, s.treeTable.get s.longestLeafHash = some t ∧
      ∀ h n, s.treeTable.get h = some n → n.Height ≤ t.Height) ∧
    (∀ (b : Block) (rnd : Nat) (s' : State) (p t : BlockChainNode),
      Admissible env ns s b → AddBlockToBlockchain env ns s b rnd = some s' →
      s.treeTable.get b.GetPrevHash = some p → s.treeTable.get s.longestLeafHash = some t →
      p.Height + 1 < t.Height → s'.longestLeafHash = s.longestLeafHash) := by
  obtain ⟨hinv, htip⟩ := Reachable_inv env ns s hr
  refine ⟨hinv, htip, ?_⟩
  intro b rnd s' p t hadm hadd hp ht hlt
  obtain ⟨node, bct, hnode, hbct, hblk, hh, hne, hfwd, hbwd, tipNode, htn, hleaf⟩ :=
    addBlock_heights env ns s s' b rnd hinv hadm hadd
  rw [hp] at hnode
  cases hnode
  obtain ⟨t', ht', ht'h, _⟩ := hfwd _ t ht
  rw [htn] at ht'
  cases ht'
  rw [hleaf, if_neg (by omega), if_neg (by omega)]

set_option maxRecDepth 1000000 in
/-- Witness for C6: the tree genesis → A → D → G is reachable, its longest
leaf is of maximal height, and the arrival of C under genesis, at height 1,
does not move `longestLeafHash`. -/
theorem C6_heights_and_longest_leaf_witness :
    Reachable toyEnv exNS exS1DG ∧
    (∃ t, exS1DG.treeTable.get exS1DG.longestLeafHash = some t ∧
      ∀ h n, exS1DG.treeTable.get h = some n → n.Height ≤ t.Height) ∧
    exS1DGC.longestLeafHash = exS1DG.longestLeafHash :=
  have hr : Reachable toyEnv exNS exS1DG :=
    Reachable.add exG 0
      (Reachable.add exD 0
        (Reachable.add exA 0 (Reachable.init ["peer-0001"])
          ⟨by decide, Or.inl (by decide)⟩
          (show AddBlockToBlockchain toyEnv exNS exS0 exA 0 = some exS1 by decide))
        ⟨by decide, Or.inl (by decide)⟩
        (show AddBlockToBlockchain toyEnv exNS exS1 exD 0 = some exS1D by decide))
      ⟨by decide, Or.inl (by decide)⟩
      (show AddBlockToBlockchain toyEnv exNS exS1D exG 0 = some exS1DG by decide)
  ⟨hr, (C6_heights_and_longest_leaf toyEnv exNS exS1DG hr).2.1,
    (C6_heights_and_longest_leaf toyEnv exNS exS1DG hr).2.2 exC 0 exS1DGC
      { Block := Block.NoOpBlock "" "" 0, Children := [exA.Hash toyEnv], Height := 0,
        InkTable := 0, Canvas := 0, QueueShapes := 0, OpLog := 0 }
      { Block := exG, Children := [], Height := 3, InkTable := 0, Canvas := 0, QueueShapes := 0,
        OpLog := 0 }
      ⟨by decide, Or.inl (by decide)⟩ (by decide) (by decide) (by decide) (by decide)⟩

/-! ## One set of maps for the whole tree, and when a block application succeeds -/

namespace GoMap

variable {V : Type}

theorem get_ne_none_iff_mem_keys (m : GoMap V) (k : String) :
    m.get k ≠ none ↔ k ∈ m.keys := by
  induction m with
  | nil => simp [get, keys]
  | cons e m ih =>
    obtain ⟨k', v'⟩ := e
    by_cases h : k' = k
    · simp [get, keys, h]
    · have ih' : GoMap.get m k ≠ none ↔ k ∈ List.map Prod.fst m := ih
      simp only [get, h, if_false, keys, List.map_cons, List.mem_cons]
      rw [ih']
      constructor
      · intro hm; exact Or.inr hm
      · rintro (hm | hm)
        · exact absurd hm.symm h
        · exact hm

theorem keys_set (m : GoMap V) (k : String) (v : V) :
    (m.set k v).keys = if k ∈ m.keys then m.keys else m.keys ++ [k] := by
  induction m with
  | nil => simp [set, keys]
  | cons e m ih =>
    obtain ⟨k', v'⟩ := e
    by_cases h : k' = k
    · subst h
      simp [set, keys]
    · have ih' : List.map Prod.fst (GoMap.set m k v)
          = if k ∈ List.map Prod.fst m then List.map Prod.fst m
            else List.map Prod.fst m ++ [k] := ih
      have hk : ¬ k = k' := fun e => h e.symm
      simp only [set, h, if_false, keys, List.map_cons, List.mem_cons, hk, false_or]
      rw [ih']
      split <;> simp

theorem keys_set_nodup (m : GoMap V) (k : String) (v : V) (hn : m.keys.Nodup) :
    (m.set k v).keys.Nodup := by
  rw [keys_set]
  split
  · exact hn
  · rename_i hk
    exact List.Nodup.append hn (List.nodup_singleton k) (by simpa using hk)

theorem keys_del_sublist (m : GoMap V) (k : String) : List.Sublist (m.del k).keys m.keys := by
  induction m with
  | nil => simp [del, keys]
  | cons e m ih =>
    obtain ⟨k', v'⟩ := e
    have ih' : List.Sublist (List.map Prod.fst (GoMap.del m k)) (List.map Prod.fst m) := ih
    by_cases h : k' = k
    · simp only [del, h, if_true, keys, List.map_cons]
      exact List.Sublist.cons _ ih'
    · simp only [del, h, if_false, keys, List.map_cons]
      exact List.Sublist.cons₂ _ ih'

theorem keys_del_nodup (m : GoMap V) (k : String) (hn : m.keys.Nodup) :
    (m.del k).keys.Nodup :=
  List.Nodup.sublist (keys_del_sublist m k) hn

end GoMap

/-- What one step of the commit loop does to the queue, when the key is
there and, for a delete that commits, the op log of the tip has the key. -/
theorem commitEntry_some (env : Env) (opLog : GoMap Op) (acc : GoMap QueueShape × Shapes)
    (key : String) (hkey : acc.1.get key ≠ none) (hlog : opLog.get key ≠ none) :
    ∃ acc', commitEntry env (some opLog) acc key = some acc' ∧
      (acc.1.keys.Nodup → acc'.1.keys.Nodup) ∧
      (∀ k, k ≠ key → acc'.1.get k = acc.1.get k) ∧
      (∀ k, acc'.1.get k ≠ none → acc.1.get k ≠ none) := by
  cases hq : acc.1.get key with
  | none => exact absurd hq hkey
  | some q =>
    cases hl : opLog.get key with
    | none => exact absurd hl hlog
    | some deleteOp =>
      have hset : ∀ (v : QueueShape) (k : String),
          (acc.1.set key v).get k ≠ none → acc.1.get k ≠ none := by
        intro v k hk
        by_cases hkk : k = key
        · subst hkk; exact hkey
        · rwa [GoMap.get_set_ne _ _ hkk] at hk
      have hdel : ∀ (v : QueueShape) (k : String),
          ((acc.1.set key v).del key).get k ≠ none → acc.1.get k ≠ none := by
        intro v k hk
        by_cases hkk : k = key
        · subst hkk; exact hkey
        · rw [GoMap.get_del_ne _ hkk] at hk
          exact hset v k hk
      unfold commitEntry
      simp only [hq, hl]
      split
      · exact ⟨_, rfl, GoMap.keys_set_nodup _ _ _,
          fun k hk => GoMap.get_set_ne _ _ hk, hset _⟩
      · split
        · exact ⟨_, rfl, fun hn => GoMap.keys_del_nodup _ _ (GoMap.keys_set_nodup _ _ _ hn),
            fun k hk => by rw [GoMap.get_del_ne _ hk, GoMap.get_set_ne _ _ hk], hdel _⟩
        · exact ⟨_, rfl, fun hn => GoMap.keys_del_nodup _ _ (GoMap.keys_set_nodup _ _ _ hn),
            fun k hk => by rw [GoMap.get_del_ne _ hk, GoMap.get_set_ne _ _ hk], hdel _⟩

/-- The commit loop over distinct keys that are all in the queue and in the op
log of the tip does not panic; it keeps the keys of the queue distinct and
adds no key to it. -/
theorem commitLoop_some (env : Env) (opLog : GoMap Op) (keys : List String) :
    ∀ acc : GoMap QueueShape × Shapes, keys.Nodup →
      (∀ k ∈ keys, acc.1.get k ≠ none) → (∀ k ∈ keys, opLog.get k ≠ none) →
      ∃ acc', commitLoop env (some opLog) keys acc = some acc' ∧
        (acc.1.keys.Nodup → acc'.1.keys.Nodup) ∧
        (∀ k, acc'.1.get k ≠ none → acc.1.get k ≠ none) := by
  induction keys with
  | nil =>
    intro acc _ _ _
    exact ⟨acc, rfl, id, fun _ h => h⟩
  | cons key keys ih =>
    intro acc hnd hin hlog
    obtain ⟨acc1, h1, hn1, hother, hsub1⟩ := commitEntry_some env opLog acc key
      (hin key (List.mem_cons_self _ _)) (hlog key (List.mem_cons_self _ _))
    have hnd' := List.nodup_cons.mp hnd
    obtain ⟨acc2, h2, hn2, hsub2⟩ := ih acc1 hnd'.2
      (fun k hk => by
        rw [hother k (fun e => hnd'.1 (e ▸ hk))]
        exact hin k (List.mem_cons_of_mem _ hk))
      (fun k hk => hlog k (List.mem_cons_of_mem _ hk))
    refine ⟨acc2, ?_, fun hn => hn2 (hn1 hn), fun k hk => hsub1 k (hsub2 k hk)⟩
    simp only [commitLoop, h1, h2]

theorem applyOp_queue_wf (env : Env) (bh : String) (st : OpLoopState) (op : Op)
    (h : st.queueShapes.keys.Nodup ∧
      ∀ k, st.queueShapes.get k ≠ none → st.opLog.get k ≠ none) :
    (applyOp env bh st op).queueShapes.keys.Nodup ∧
      ∀ k, (applyOp env bh st op).queueShapes.get k ≠ none →
        (applyOp env bh st op).opLog.get k ≠ none := by
  refine ⟨GoMap.keys_set_nodup _ _ _ h.1, fun k hk => ?_⟩
  simp only [applyOp] at hk ⊢
  by_cases hkk : k = op.HashToString env
  · subst hkk
    rw [GoMap.get_set_self]
    simp
  · rw [GoMap.get_set_ne _ _ hkk] at hk ⊢
    exact h.2 k hk

theorem foldl_applyOp_queue_wf (env : Env) (bh : String) (ops : List Op) :
    ∀ st : OpLoopState,
      (st.queueShapes.keys.Nodup ∧ ∀ k, st.queueShapes.get k ≠ none → st.opLog.get k ≠ none) →
      ((ops.foldl (applyOp env bh) st).queueShapes.keys.Nodup ∧
        ∀ k, (ops.foldl (applyOp env bh) st).queueShapes.get k ≠ none →
          (ops.foldl (applyOp env bh) st).opLog.get k ≠ none) := by
  induction ops with
  | nil => intro st h; exact h
  | cons op ops ih =>
    intro st h
    rw [List.foldl_cons]
    exact ih _ (applyOp_queue_wf env bh st op h)

theorem blockSwitch_queue_wf (env : Env) (ns : MinerNetSettings) (block : Block) (bh : String)
    (st : OpLoopState)
    (h : st.queueShapes.keys.Nodup ∧
      ∀ k, st.queueShapes.get k ≠ none → st.opLog.get k ≠ none) :
    (blockSwitch env ns block bh st).queueShapes.keys.Nodup ∧
      ∀ k, (blockSwitch env ns block bh st).queueShapes.get k ≠ none →
        (blockSwitch env ns block bh st).opLog.get k ≠ none := by
  cases block with
  | OpBlock p ops m n =>
    simp only [blockSwitch]
    exact foldl_applyOp_queue_wf env bh ops _ h
  | NoOpBlock p m n => exact h

theorem list_length_one_getD {α : Type} (l : List α) (d : α) (h : l.length = 1) :
    l = [l.getD 0 d] := by
  match l, h with
  | [x], _ => rfl

/-- From a state in which all nodes share the maps at reference 0, the queue
is well formed and the tip exists, the commit loop of a block application on a
known parent does not panic. -/
theorem commitLoop_of_wf (env : Env) (s : State) (prev bh : String) (node : BlockChainNode)
    (hsh : SharedMaps s) (hq : QueueWF s) (htip : TipMax s)
    (hnode : s.treeTable.get prev = some node) :
    ∃ committed,
      commitLoop env
        (((s.treeTable.set prev { node with Children := node.Children ++ [bh] }).get
            s.longestLeafHash).map fun n => s.heap.opLog n.OpLog)
        (env.rangeOrder (s.heap.queue node.QueueShapes).keys)
        (s.heap.queue node.QueueShapes, s.heap.canvas node.Canvas) = some committed ∧
      committed.1.keys.Nodup ∧
      (∀ k, committed.1.get k ≠ none → (s.heap.opLog 0).get k ≠ none) := by
  obtain ⟨t, ht, _⟩ := htip
  have hrefs := hsh.1 prev node hnode
  have htl : ((s.treeTable.set prev { node with Children := node.Children ++ [bh] }).get
      s.longestLeafHash).map (fun n => s.heap.opLog n.OpLog) = some (s.heap.opLog 0) := by
    by_cases hp : s.longestLeafHash = prev
    · rw [hp, GoMap.get_set_self]
      simp [hrefs.2.2.2]
    · rw [GoMap.get_set_ne _ _ hp, ht]
      simp [(hsh.1 _ t ht).2.2.2]
  rw [htl, hrefs.2.2.1]
  have hperm := env.rangeOrder_perm (s.heap.queue 0).keys
  obtain ⟨acc', h1, h2, h3⟩ := commitLoop_some env (s.heap.opLog 0)
    (env.rangeOrder (s.heap.queue 0).keys) (s.heap.queue 0, s.heap.canvas node.Canvas)
    (hperm.nodup_iff.mpr hq.1)
    (fun k hk => (GoMap.get_ne_none_iff_mem_keys _ k).mpr (hperm.mem_iff.mp hk))
    (fun k hk => hq.2 k ((GoMap.get_ne_none_iff_mem_keys _ k).mpr (hperm.mem_iff.mp hk)))
  exact ⟨acc', h1, h2 hq.1, fun k hk => hq.2 k (h3 k hk)⟩

/-- A block application keeps all nodes on the maps at reference 0 and keeps
the queue well formed. -/
theorem addBlock_shared (env : Env) (ns : MinerNetSettings) (s s' : State) (b : Block)
    (rnd : Nat) (hsh : SharedMaps s) (hq : QueueWF s) (htip : TipMax s)
    (hadd : AddBlockToBlockchain env ns s b rnd = some s') :
    SharedMaps s' ∧ QueueWF s' := by
  obtain ⟨_, hbody⟩ := AddBlockToBlockchain_inv env ns s s' b rnd hadd
  obtain ⟨node, committed, tipNode, hnode, _, _, htree, _, _, hink, hqueue, hcanvas, hlog,
    hcommit⟩ := addBlockBody_inv env ns s s' b rnd hbody
  have hrefs := hsh.1 _ node hnode
  obtain ⟨committed', hc1, hc2, hc3⟩ :=
    commitLoop_of_wf env s b.GetPrevHash (b.Hash env) node hsh hq htip hnode
  rw [hcommit] at hc1
  cases hc1
  constructor
  · refine ⟨fun h n hn => ?_, ?_, ?_, ?_, ?_⟩
    · rw [htree] at hn
      by_cases hb : h = b.Hash env
      · rw [hb, GoMap.get_set_self] at hn
        cases hn
        exact hrefs
      · rw [GoMap.get_set_ne _ _ hb] at hn
        by_cases hp : h = b.GetPrevHash
        · rw [hp, GoMap.get_set_self] at hn
          cases hn
          exact hrefs
        · rw [GoMap.get_set_ne _ _ hp] at hn
          exact hsh.1 h n hn
    · rw [hink, List.length_set]; exact hsh.2.1
    · rw [hcanvas, List.length_set]; exact hsh.2.2.1
    · rw [hqueue, List.length_set]; exact hsh.2.2.2.1
    · rw [hlog, List.length_set]; exact hsh.2.2.2.2
  · have hwf := blockSwitch_queue_wf env ns b (b.Hash env)
      { queueShapes := committed.1, opLog := s.heap.opLog node.OpLog, opQueue := s.opQueue,
        inkTable := s.heap.ink node.InkTable }
      ⟨hc2, fun k hk => by rw [hrefs.2.2.2]; exact hc3 k hk⟩
    have e1 : s'.heap.queue 0 = (blockSwitch env ns b (b.Hash env)
        { queueShapes := committed.1, opLog := s.heap.opLog node.OpLog, opQueue := s.opQueue,
          inkTable := s.heap.ink node.InkTable }).queueShapes := by
      unfold Heap.queue
      rw [hqueue, hrefs.2.2.1]
      exact list_getD_set_self _ _ _ _ (by rw [hsh.2.2.2.1]; decide)
    have e2 : s'.heap.opLog 0 = (blockSwitch env ns b (b.Hash env)
        { queueShapes := committed.1, opLog := s.heap.opLog node.OpLog, opQueue := s.opQueue,
          inkTable := s.heap.ink node.InkTable }).opLog := by
      unfold Heap.opLog
      rw [hlog, hrefs.2.2.2]
      exact list_getD_set_self _ _ _ _ (by rw [hsh.2.2.2.2]; decide)
    unfold QueueWF
    rw [e1, e2]
    exact hwf

/-- In every reachable state all nodes share one ink table, one canvas, one
pending queue and one op log, and the queue is well formed. -/
theorem Reachable_shared (env : Env) (ns : MinerNetSettings) (s : State)
    (hr : Reachable env ns s) : SharedMaps s ∧ QueueWF s := by
  induction hr with
  | init nb =>
    refine ⟨⟨fun h n hn => ?_, rfl, rfl, rfl, rfl⟩, ?_⟩
    · simp only [InitBlockchain_genesis, GoMap.set, GoMap.get] at hn
      split at hn
      · simp only [Option.some.injEq] at hn
        subst hn
        exact ⟨rfl, rfl, rfl, rfl⟩
      · simp at hn
    · constructor
      · simp [InitBlockchain_genesis, Heap.queue, GoMap.keys]
      · intro k hk
        simp [InitBlockchain_genesis, Heap.queue, GoMap.get] at hk
  | add b rnd hr' _ hadd ih =>
    exact addBlock_shared env ns _ _ b rnd ih.1 ih.2 (Reachable_inv env ns _ hr').2 hadd

/-- From a reachable state, `AddBlockToBlockchain` on a block whose parent is
known returns a state as soon as the miner key of the block has 10 bytes or
more (`minerPubKey[len(minerPubKey)-10:]`) and the call of `ValidateBlock` does
not panic. -/
theorem AddBlockToBlockchain_returns (env : Env) (ns : MinerNetSettings) (s : State)
    (b : Block) (rnd : Nat) (hr : Reachable env ns s)
    (hparent : (s.treeTable.get b.GetPrevHash).isSome = true)
    (hkey : 10 ≤ (stringBytes b.GetMinerPubKey).length)
    (hval : ValidateBlock env ns s b ≠ none) :
    ∃ s', AddBlockToBlockchain env ns s b rnd = some s' := by
  obtain ⟨hsh, hq⟩ := Reachable_shared env ns s hr
  have htip := (Reachable_inv env ns s hr).2
  obtain ⟨node, hnode⟩ := Option.isSome_iff_exists.mp hparent
  have hrefs := hsh.1 _ node hnode
  cases hv : ValidateBlock env ns s b with
  | none => exact absurd hv hval
  | some r =>
    obtain ⟨s1, v, e⟩ := r
    have hs1 : s1 = s := by
      rcases ValidateBlock_state env ns s s1 b v e hv with h | ⟨h, _⟩
      · exact h
      · rw [hnode] at h
        simp at h
    subst hs1
    obtain ⟨committed, hc, _, _⟩ :=
      commitLoop_of_wf env s1 b.GetPrevHash (b.Hash env) node hsh hq htip hnode
    obtain ⟨t, ht, _⟩ := htip
    have htip' : ∃ t', ((s1.treeTable.set b.GetPrevHash
        { node with Children := node.Children ++ [b.Hash env] }).set (b.Hash env)
        { Block := b, Children := [], Height := node.Height + 1,
          InkTable := node.InkTable, Canvas := node.Canvas,
          QueueShapes := node.QueueShapes, OpLog := node.OpLog }).get s1.longestLeafHash
        = some t' := by
      by_cases h1 : s1.longestLeafHash = b.Hash env
      · rw [h1, GoMap.get_set_self]; exact ⟨_, rfl⟩
      · rw [GoMap.get_set_ne _ _ h1]
        by_cases h2 : s1.longestLeafHash = b.GetPrevHash
        · rw [h2, GoMap.get_set_self]; exact ⟨_, rfl⟩
        · rw [GoMap.get_set_ne _ _ h2]; exact ⟨t, ht⟩
    obtain ⟨t', ht'⟩ := htip'
    have hr1 : node.InkTable < s1.heap.inkTables.length := by rw [hrefs.1, hsh.2.1]; decide
    have hr2 : node.Canvas < s1.heap.canvases.length := by rw [hrefs.2.1, hsh.2.2.1]; decide
    have hr3 : node.QueueShapes < s1.heap.queues.length := by
      rw [hrefs.2.2.1, hsh.2.2.2.1]; decide
    have hr4 : node.OpLog < s1.heap.opLogs.length := by rw [hrefs.2.2.2, hsh.2.2.2.2]; decide
    unfold AddBlockToBlockchain
    rw [hv]
    simp only [addBlockBody, hnode, hr1, hr2, hr3, hr4, and_self, not_true_eq_false, if_false,
      hc, ht']
    rw [if_neg (by omega)]
    exact ⟨_, rfl⟩

/-- In every reachable state any two nodes have the same snapshot: whatever a
block application writes for the new node is what every older node reads. -/
theorem Reachable_snapshots_equal (env : Env) (ns : MinerNetSettings) (s : State)
    (hr : Reachable env ns s) (h1 h2 : String)
    (hn1 : (s.treeTable.get h1).isSome = true) (hn2 : (s.treeTable.get h2).isSome = true) :
    snapshotOf s h1 = snapshotOf s h2 := by
  obtain ⟨hsh, _⟩ := Reachable_shared env ns s hr
  obtain ⟨n1, e1⟩ := Option.isSome_iff_exists.mp hn1
  obtain ⟨n2, e2⟩ := Option.isSome_iff_exists.mp hn2
  obtain ⟨a1, a2, a3, a4⟩ := hsh.1 h1 n1 e1
  obtain ⟨b1, b2, b3, b4⟩ := hsh.1 h2 n2 e2
  simp [snapshotOf, e1, e2, a1, a2, a3, a4, b1, b2, b3, b4]

/-! ## The replay filter -/

set_option maxRecDepth 1000000 in
/-- Counterexample to C7 as stated: the hash of `exOp2` is in the mining queue
of `exS1q`, and `ValidateOp` accepts it; so does `ValidateBlock` for block D,
which carries it. -/
theorem C7_counterexample :
    exS1q.opQueue.has (exOp2.HashToString toyEnv) = true ∧
    ValidateOp toyEnv exNS exS1q exOp2 = some (true, none) ∧
    exOp2 ∈ exD.GetOps ∧
    ValidateBlock toyEnv exNS exS1q exD = some (exS1q, true, none) := by
  decide

theorem ValidateOp_opQueue (env : Env) (ns : MinerNetSettings) (s : State) (q : GoMap Op)
    (op : Op) : ValidateOp env ns { s with opQueue := q } op = ValidateOp env ns s op := rfl

theorem validateOps_opQueue (env : Env) (ns : MinerNetSettings) (s : State) (q : GoMap Op)
    (ops : List Op) :
    validateOps env ns { s with opQueue := q } ops = validateOps env ns s ops := by
  induction ops with
  | nil => rfl
  | cons op ops ih => simp only [validateOps, ValidateOp_opQueue, ih]

/-- C7 (as amended): the replay filter is in `DisseminateOp`.  An op whose
hash is in the tip's op log or in the mining queue is dropped by
`DisseminateOp` without an error: it is not validated, not queued and not
flooded, and the state is unchanged.  `ValidateOp` and `ValidateBlock` do not
read the mining queue: their verdict and error are the same whatever the
queue holds. -/
theorem C7_replay_filter_is_in_DisseminateOp (env : Env) (ns : MinerNetSettings) (s : State)
    (op : Op) :
    (∀ tip : BlockChainNode, s.tip = some tip →
      ((s.heap.opLog tip.OpLog).has (op.HashToString env) = true ∨
        s.opQueue.has (op.HashToString env) = true) →
      DisseminateOp env ns s op = some (s, none)) ∧
    (∀ q : GoMap Op, ValidateOp env ns { s with opQueue := q } op = ValidateOp env ns s op) ∧
    (∀ (q : GoMap Op) (block : Block),
      (ValidateBlock env ns { s with opQueue := q } block).map (fun r => r.2)
        = (ValidateBlock env ns s block).map (fun r => r.2)) := by
  refine ⟨fun tip htip hknown => ?_, fun q => ValidateOp_opQueue env ns s q op, fun q block => ?_⟩
  · unfold DisseminateOp
    simp only [htip]
    rcases hknown with h | h
    · simp [h]
    · simp [h]
  · unfold ValidateBlock
    cases hz : ZeroPrefix env ns block with
    | none => rfl
    | some v =>
      simp only []
      by_cases hv : v = true
      · simp only [hv, Bool.not_true, Bool.false_eq_true, if_false]
        by_cases hp : s.treeTable.has block.GetPrevHash = true
        · simp only [hp, Bool.not_true, Bool.false_eq_true, if_false, validateOps_opQueue]
          cases validateOps env ns s block.GetOps <;> rfl
        · simp [hp]
      · simp [hv]

set_option maxRecDepth 1000000 in
/-- Witness for C7 (as amended): `exOp2` is in the mining queue of `exS1q`. -/
theorem C7_replay_filter_is_in_DisseminateOp_witness :
    DisseminateOp toyEnv exNS exS1q exOp2 = some (exS1q, none) :=
  (C7_replay_filter_is_in_DisseminateOp toyEnv exNS exS1q exOp2).1
    { Block := exA, Children := [], Height := 1, InkTable := 0, Canvas := 0, QueueShapes := 0,
      OpLog := 0 } (by decide) (Or.inr (by decide))

/-! ## Re-flooding -/

/-- C8: re-flooding is a no-op.  With the tip node in place (the miner is
initialized), `DisseminateOp` on an op whose hash is in the tip's op log or in
the mining queue, and `disseminateBlock` (also through `DisseminateBlock`) on a
block whose hash is in `treeTable`, return a nil error and the state they were
given: `treeTable`, `longestLeafHash`, `opQueue`, `noParentBlocks` and the log
`sent` of calls made to peers are unchanged. -/
theorem C8_reflooding_is_a_no_op (env : Env) (ns : MinerNetSettings) (s : State) :
    (∀ (op : Op) (tip : BlockChainNode), s.tip = some tip →
      ((s.heap.opLog tip.OpLog).has (op.HashToString env) = true ∨
        s.opQueue.has (op.HashToString env) = true) →
      DisseminateOp env ns s op = some (s, none)) ∧
    (∀ (block : Block) (rnd : Nat), s.treeTable.has (block.Hash env) = true →
      disseminateBlock env ns s block rnd = some (s, none) ∧
      (s.initialized = true → DisseminateBlock env ns s block rnd = some (s, none))) := by
  constructor
  · intro op tip htip hknown
    unfold DisseminateOp
    simp only [htip]
    rcases hknown with h | h
    · simp [h]
    · simp [h]
  · intro block rnd hin
    have h1 : disseminateBlock env ns s block rnd = some (s, none) := by
      unfold disseminateBlock
      simp [hin]
    refine ⟨h1, fun hinit => ?_⟩
    unfold DisseminateBlock
    simp [hinit, h1]

set_option maxRecDepth 1000000 in
/-- Witness for C8: `exOp2` is in the mining queue of `exS1qInit`, and block A
is in its tree. -/
theorem C8_reflooding_is_a_no_op_witness :
    DisseminateOp toyEnv exNS exS1qInit exOp2 = some (exS1qInit, none) ∧
    disseminateBlock toyEnv exNS exS1qInit exA 0 = some (exS1qInit, none) ∧
    DisseminateBlock toyEnv exNS exS1qInit exA 0 = some (exS1qInit, none) :=
  ⟨(C8_reflooding_is_a_no_op toyEnv exNS exS1qInit).1 exOp2
      { Block := exA, Children := [], Height := 1, InkTable := 0, Canvas := 0, QueueShapes := 0,
        OpLog := 0 } (by decide) (Or.inr (by decide)),
   ((C8_reflooding_is_a_no_op toyEnv exNS exS1qInit).2 exA 0 (by decide)).1,
   ((C8_reflooding_is_a_no_op toyEnv exNS exS1qInit).2 exA 0 (by decide)).2 (by decide)⟩

/-! ## Proof of work: `ZeroPrefix` -/

theorem digitVal_hexDigit : ∀ n, n < 16 → digitVal (hexDigit n) = some n := by decide

theorem hexDigit_not_sign : ∀ n, n < 16 → hexDigit n ≠ '+' ∧ hexDigit n ≠ '-' := by decide

theorem hexDigit_eq_zero_iff : ∀ n, n < 16 → (hexDigit n = '0' ↔ n = 0) := by decide

/-- Every character of a hex-encoded digest is a digit of `hextable`. -/
theorem hexEncode_mem (bs : List Nat) (c : Char) (hc : c ∈ (hexEncode bs).data) :
    ∃ n, n < 16 ∧ c = hexDigit n := by
  unfold hexEncode at hc
  simp only [List.mem_flatMap] at hc
  obtain ⟨b, _, hb⟩ := hc
  simp only [List.mem_cons, List.mem_singleton] at hb
  rcases hb with hb | hb | hb
  · exact ⟨b / 16 % 16, Nat.mod_lt _ (by decide), hb⟩
  · exact ⟨b % 16, Nat.mod_lt _ (by decide), hb⟩
  · simp at hb

theorem Block.Hash_mem (env : Env) (b : Block) (c : Char) (hc : c ∈ (b.Hash env).data) :
    ∃ n, n < 16 ∧ c = hexDigit n := by
  cases b <;> exact hexEncode_mem _ c hc

/-- On hexadecimal digits the digit loop of `ParseUint` never reports a syntax
error, stays positive once positive, and from 0 ends at 0 exactly on zeros. -/
theorem parseUintLoop_hex (cs : List Char) (hcs : ∀ c ∈ cs, ∃ n, n < 16 ∧ c = hexDigit n) :
    ∀ n, (parseUintLoop cs n).2 ≠ NumErr.ErrSyntax ∧
      (0 < n → 0 < (parseUintLoop cs n).1) ∧
      (n = 0 → ((parseUintLoop cs n).1 = 0 ↔ ∀ c ∈ cs, c = '0')) := by
  induction cs with
  | nil =>
    intro n
    simp [parseUintLoop]
  | cons c cs ih =>
    intro n
    obtain ⟨v, hv, rfl⟩ := hcs c (List.mem_cons_self _ _)
    have ih' := ih (fun x hx => hcs x (List.mem_cons_of_mem _ hx))
    have hz := hexDigit_eq_zero_iff v hv
    simp only [parseUintLoop, digitVal_hexDigit v hv]
    rw [if_neg (by omega)]
    by_cases hbig : n ≥ 2 ^ 60
    · rw [if_pos hbig]
      refine ⟨by simp, fun _ => by norm_num, fun h0 => ?_⟩
      subst h0
      norm_num at hbig
    · rw [if_neg hbig]
      have hlt : n < 2 ^ 60 := by omega
      have e16 : n * 16 % 2 ^ 64 = n * 16 := Nat.mod_eq_of_lt (by omega)
      have e1 : (n * 16 + v) % 2 ^ 64 = n * 16 + v := Nat.mod_eq_of_lt (by omega)
      simp only [e16, e1]
      rw [if_neg (by omega)]
      obtain ⟨i1, i2, i3⟩ := ih' (n * 16 + v)
      refine ⟨i1, fun hpos => i2 (by omega), fun h0 => ?_⟩
      subst h0
      by_cases hv0 : v = 0
      · subst hv0
        have := i3 (by omega)
        simp only [List.mem_cons, forall_eq_or_imp]
        rw [this]
        simp [hz]
      · have hpos := i2 (by omega)
        simp only [List.mem_cons, forall_eq_or_imp]
        constructor
        · intro h; omega
        · intro h; exact absurd (hz.mp h.1) hv0

/-- On hexadecimal digits `ParseInt(s, 16, 0)` is 0 exactly when every digit
is `'0'` (in particular for the empty string). -/
theorem parseInt16_hex (cs : List Char) (hcs : ∀ c ∈ cs, ∃ n, n < 16 ∧ c = hexDigit n) :
    parseInt16 cs = 0 ↔ ∀ c ∈ cs, c = '0' := by
  cases cs with
  | nil => simp [parseInt16]
  | cons c cs =>
    obtain ⟨v, hv, hcv⟩ := hcs c (List.mem_cons_self _ _)
    obtain ⟨hp, hm⟩ := hexDigit_not_sign v hv
    obtain ⟨l1, _, l3⟩ := parseUintLoop_hex (c :: cs) hcs 0
    have hc1 : c ≠ '+' := hcv ▸ hp
    have hc2 : c ≠ '-' := hcv ▸ hm
    simp only [parseInt16, hc1, hc2, or_self, if_false, parseUint16]
    rw [if_neg (List.cons_ne_nil _ _)]
    simp only [decide_False, Bool.false_eq_true, false_and, not_false_eq_true, true_and, if_false]
    rw [if_neg l1]
    rw [← l3 rfl]
    by_cases hbig : (parseUintLoop (c :: cs) 0).1 ≥ 2 ^ 63
    · rw [if_pos hbig]
      constructor
      · intro h; norm_num at h
      · intro h; rw [h] at hbig; norm_num at hbig
    · rw [if_neg hbig]
      exact Int.natCast_eq_zero

/-- C9: for a difficulty `d` from 0 to 32, `ZeroPrefix(block)` is true iff the
first `d` characters of `block.Hash()` are all `'0'`, where `d` is
`PoWDifficultyOpBlock` for an `OpBlock` and `PoWDifficultyNoOpBlock` for a
`NoOpBlock`; `d = 0` accepts every block; and `ValidateBlock` returns
`InvalidBlockHashError` for every block that fails `ZeroPrefix`. -/
theorem C9_ZeroPrefix_iff_leading_zeros (env : Env) (ns : MinerNetSettings) (block : Block)
    (hd : block.GetPowDifficulty ns ≤ 32) :
    (∀ p ops m n, Block.GetPowDifficulty ns (.OpBlock p ops m n) = ns.PoWDifficultyOpBlock) ∧
    (∀ p m n, Block.GetPowDifficulty ns (.NoOpBlock p m n) = ns.PoWDifficultyNoOpBlock) ∧
    (∃ r, ZeroPrefix env ns block = some r ∧
      (r = true ↔ ∀ c ∈ (block.Hash env).data.take (block.GetPowDifficulty ns), c = '0')) ∧
    (block.GetPowDifficulty ns = 0 → ZeroPrefix env ns block = some true) ∧
    (ZeroPrefix env ns block = some false →
      ∀ s, ValidateBlock env ns s block
        = some (s, false, some (Error.InvalidBlockHashError "invalid nonce"))) := by
  have hlen : (block.Hash env).data.length = 32 := Block.Hash_length env block
  have hhex : ∀ c ∈ (block.Hash env).data.take (block.GetPowDifficulty ns),
      ∃ n, n < 16 ∧ c = hexDigit n :=
    fun c hc => Block.Hash_mem env block c (List.mem_of_mem_take hc)
  have hzp : ZeroPrefix env ns block = some (decide (parseInt16
      ((block.Hash env).data.take (block.GetPowDifficulty ns)) = 0)) := by
    unfold ZeroPrefix
    simp only []
    rw [if_pos (by omega)]
  refine ⟨fun _ _ _ _ => rfl, fun _ _ _ => rfl, ⟨_, hzp, ?_⟩, ?_, ?_⟩
  · rw [decide_eq_true_iff]
    exact parseInt16_hex _ hhex
  · intro h0
    rw [hzp, h0]
    simp [parseInt16]
  · intro hf s
    unfold ValidateBlock
    rw [hf]
    rfl

set_option maxRecDepth 100000 in
/-- Witness for C9: settings with difficulty 2 for a no-op block; the example
block A hashes to `a5c6...` and is rejected by `ValidateBlock`. -/
theorem C9_ZeroPrefix_iff_leading_zeros_witness :
    Block.GetPowDifficulty { exNS with PoWDifficultyNoOpBlock := 2 } exA ≤ 32 ∧
    ValidateBlock toyEnv { exNS with PoWDifficultyNoOpBlock := 2 }
        (InitBlockchain_genesis exNS []) exA
      = some (InitBlockchain_genesis exNS [], false,
          some (Error.InvalidBlockHashError "invalid nonce")) :=
  ⟨by decide,
   (C9_ZeroPrefix_iff_leading_zeros toyEnv { exNS with PoWDifficultyNoOpBlock := 2 } exA
      (by decide)).2.2.2.2 (by decide) _⟩

/-! ## The ink check of `ValidateOp` -/

/-- The ink check of `ValidateOp`, for an add op whose key decodes and whose
signature verifies: the op fails with `InsufficientInkError` exactly when
`ShapeInk`, the `uint64` area reduced modulo `2^32`, exceeds the balance at
the tip, and the error carries that balance. -/
theorem ValidateOp_ink_check (env : Env) (ns : MinerNetSettings) (s : State) (op : Op)
    (tip : BlockChainNode) (k : PublicKey)
    (hval : ∀ sh cv n, env.shapeValidate sh cv ≠ some (Error.InsufficientInkError n))
    (hdec : env.DecodePubKey op.PubKey = DecodeResult.key k)
    (hver : env.ecdsaVerify k (Shape.HashToBytes env op.OpShape) op.OpSig.R op.OpSig.S = true)
    (hadd : op.Add = true) (htip : s.tip = some tip) :
    (∀ n, ValidateOp env ns s op = some (false, some (Error.InsufficientInkError n)) ↔
      (ShapeInk env op.OpShape > ((s.heap.ink tip.InkTable).get op.PubKey).getD 0 ∧
        n = ((s.heap.ink tip.InkTable).get op.PubKey).getD 0)) ∧
    ShapeInk env op.OpShape = (env.shapeArea op.OpShape).1 % 2 ^ 32 := by
  refine ⟨fun n => ?_, rfl⟩
  unfold ValidateOp
  simp only [hdec, hver, htip, hadd, Bool.not_true, Bool.false_eq_true, if_false, if_true]
  by_cases hc : ShapeInk env op.OpShape > ((s.heap.ink tip.InkTable).get op.PubKey).getD 0
  · simp only [hc, if_true, true_and, Option.some.injEq, Prod.mk.injEq, Error.InsufficientInkError.injEq]
    exact eq_comm
  · simp only [hc, if_false, false_and, iff_false]
    unfold ValidateShape
    simp only [htip]
    intro h
    simp only [Option.some.injEq, Prod.mk.injEq] at h
    exact hval _ _ _ h.2

set_option maxRecDepth 1000000 in
/-- C10 (code defect): `ShapeInk` returns `uint32(area)`.  The filled square
`exBigShape` has area 4900000000, `miner-0001` holds 700000000; the cost is
greater than the balance, yet `ShapeInk` is 605032704 and `ValidateOp` lets
the op through the ink check and accepts it. -/
theorem C10_ink_check_passes_on_truncated_cost :
    exBigOp.Add = true ∧
    (bigAreaEnv.shapeArea exBigOp.OpShape).1 = 4900000000 ∧
    exRich.tip.map (fun tip => ((exRich.heap.ink tip.InkTable).get exBigOp.PubKey).getD 0)
      = some 700000000 ∧
    ShapeInk bigAreaEnv exBigOp.OpShape = 605032704 ∧
    ValidateOp bigAreaEnv bigNS exRich exBigOp = some (true, none) := by
  decide

/-! ## The add flag in the op hash -/

theorem Op.HashToBytes_eq_md5_hashInput (env : Env) (op : Op) :
    Op.HashToBytes env op = env.md5 (Op.hashInput env op) := by
  simp [Op.HashToBytes, Op.hashInput]

/-- The inputs digested for the add and for the delete of an op are equal
exactly when the shape digest already starts with byte 15. -/
theorem Op.hashInput_add_eq_delete_iff (env : Env) (op : Op) :
    Op.hashInput env (SetOpAdd op true) = Op.hashInput env (SetOpAdd op false) ↔
      (Shape.HashToBytes env op.OpShape).head? = some 15 := by
  have hlen : (Shape.HashToBytes env op.OpShape).length = 16 := env.md5_length _
  cases hd : Shape.HashToBytes env op.OpShape with
  | nil => simp [hd] at hlen
  | cons x xs =>
    simp [Op.hashInput, SetOpAdd, hd]

set_option maxRecDepth 1000000 in
theorem md5Sum_empty : hexEncode (md5Sum []) = "d41d8cd98f00b204e9800998ecf8427e" := by
  decide

set_option maxRecDepth 1000000 in
theorem md5Sum_abc : hexEncode (md5Sum (stringBytes "abc")) =
    "900150983cd24fb0d6963f7d28e17f72" := by
  decide

set_option maxRecDepth 1000000 in
theorem md5Sum_two_chunks : hexEncode (md5Sum (stringBytes
    "12345678901234567890123456789012345678901234567890123456789012345678901234567890")) =
    "57edf4a22be3c955ac49da2e2107b67a" := by
  decide

set_option maxRecDepth 1000000 in
/-- C11, at the failing input (the op `exLineOp`, whose shape digest starts
with byte 15): the add and the delete of the op are digested from the same
bytes, so they hash to the same value. -/
theorem C11_add_and_delete_of_line_hash_alike :
    hexEncode (Shape.HashToBytes refEnv exLineOp.OpShape) = "0ffce72cc6df784fc08c0f9c242f0b5d" ∧
    Op.hashInput refEnv (SetOpAdd exLineOp true) = Op.hashInput refEnv (SetOpAdd exLineOp false) ∧
    Op.HashToString refEnv (SetOpAdd exLineOp true) =
      Op.HashToString refEnv (SetOpAdd exLineOp false) := by
  decide

/-! ## The chain on the wire -/

theorem GetNetworkBlockchain_rawChain_GetChain_block (b : Block)
    (hb : ∀ p k n, b ≠ .OpBlock p [] k n) :
    GetNetworkBlockchain_rawChain (GetChain [b]) = [b] := by
  cases b with
  | NoOpBlock p k n => simp [GetChain, GetNetworkBlockchain_rawChain]
  | OpBlock p ops k n =>
    cases ops with
    | nil => exact absurd rfl (hb p k n)
    | cons o os => simp [GetChain, GetNetworkBlockchain_rawChain]

/-- C12: a chain sent as `GetChain` sends it and decoded as
`GetNetworkBlockchain` decodes it has the same length, and at every position
that holds a no-op block, or an op block with at least one op, the decoded
block is the block sent (so its kind, its fields and its hash are the same);
a general block with no ops decodes to a no-op block. -/
theorem C12_wire_encoding_round_trips (env : Env) (chain : RawBlockchain) (i : Nat) (b : Block)
    (hi : chain[i]? = some b) (hb : ∀ p k n, b ≠ .OpBlock p [] k n) :
    (GetNetworkBlockchain_rawChain (GetChain chain)).length = chain.length ∧
    (GetNetworkBlockchain_rawChain (GetChain chain))[i]? = some b ∧
    ((GetNetworkBlockchain_rawChain (GetChain chain))[i]?.map (Block.Hash env)) =
      some (Block.Hash env b) ∧
    (∀ g : GeneralBlock, g.Ops = [] →
      GetNetworkBlockchain_rawChain [g] = [.NoOpBlock g.PrevHash g.PubKeyMiner g.Nonce]) := by
  have h2 : (GetNetworkBlockchain_rawChain (GetChain chain))[i]? = some b := by
    have h1 := GetNetworkBlockchain_rawChain_GetChain_block b hb
    simp only [GetNetworkBlockchain_rawChain, GetChain, List.map_map, List.map_cons,
      List.map_nil, List.cons.injEq, and_true] at h1
    simp only [GetNetworkBlockchain_rawChain, GetChain, List.map_map, List.getElem?_map, hi,
      Option.map_some', Function.comp]
    exact congrArg some h1
  refine ⟨by simp [GetNetworkBlockchain_rawChain, GetChain], h2, by rw [h2]; rfl, ?_⟩
  intro g hg
  simp [GetNetworkBlockchain_rawChain, hg]

/-- Whole chains: a chain none of whose op blocks is empty comes back
unchanged. -/
theorem GetNetworkBlockchain_rawChain_GetChain (chain : RawBlockchain)
    (hb : ∀ b ∈ chain, ∀ p k n, b ≠ .OpBlock p [] k n) :
    GetNetworkBlockchain_rawChain (GetChain chain) = chain := by
  induction chain with
  | nil => rfl
  | cons b rest ih =>
    have h1 := GetNetworkBlockchain_rawChain_GetChain_block b (hb b (List.mem_cons_self _ _))
    have h2 := ih (fun b1 hb1 => hb b1 (List.mem_cons_of_mem _ hb1))
    simp only [GetNetworkBlockchain_rawChain, GetChain, List.map_map, List.map_cons,
      List.map_nil, List.cons.injEq, and_true] at h1 h2 ⊢
    exact ⟨h1, h2⟩

set_option maxRecDepth 1000000 in
theorem C12_wire_encoding_round_trips_witness :
    [exA, exD, exG][1]? = some exD ∧
    (GetNetworkBlockchain_rawChain (GetChain [exA, exD, exG])).length = 3 ∧
    (GetNetworkBlockchain_rawChain (GetChain [exA, exD, exG]))[1]? = some exD :=
  have h := C12_wire_encoding_round_trips toyEnv [exA, exD, exG] 1 exD (by decide)
    (by simp [exD])
  ⟨by decide, h.1, h.2.1⟩

/-- An op block without ops does not come back: it is decoded as a no-op
block. -/
theorem GetNetworkBlockchain_rawChain_empty_OpBlock (p k : String) (n : Nat) :
    GetNetworkBlockchain_rawChain (GetChain [.OpBlock p [] k n]) = [.NoOpBlock p k n] := by
  simp [GetNetworkBlockchain_rawChain, GetChain]

/-! ## The longest chain, client side -/

theorem prependParents_cons (n : Nat) (blk : block) (tl : List String) :
    prependParents n blk (blk.blockHash :: tl) =
      (prependParents n blk [blk.blockHash]).map (· ++ tl) := by
  induction n generalizing blk tl with
  | zero => simp [prependParents]
  | succ n ih =>
    cases hp : blk.parentBlock with
    | none => simp [prependParents, hp]
    | some p =>
      simp only [prependParents, hp]
      rw [ih p (blk.blockHash :: tl), ih p [blk.blockHash]]
      cases prependParents n p [p.blockHash] <;> simp

theorem block.WellLinked_child {children : String → List String} {genHash : String} {d : Nat}
    {blk : block} (h : blk.WellLinked children genHash d) {child : String}
    (hc : child ∈ children blk.blockHash) :
    (block.mk (some blk) child).WellLinked children genHash (d + 1) := by
  obtain ⟨chain, h1, h2, h3, h4, h5⟩ := h
  refine ⟨chain ++ [child], ?_, ?_, ?_, ?_, ?_⟩
  · show prependParents d blk (blk.blockHash :: [child]) = some (chain ++ [child])
    rw [prependParents_cons, h1]; rfl
  · cases chain with
    | nil => simp at h4
    | cons x xs => simpa using h2
  · simp [block.blockHash]
  · simp [h4]
  · rw [List.chain'_append]
    refine ⟨h5, by simp, ?_⟩
    intro x hx y hy
    simp at hy
    rw [List.getLast?_eq_some_iff] at h3
    obtain ⟨ys, rfl⟩ := h3
    simp at hx
    subst hx; subst hy
    exact hc

theorem childrenOfDepth_ok (children : String → List String) (blocks : List block) :
    childrenOfDepth (fun h => .ok (children h)) blocks =
      .ok (blocks.flatMap fun blk =>
        (children blk.blockHash).map fun child => block.mk (some blk) child) := by
  induction blocks with
  | nil => rfl
  | cons blk rest ih => simp [childrenOfDepth, ih, List.flatMap_cons]

theorem groupByDepth_spec (children : String → List String) (genHash : String) (D : Nat)
    (hD : treeLevel children genHash D ≠ []) (hD1 : treeLevel children genHash (D + 1) = [])
    (fuel d : Nat) (blocks : List block) (hd : d ≤ D) (hfuel : D - d < fuel)
    (hb : blocks.map block.blockHash = treeLevel children genHash d)
    (hw : ∀ blk ∈ blocks, blk.WellLinked children genHash d) :
    ∃ bs, groupByDepth (fun h => .ok (children h)) fuel d blocks = some (.ok (D, bs)) ∧
      bs ≠ [] ∧ ∀ blk ∈ bs, blk.WellLinked children genHash D := by
  induction fuel generalizing d blocks with
  | zero => omega
  | succ fuel ih =>
    have hnext : (blocks.flatMap fun blk =>
        (children blk.blockHash).map fun child => block.mk (some blk) child).map
          block.blockHash = treeLevel children genHash (d + 1) := by
      simp only [treeLevel, ← hb]
      simp [List.map_flatMap, List.flatMap_map, Function.comp_def, block.blockHash]
    simp only [groupByDepth, childrenOfDepth_ok]
    cases hn : blocks.flatMap fun blk =>
        (children blk.blockHash).map fun child => block.mk (some blk) child with
    | nil =>
      rw [hn] at hnext
      have hdD : d = D := by
        by_contra hne
        have hlt : d + 1 ≤ D := by omega
        -- an empty level stays empty
        have hempty : ∀ k, treeLevel children genHash (d + 1 + k) = [] := by
          intro k
          induction k with
          | zero => simpa using hnext.symm
          | succ k ihk =>
            have : d + 1 + (k + 1) = (d + 1 + k) + 1 := by omega
            rw [this, treeLevel, ihk]; rfl
        have := hempty (D - (d + 1))
        rw [show d + 1 + (D - (d + 1)) = D by omega] at this
        exact hD this
      subst hdD
      refine ⟨blocks, rfl, ?_, hw⟩
      intro hnil
      rw [hnil] at hb
      exact hD hb.symm
    | cons b bs =>
      rw [hn] at hnext
      have hdD : d < D := by
        by_contra hge
        have : d = D := by omega
        subst this
        rw [hD1] at hnext
        simp at hnext
      have hw2 : ∀ blk ∈ b :: bs, blk.WellLinked children genHash (d + 1) := by
        intro blk hblk
        rw [← hn, List.mem_flatMap] at hblk
        obtain ⟨parent, hpar, hmem⟩ := hblk
        rw [List.mem_map] at hmem
        obtain ⟨child, hchild, rfl⟩ := hmem
        exact block.WellLinked_child (hw parent hpar) hchild
      exact ih (d + 1) (b :: bs) hdD (by omega) hnext hw2

theorem groupByDepth_fuel (GetChildren : String → Except String (List String))
    (fuel extra d : Nat) (blocks : List block) (r : Except String (Nat × List block))
    (h : groupByDepth GetChildren fuel d blocks = some r) :
    groupByDepth GetChildren (fuel + extra) d blocks = some r := by
  induction fuel generalizing d blocks with
  | zero => simp [groupByDepth] at h
  | succ fuel ih =>
    rw [show fuel + 1 + extra = (fuel + extra) + 1 by omega]
    simp only [groupByDepth] at h ⊢
    split <;> rename_i heq <;> rw [heq] at h
    · exact h
    · exact h
    · exact ih _ _ h

theorem getLongestChain_fuel (GetChildren : String → Except String (List String))
    (fuel extra : Nat) (genHash : String) (r : List String × Option String)
    (h : getLongestChain fuel GetChildren genHash = some r) :
    getLongestChain (fuel + extra) GetChildren genHash = some r := by
  unfold getLongestChain at h ⊢
  cases hg : groupByDepth GetChildren fuel 0 [block.mk none genHash] with
  | none => simp [hg] at h
  | some res =>
    rw [groupByDepth_fuel _ _ extra _ _ _ hg]
    rw [hg] at h
    exact h

set_option maxRecDepth 1000000 in
/-- C13: in a tree given by a children function, with `D` the largest distance
from the genesis hash at which there is a node, `getLongestChain` returns
(as soon as its outer loop may run `D + 1` rounds) a list without error that
starts with the genesis hash, in which each element is a child of the one
before it, and that has `D + 1` elements.  On the three test trees, which
`art_app_tests.GetChildren` holds, it returns A,B,D,F,G, then Z,J,K,L,M,N and
the six hashes of the Cyrillic chain. -/
theorem C13_getLongestChain_walks_to_max_depth (children : String → List String)
    (genHash : String) (D fuel : Nat)
    (hD : treeLevel children genHash D ≠ []) (hD1 : treeLevel children genHash (D + 1) = [])
    (hfuel : D < fuel) :
    (∃ chain, getLongestChain fuel (fun h => .ok (children h)) genHash = some (chain, none) ∧
      chain.head? = some genHash ∧ chain.length = D + 1 ∧
      List.Chain' (fun a b => b ∈ children a) chain) ∧
    (∀ extra, getLongestChain (5 + extra) (fun h => .ok (art_app_tests.GetChildren h)) "A" =
      some (["A", "B", "D", "F", "G"], none)) ∧
    (∀ extra, getLongestChain (6 + extra) (fun h => .ok (art_app_tests.GetChildren h)) "Z" =
      some (["Z", "J", "K", "L", "M", "N"], none)) ∧
    (∀ extra, getLongestChain (6 + extra) (fun h => .ok (art_app_tests.GetChildren h)) "й" =
      some (["й", "у", "н", "ы", "р", "я"], none)) := by
  refine ⟨?_, fun extra => getLongestChain_fuel _ 5 extra _ _ (by decide),
    fun extra => getLongestChain_fuel _ 6 extra _ _ (by decide),
    fun extra => getLongestChain_fuel _ 6 extra _ _ (by decide)⟩
  have hroot : (block.mk none genHash).WellLinked children genHash 0 :=
    ⟨[genHash], rfl, rfl, rfl, rfl, by simp⟩
  obtain ⟨bs, hg, hne, hw⟩ := groupByDepth_spec children genHash D hD hD1 fuel 0
    [block.mk none genHash] (Nat.zero_le _) (by omega) rfl
    (by intro blk hblk; simp at hblk; subst hblk; exact hroot)
  cases bs with
  | nil => exact absurd rfl hne
  | cons currBlk rest =>
    obtain ⟨chain, h1, h2, _, h4, h5⟩ := hw currBlk (List.mem_cons_self _ _)
    exact ⟨chain, by simp [getLongestChain, hg, h1], h2, h4, h5⟩

set_option maxRecDepth 1000000 in
theorem C13_getLongestChain_walks_to_max_depth_witness :
    treeLevel art_app_tests.GetChildren "A" 4 ≠ [] ∧
    treeLevel art_app_tests.GetChildren "A" 5 = [] ∧
    ∃ chain, getLongestChain 5 (fun h => .ok (art_app_tests.GetChildren h)) "A" =
        some (chain, none) ∧
      chain.head? = some "A" ∧ chain.length = 4 + 1 ∧
      List.Chain' (fun a b => b ∈ art_app_tests.GetChildren a) chain :=
  ⟨by decide, by decide,
    (C13_getLongestChain_walks_to_max_depth art_app_tests.GetChildren "A" 4 5 (by decide)
      (by decide) (by decide)).1⟩

/-! ## The carrier `XR` -/

/-- The bound from which `ParseFloat` reports `ErrRange` is `2^1024 - 2^970`. -/
theorem XR.float64Overflow_eq : XR.float64Overflow = 2 ^ 1024 - 2 ^ 970 := by
  norm_num [XR.float64Overflow]

/-! ## The parser: fuel, and the order of map iteration -/

section GeometryLemmas

variable {F : Type} [GoFloat F]

theorem parsePathLoop_fuel (tokens : List String) (fuel extra i : Nat)
    (prevPoint lastM : Point F) (points : AdjacencyMap F) (h : tokens.length - i ≤ fuel) :
    parsePathLoop tokens (fuel + extra) i prevPoint lastM points =
      parsePathLoop tokens fuel i prevPoint lastM points := by
  induction fuel generalizing i prevPoint lastM points with
  | zero =>
    have hi : ¬ i < tokens.length := by omega
    cases extra with
    | zero => rfl
    | succ e => simp [parsePathLoop, hi]
  | succ fuel ih =>
    rw [show fuel + 1 + extra = (fuel + extra) + 1 by omega]
    simp only [parsePathLoop]
    split
    · rename_i hi
      split
      · rfl
      · split
        · exact ih _ _ _ _ (by omega)
        · exact ih _ _ _ _ (by omega)
    · rfl

theorem AdjacencyMap.size_set (points : AdjacencyMap F) (p : Point F) (ns : List (Point F)) :
    AdjacencyMap.size (AdjacencyMap.set points p ns) +
        ((AdjacencyMap.get points p).getD []).length =
      AdjacencyMap.size points + ns.length := by
  induction points with
  | nil => simp [AdjacencyMap.set, AdjacencyMap.get, AdjacencyMap.size]
  | cons e rest ih =>
    obtain ⟨q, qs⟩ := e
    simp only [AdjacencyMap.set, AdjacencyMap.get]
    split
    · simp [AdjacencyMap.size]; omega
    · simp only [AdjacencyMap.size, List.map_cons, List.sum_cons] at ih ⊢
      omega

theorem removeNeighbour_length_le (neighbours : List (Point F)) (toRemove : Point F) :
    (removeNeighbour neighbours toRemove).length ≤ neighbours.length := by
  simp only [removeNeighbour]
  split
  · simp; omega
  · simp

theorem removeGroup_step_size (points : AdjacencyMap F) (curr n : Point F)
    (ns : List (Point F)) (h : AdjacencyMap.get points curr = some (n :: ns)) :
    AdjacencyMap.size (AdjacencyMap.set (AdjacencyMap.set points curr ns) n
      (removeNeighbour ((AdjacencyMap.get (AdjacencyMap.set points curr ns) n).getD []) curr))
      < AdjacencyMap.size points := by
  have h1 := AdjacencyMap.size_set points curr ns
  have h2 := AdjacencyMap.size_set (AdjacencyMap.set points curr ns) n
    (removeNeighbour ((AdjacencyMap.get (AdjacencyMap.set points curr ns) n).getD []) curr)
  have h3 := removeNeighbour_length_le
    ((AdjacencyMap.get (AdjacencyMap.set points curr ns) n).getD []) curr
  rw [h] at h1
  simp at h1
  omega

/-- The fuel of `removeGroup` is never used up: above the size of the map, more
fuel gives the same result. -/
theorem removeGroup_fuel (fuel extra : Nat) (curr : Point F) (points : AdjacencyMap F)
    (h : AdjacencyMap.size points < fuel) :
    removeGroup (fuel + extra) curr points = removeGroup fuel curr points := by
  induction fuel generalizing curr points with
  | zero => omega
  | succ fuel ih =>
    rw [show fuel + 1 + extra = (fuel + extra) + 1 by omega]
    simp only [removeGroup]
    split
    · rfl
    · rfl
    · rename_i n ns hget
      have hlt := removeGroup_step_size points curr n ns hget
      simp only [popNeighbour]
      rw [ih _ _ (by omega)]

/-- More fuel does not change what `removeGroups` returns. -/
theorem removeGroups_fuel (ge : GeoEnv F) (fuel extra : Nat) (points : AdjacencyMap F)
    (r : List (Component F)) (h : removeGroups ge fuel points = some r) :
    removeGroups ge (fuel + extra) points = some r := by
  induction fuel generalizing points r with
  | zero => simp [removeGroups] at h
  | succ fuel ih =>
    rw [show fuel + 1 + extra = (fuel + extra) + 1 by omega]
    simp only [removeGroups] at h ⊢
    split
    · rename_i h0
      simpa [h0] using h
    · rename_i h0
      simp only [h0, if_false] at h
      cases hrec : removeGroups ge fuel
        (removeGroup (AdjacencyMap.size (removeDisconnectedPoints ge points).2 + 1)
          (((ge.rangeOrder (removeDisconnectedPoints ge points).2).head?.map Prod.fst).getD
            ⟨GoFloat.ofInt 0, GoFloat.ofInt 0⟩) (removeDisconnectedPoints ge points).2).2 with
      | none => simp [hrec] at h
      | some groups =>
        rw [ih _ _ hrec]
        simpa [hrec] using h

theorem removeDisconnectedPoints_connected (ge : GeoEnv F) (points : AdjacencyMap F)
    (h : ∀ e ∈ points, e.2 ≠ []) : removeDisconnectedPoints ge points = ([], points) := by
  have hf : (ge.rangeOrder points).filter (fun e => decide (e.2.length = 0)) = [] := by
    rw [List.filter_eq_nil_iff]
    intro e he
    have := h e ((ge.rangeOrder_perm points).mem_iff.mp he)
    simpa using this
  simp [removeDisconnectedPoints, hf]

end GeometryLemmas

theorem rangeOrder_head_mem {F : Type} (ge : GeoEnv F) (points : AdjacencyMap F) (h : points ≠ []) :
    ∃ e ∈ points, (ge.rangeOrder points).head? = some e := by
  cases hr : ge.rangeOrder points with
  | nil =>
    have := (ge.rangeOrder_perm points).length_eq
    rw [hr] at this
    cases points with
    | nil => exact absurd rfl h
    | cons a b => simp at this
  | cons e rest =>
    refine ⟨e, (ge.rangeOrder_perm points).mem_iff.mp ?_, rfl⟩
    rw [hr]; exact List.mem_cons_self _ _

theorem XR.eq_fin (a : ℚ) (b : XR) : XR.eq (.fin a) b = decide (XR.fin a = b) := by
  cases b <;> simp [XR.eq]

theorem Point.keyEq_of_isFin (p q : Point XR) (h : p.isFin = true) :
    Point.keyEq p q = decide (p = q) := by
  obtain ⟨px, py⟩ := p
  obtain ⟨qx, qy⟩ := q
  simp only [Point.isFin, Bool.and_eq_true] at h
  cases px <;> cases py <;> simp [XR.isFin] at h
  simp only [Point.keyEq]
  show (XR.eq _ _ && XR.eq _ _) = _
  rw [XR.eq_fin, XR.eq_fin]
  simp [Bool.decide_and]

theorem AdjacencyMap.keys_del (points : AdjacencyMap XR) (p : Point XR)
    (h : ∀ e ∈ points, e.1.isFin = true) :
    (AdjacencyMap.del points p).map Prod.fst = (points.map Prod.fst).erase p := by
  induction points with
  | nil => simp [AdjacencyMap.del]
  | cons e rest ih =>
    obtain ⟨q, qs⟩ := e
    have hq : q.isFin = true := h (q, qs) (List.mem_cons_self _ _)
    have ih2 := ih (fun e he => h e (List.mem_cons_of_mem _ he))
    simp only [AdjacencyMap.del, Point.keyEq_of_isFin q p hq, List.map_cons, List.erase_cons]
    by_cases hqp : q = p
    · simp [hqp]
    · simp [hqp, ih2]

theorem AdjacencyMap.del_isFin (points : AdjacencyMap XR) (p : Point XR)
    (P : Point XR × List (Point XR) → Prop) (h : ∀ e ∈ points, P e) :
    ∀ e ∈ AdjacencyMap.del points p, P e := by
  induction points with
  | nil => simp [AdjacencyMap.del]
  | cons e rest ih =>
    obtain ⟨q, qs⟩ := e
    simp only [AdjacencyMap.del]
    split
    · intro e he; exact h e (List.mem_cons_of_mem _ he)
    · intro e he
      rcases List.mem_cons.mp he with rfl | he
      · exact h _ (List.mem_cons_self _ _)
      · exact ih (fun e he => h e (List.mem_cons_of_mem _ he)) e he

theorem AdjacencyMap.foldl_del_all (ks : List (Point XR)) (points : AdjacencyMap XR)
    (h : ∀ e ∈ points, e.1.isFin = true) (hp : (points.map Prod.fst).Perm ks) :
    ks.foldl AdjacencyMap.del points = [] := by
  induction ks generalizing points with
  | nil =>
    have := hp.length_eq
    cases points with
    | nil => rfl
    | cons a b => simp at this
  | cons k ks ih =>
    simp only [List.foldl_cons]
    apply ih
    · exact AdjacencyMap.del_isFin points k _ h
    · rw [AdjacencyMap.keys_del points k h]
      have := hp.erase k
      simpa using this

theorem removeDisconnectedPoints_cleared (ge : GeoEnv XR) (points : AdjacencyMap XR)
    (h : ∀ e ∈ points, e.1.isFin = true ∧ e.2 = []) :
    (removeDisconnectedPoints ge points).2 = [] := by
  have hf : (ge.rangeOrder points).filter (fun e => decide (e.2.length = 0)) =
      ge.rangeOrder points := by
    rw [List.filter_eq_self]
    intro e he
    have := (h e ((ge.rangeOrder_perm points).mem_iff.mp he)).2
    simp [this]
  simp only [removeDisconnectedPoints, hf]
  exact AdjacencyMap.foldl_del_all _ points (fun e he => (h e he).1)
    ((ge.rangeOrder_perm points).map Prod.fst).symm

theorem removeGroups_cleared (ge : GeoEnv XR) (fuel : Nat) (points : AdjacencyMap XR)
    (h : ∀ e ∈ points, e.1.isFin = true ∧ e.2 = []) :
    removeGroups ge (fuel + 1) points = some [] := by
  simp [removeGroups, removeDisconnectedPoints_cleared ge points h]

theorem AdjacencyMap.size_pos (points : AdjacencyMap XR) (hne : points ≠ [])
    (h : ∀ e ∈ points, e.2 ≠ []) : 0 < AdjacencyMap.size points := by
  cases points with
  | nil => exact absurd rfl hne
  | cons e rest =>
    have := h e (List.mem_cons_self _ _)
    have hl : 0 < e.2.length := List.length_pos.mpr this
    simp [AdjacencyMap.size]
    omega

/-- A description whose points are all connected and are used up by one
tracing, whatever its start: `parseSVGPath` returns one group, the trace from
the point the `range` loop gives first. -/
theorem parseSVGPath_one_group (ge : GeoEnv XR) (svg : String)
    (hM : (stringsSplit svg).getD 0 "" = "M")
    (hvalid : (parsePathLoop (F := XR) (stringsSplit svg) (stringsSplit svg).length 0
      ⟨GoFloat.ofInt 0, GoFloat.ofInt 0⟩ ⟨GoFloat.ofInt 0, GoFloat.ofInt 0⟩ []).isSome = true)
    (hne : pathPoints XR svg ≠ [])
    (hconn : ∀ e ∈ pathPoints XR svg, e.2 ≠ [])
    (hclear : ∀ r ∈ traceStarts XR svg, ∀ e ∈ r.2, e.1.isFin = true ∧ e.2 = []) :
    ∃ r ∈ traceStarts XR svg,
      parseSVGPath ge svg = some ([Component.Group ⟨r.1⟩], none) := by
  obtain ⟨e, he, hhead⟩ := rangeOrder_head_mem ge (pathPoints XR svg) hne
  refine ⟨removeGroup ((pathPoints XR svg).size + 1) e.1 (pathPoints XR svg), ?_, ?_⟩
  · exact List.mem_map.mpr ⟨e, he, rfl⟩
  · have hloop : parsePathLoop (F := XR) (stringsSplit svg) (stringsSplit svg).length 0
        ⟨GoFloat.ofInt 0, GoFloat.ofInt 0⟩ ⟨GoFloat.ofInt 0, GoFloat.ofInt 0⟩ [] =
        some (pathPoints XR svg) := by
      unfold pathPoints
      cases hp : parsePathLoop (F := XR) (stringsSplit svg) (stringsSplit svg).length 0
        ⟨GoFloat.ofInt 0, GoFloat.ofInt 0⟩ ⟨GoFloat.ofInt 0, GoFloat.ofInt 0⟩ [] with
      | none => simp [hp] at hvalid
      | some m => rfl
    have hpos := AdjacencyMap.size_pos (pathPoints XR svg) hne hconn
    obtain ⟨k, hk⟩ : ∃ k, AdjacencyMap.size (pathPoints XR svg) = k + 1 := ⟨_, (Nat.succ_pred_eq_of_pos hpos).symm⟩
    have hlen : (pathPoints XR svg).length ≠ 0 := by
      intro h0; exact hne (List.length_eq_zero.mp h0)
    have hcl := hclear _ (List.mem_map.mpr ⟨e, he, rfl⟩)
    simp only [parseSVGPath, hM, ne_eq, not_true_eq_false, if_false, hloop,
      removeDisconnectedPoints_connected ge _ hconn]
    simp only [removeGroups, removeDisconnectedPoints_connected ge _ hconn, hlen, if_false,
      hhead, Option.map_some', Option.getD_some]
    rw [hk] at hcl ⊢
    rw [removeGroups_cleared ge k _ hcl]
    rfl

/-! ## The parser: length, circles, malformed paths -/

theorem parseCircleLoop_error {F : Type} [GoFloat F] (svg : String) (tokens : List String)
    (fuel i : Nat) (circ : Circle F) (err : Option Error)
    (herr : ∀ s, err ≠ some (.ShapeSvgStringTooLongError s)) :
    ∀ s, (parseCircleLoop svg tokens fuel i circ err).2 ≠
      some (.ShapeSvgStringTooLongError s) := by
  induction fuel generalizing i circ err with
  | zero => intro s; simpa [parseCircleLoop] using herr s
  | succ fuel ih =>
    intro s
    simp only [parseCircleLoop]
    split
    · split
      · simp
      · have hnew : ∀ s, (if (GoFloat.ParseFloat (tokens.getD (i + 1) "") : F × Bool).2 = true
            then none else some (Error.strconvNumError (tokens.getD (i + 1) ""))) ≠
            some (Error.ShapeSvgStringTooLongError s) := by
          intro s; split <;> simp
        split
        · exact ih _ _ _ hnew s
        · split
          · exact ih _ _ _ hnew s
          · split
            · exact ih _ _ _ hnew s
            · exact ih _ _ _ (by intro s; simp) s
    · exact herr s

/-- C14: for both shape kinds (and any other), a description longer than 128
bytes makes `ParseSVGString` return no components and the error
`ShapeSvgStringTooLongError`, and a description of at most 128 bytes never
gets that error. -/
theorem C14_ParseSVGString_length_limit {F : Type} [GoFloat F] (ge : GeoEnv F) (svg : String)
    (shapeType : ShapeType) :
    (128 < svg.utf8ByteSize →
      ParseSVGString ge svg shapeType = some ([], some (.ShapeSvgStringTooLongError svg))) ∧
    (svg.utf8ByteSize ≤ 128 → ∀ comps err,
      ParseSVGString ge svg shapeType = some (comps, some err) →
        ∀ s, err ≠ .ShapeSvgStringTooLongError s) := by
  constructor
  · intro h
    simp [ParseSVGString, maxSVGLen, h]
  · intro h comps err hres s
    have hle : ¬ svg.utf8ByteSize > maxSVGLen := by simp [maxSVGLen]; exact h
    simp only [ParseSVGString, hle, if_false] at hres
    split at hres
    · -- a path
      simp only [parseSVGPath] at hres
      split at hres
      · simp at hres; rw [← hres.2]; simp
      · split at hres
        · simp at hres; rw [← hres.2]; simp
        · rename_i points _
          cases hg : removeGroups ge
            ((AdjacencyMap.size (removeDisconnectedPoints ge points).2) + 1)
            (removeDisconnectedPoints ge points).2 with
          | none => simp [hg] at hres
          | some groups => simp [hg] at hres
    · split at hres
      · -- a circle
        simp only [Option.some.injEq] at hres
        have hc : (parseSVGCircle (F := F) svg).2 = some err := by rw [hres]
        simp only [parseSVGCircle] at hc
        split at hc
        · simp at hc; rw [← hc]; simp
        · intro hs
          rw [hs] at hc
          exact parseCircleLoop_error svg _ 3 0 _ none (by intro s; simp) s hc
      · simp at hres; rw [← hres.2]; simp

set_option maxRecDepth 1000000 in
theorem C14_ParseSVGString_length_limit_witness :
    128 < exLongSvg.utf8ByteSize ∧ "r 4".utf8ByteSize ≤ 128 ∧
    ParseSVGString (storedOrder XR) exLongSvg 1 =
      some ([], some (.ShapeSvgStringTooLongError exLongSvg)) ∧
    ParseSVGString (storedOrder XR) exLongSvg 0 =
      some ([], some (.ShapeSvgStringTooLongError exLongSvg)) :=
  ⟨by decide, by decide,
    (C14_ParseSVGString_length_limit (storedOrder XR) exLongSvg 1).1 (by decide),
    (C14_ParseSVGString_length_limit (storedOrder XR) exLongSvg 0).1 (by decide)⟩

/-- C15, counterexample: the description "cx 1 cy 2" is not accepted. -/
theorem C15_counterexample :
    ParseSVGString (storedOrder XR) "cx 1 cy 2" 1 =
      some ([], some (.InvalidShapeSvgStringError "cx 1 cy 2")) := by
  decide!

/-- C15 as amended: with kind circle, a description of at most 128 bytes that
splits at its spaces into one or into three pairs of a key among cx, cy, r
and a number is accepted, and the result is the one circle that starts as
(0, 0, 0) and takes the pairs in their order; a description that splits into
another number of tokens than 2 or 6 fails with `InvalidShapeSvgStringError`
and gives no components.  So "r 4" is the circle of radius 4 at (0,0) and
"cy 5 r 10 cx 4" the circle of radius 10 at (4,5). -/
theorem C15_circle_takes_one_or_three_pairs {F : Type} [GoFloat F] (ge : GeoEnv F)
    (svg : String) (hlen : svg.utf8ByteSize ≤ 128) :
    (∀ k v x, stringsSplit svg = [k, v] → k ∈ ["cx", "cy", "r"] →
      GoFloat.ParseFloat v = (x, true) →
      ParseSVGString ge svg 1 = some ([.Circle (Circle.setKey k x
        ⟨GoFloat.ofInt 0, GoFloat.ofInt 0, GoFloat.ofInt 0⟩)], none)) ∧
    (∀ k1 v1 k2 v2 k3 v3 x1 x2 x3, stringsSplit svg = [k1, v1, k2, v2, k3, v3] →
      k1 ∈ ["cx", "cy", "r"] → k2 ∈ ["cx", "cy", "r"] → k3 ∈ ["cx", "cy", "r"] →
      GoFloat.ParseFloat v1 = (x1, true) → GoFloat.ParseFloat v2 = (x2, true) →
      GoFloat.ParseFloat v3 = (x3, true) →
      ParseSVGString ge svg 1 = some ([.Circle (Circle.setKey k3 x3 (Circle.setKey k2 x2
        (Circle.setKey k1 x1 ⟨GoFloat.ofInt 0, GoFloat.ofInt 0, GoFloat.ofInt 0⟩)))], none)) ∧
    ((stringsSplit svg).length ≠ 2 → (stringsSplit svg).length ≠ 6 →
      ParseSVGString ge svg 1 = some ([], some (.InvalidShapeSvgStringError svg))) ∧
    ParseSVGString (storedOrder XR) "r 4" 1 = some ([.Circle ⟨.fin 4, .fin 0, .fin 0⟩], none) ∧
    ParseSVGString (storedOrder XR) "cy 5 r 10 cx 4" 1 =
      some ([.Circle ⟨.fin 10, .fin 4, .fin 5⟩], none) := by
  have hle : ¬ svg.utf8ByteSize > maxSVGLen := by simp [maxSVGLen]; exact hlen
  have key : ∀ (k : String) (x : F) (c : Circle F) (fuel i : Nat) (tokens : List String),
      k ∈ ["cx", "cy", "r"] → tokens.getD i "" = k → i + 1 < tokens.length →
      GoFloat.ParseFloat (tokens.getD (i + 1) "") = (x, true) →
      parseCircleLoop svg tokens (fuel + 1) i c none =
        parseCircleLoop svg tokens fuel (i + 2) (Circle.setKey k x c) none := by
    intro k x c fuel i tokens hk htok hi hparse
    have hi1 : i < tokens.length := by omega
    have hi2 : ¬ tokens.length ≤ i + 1 := by omega
    simp only [parseCircleLoop, hi1, if_true, hi2, ne_eq, not_true_eq_false, or_self, if_false,
      hparse, htok]
    simp only [List.mem_cons, List.mem_singleton, List.not_mem_nil, or_false] at hk
    rcases hk with rfl | rfl | rfl <;> simp [Circle.setKey]
  refine ⟨?_, ?_, ?_, by decide!, by decide!⟩
  · intro k v x hsplit hk hparse
    simp only [ParseSVGString, hle, if_false, parseSVGCircle, hsplit]
    simp only [List.length_cons, List.length_nil]
    rw [if_neg (by decide), if_pos (by decide), if_neg (by decide)]
    rw [key k x _ 2 0 [k, v] hk (by simp) (by simp) (by simpa using hparse)]
    simp [parseCircleLoop]
  · intro k1 v1 k2 v2 k3 v3 x1 x2 x3 hsplit hk1 hk2 hk3 hp1 hp2 hp3
    simp only [ParseSVGString, hle, if_false, parseSVGCircle, hsplit]
    simp only [List.length_cons, List.length_nil]
    rw [if_neg (by decide), if_pos (by decide), if_neg (by decide)]
    rw [key k1 x1 _ 2 0 _ hk1 (by simp) (by simp) (by simpa using hp1)]
    rw [key k2 x2 _ 1 2 _ hk2 (by simp) (by simp) (by simpa using hp2)]
    rw [key k3 x3 _ 0 4 _ hk3 (by simp) (by simp) (by simpa using hp3)]
    simp [parseCircleLoop]
  · intro h2 h6
    simp [ParseSVGString, hle, parseSVGCircle, h2, h6]

set_option maxRecDepth 1000000 in
theorem C15_circle_takes_one_or_three_pairs_witness :
    "cy 5 r 10 cx 4".utf8ByteSize ≤ 128 ∧
    stringsSplit "cy 5 r 10 cx 4" = ["cy", "5", "r", "10", "cx", "4"] ∧
    ParseSVGString (storedOrder XR) "cy 5 r 10 cx 4" 1 =
      some ([.Circle (Circle.setKey "cx" (.fin 4) (Circle.setKey "r" (.fin 10)
        (Circle.setKey "cy" (XR.fin 5) ⟨GoFloat.ofInt 0, GoFloat.ofInt 0, GoFloat.ofInt 0⟩)))],
        none) :=
  ⟨by decide, by decide,
    (C15_circle_takes_one_or_three_pairs (storedOrder XR) "cy 5 r 10 cx 4" (by decide)).2.1
      "cy" "5" "r" "10" "cx" "4" (.fin 5) (.fin 10) (.fin 4) (by decide) (by decide) (by decide)
      (by decide) (by decide!) (by decide!) (by decide!)⟩

/-! ## The parser: which path descriptions fail -/

theorem parseCommand_commandArgs {F : Type} [GoFloat F] (tokens : List String) (i : Nat)
    (prev lastM : Point F) :
    (commandArgs tokens i = none → (parseCommand tokens i prev lastM).valid = false) ∧
    (∀ args, commandArgs tokens i = some args →
      (parseCommand tokens i prev lastM).valid = true ∧
      (parseCommand tokens i prev lastM).offset = args) := by
  simp only [commandArgs, parseCommand]
  split_ifs <;> simp

/-- Whether the loop of `parseSVGPath` fails depends on the tokens in command
position and on the number of tokens after them, and on nothing else: not on
the argument tokens, and not on the arithmetic. -/
theorem parsePathLoop_isSome {F : Type} [GoFloat F] (tokens : List String) (fuel i : Nat)
    (prev lastM : Point F) (M : AdjacencyMap F) :
    (parsePathLoop tokens fuel i prev lastM M).isSome = commandsValid tokens fuel i := by
  induction fuel generalizing i prev lastM M with
  | zero => rfl
  | succ fuel ih =>
    simp only [parsePathLoop, commandsValid]
    by_cases hi : i < tokens.length
    · simp only [hi, if_true]
      have hc := parseCommand_commandArgs tokens i prev lastM
      cases hargs : commandArgs tokens i with
      | none => simp [hc.1 hargs]
      | some args =>
        obtain ⟨hv, ho⟩ := hc.2 args hargs
        simp only [hv, Bool.not_true, Bool.false_eq_true, if_false, ho]
        split
        · exact ih _ _ _ _
        · exact ih _ _ _ _
    · simp [hi]

/-- The path descriptions of at most 128 bytes that `ParseSVGString` rejects
with `InvalidShapeSvgStringError` are those whose first token is not `M` or
in which a token in command position is no command letter or lacks argument
tokens.  What the argument tokens are plays no part. -/
theorem ParseSVGString_path_error_iff {F : Type} [GoFloat F] (ge : GeoEnv F) (svg : String)
    (hlen : svg.utf8ByteSize ≤ 128) :
    ParseSVGString ge svg 0 = some ([], some (.InvalidShapeSvgStringError svg)) ↔
      ((stringsSplit svg).getD 0 "" ≠ "M" ∨
        commandsValid (stringsSplit svg) (stringsSplit svg).length 0 = false) := by
  have hle : ¬ svg.utf8ByteSize > maxSVGLen := by simp [maxSVGLen]; exact hlen
  have hs := parsePathLoop_isSome (F := F) (stringsSplit svg) (stringsSplit svg).length 0
    ⟨GoFloat.ofInt 0, GoFloat.ofInt 0⟩ ⟨GoFloat.ofInt 0, GoFloat.ofInt 0⟩ []
  simp only [ParseSVGString, hle, if_false, if_true, parseSVGPath]
  by_cases hM : (stringsSplit svg).getD 0 "" = "M"
  · rw [if_neg (by simpa using hM)]
    cases hp : parsePathLoop (F := F) (stringsSplit svg) (stringsSplit svg).length 0
      ⟨GoFloat.ofInt 0, GoFloat.ofInt 0⟩ ⟨GoFloat.ofInt 0, GoFloat.ofInt 0⟩ [] with
    | none =>
      rw [hp] at hs
      simp only [Option.isSome_none] at hs
      constructor
      · intro _; exact Or.inr hs.symm
      · intro _; rfl
    | some points =>
      rw [hp] at hs
      simp only [Option.isSome_some] at hs
      constructor
      · intro h
        exfalso
        cases hg : removeGroups ge ((removeDisconnectedPoints ge points).2.size + 1)
          (removeDisconnectedPoints ge points).2 with
        | none => simp [hg] at h
        | some groups => simp [hg] at h
      · intro h
        rcases h with h | h
        · exact absurd hM h
        · rw [h] at hs; cases hs
  · rw [if_pos hM]
    constructor
    · intro _; exact Or.inl hM
    · intro _; rfl

/-! ## Closed loops: the map the parser builds, and its tracing -/

theorem XR.FloatEQ_self (a : ℚ) : FloatEQ (XR.fin a) (XR.fin a) = true := by
  show XR.lt (XR.abs (XR.sub (XR.fin a) (XR.fin a))) (XR.fin (1 / 1000000)) = true
  simp [XR.sub, XR.neg, XR.add, XR.abs, XR.lt]

theorem KeySet.ne_of_Equals_false {F : Type} [GoFloat F] [DecidableEq F] {S : Point F → Prop}
    (hK : KeySet S) (p q : Point F) (hp : S p)
    (hne : p.Equals q = false) : p ≠ q := by
  intro hpq
  subst hpq
  rw [hK.Equals_self p hp] at hne
  cases hne

namespace AdjacencyMap

theorem get_eq_none_iff_on {F : Type} [GoFloat F] [DecidableEq F] {S : Point F → Prop}
    (hK : KeySet S) (M : AdjacencyMap F) (q : Point F)
    (hM : ∀ e ∈ M, S e.1) (hq : S q) : get M q = none ↔ q ∉ M.map Prod.fst := by
  induction M with
  | nil => simp [get]
  | cons e rest ih =>
    obtain ⟨k, v⟩ := e
    have hk : S k := hM (k, v) (List.mem_cons_self _ _)
    have ih2 := ih (fun e he => hM e (List.mem_cons_of_mem _ he))
    simp only [get, hK.keyEq_eq k q hk hq, List.map_cons, List.mem_cons, not_or]
    by_cases hkq : k = q
    · simp [hkq]
    · simp only [hkq, decide_False, Bool.false_eq_true, if_false, ih2]
      constructor
      · intro h; exact ⟨fun h2 => hkq h2.symm, h⟩
      · intro h; exact h.2

theorem get_set_self_on {F : Type} [GoFloat F] [DecidableEq F] {S : Point F → Prop}
    (hK : KeySet S) (M : AdjacencyMap F) (q : Point F)
    (v : List (Point F)) (hM : ∀ e ∈ M, S e.1) (hq : S q) :
    get (set M q v) q = some v := by
  induction M with
  | nil => simp [set, get, hK.keyEq_eq q q hq hq]
  | cons e rest ih =>
    obtain ⟨k, w⟩ := e
    have hk : S k := hM (k, w) (List.mem_cons_self _ _)
    have ih2 := ih (fun e he => hM e (List.mem_cons_of_mem _ he))
    simp only [set, hK.keyEq_eq k q hk hq]
    by_cases hkq : k = q
    · simp [hkq, get, hK.keyEq_eq q q hq hq]
    · simp [hkq, get, hK.keyEq_eq k q hk hq, ih2]

theorem get_set_ne_on {F : Type} [GoFloat F] [DecidableEq F] {S : Point F → Prop}
    (hK : KeySet S) (M : AdjacencyMap F) (q r : Point F)
    (v : List (Point F)) (hM : ∀ e ∈ M, S e.1) (hq : S q) (hr : S r) (hne : q ≠ r) :
    get (set M q v) r = get M r := by
  induction M with
  | nil => simp [set, get, hK.keyEq_eq q r hq hr, hne]
  | cons e rest ih =>
    obtain ⟨k, w⟩ := e
    have hk : S k := hM (k, w) (List.mem_cons_self _ _)
    have ih2 := ih (fun e he => hM e (List.mem_cons_of_mem _ he))
    simp only [set, hK.keyEq_eq k q hk hq]
    by_cases hkq : k = q
    · subst hkq
      simp [get, hK.keyEq_eq k r hk hr, hne]
    · simp only [hkq, decide_False, Bool.false_eq_true, if_false, get,
        hK.keyEq_eq k r hk hr, ih2]

theorem keys_set_on {F : Type} [GoFloat F] [DecidableEq F] {S : Point F → Prop}
    (hK : KeySet S) (M : AdjacencyMap F) (q : Point F) (v : List (Point F))
    (hM : ∀ e ∈ M, S e.1) (hq : S q) :
    (set M q v).map Prod.fst =
      if q ∈ M.map Prod.fst then M.map Prod.fst else M.map Prod.fst ++ [q] := by
  induction M with
  | nil => simp [set]
  | cons e rest ih =>
    obtain ⟨k, w⟩ := e
    have hk : S k := hM (k, w) (List.mem_cons_self _ _)
    have ih2 := ih (fun e he => hM e (List.mem_cons_of_mem _ he))
    simp only [set, hK.keyEq_eq k q hk hq]
    by_cases hkq : k = q
    · simp [hkq]
    · have hqk : ¬ q = k := fun h => hkq h.symm
      simp only [hkq, decide_False, Bool.false_eq_true, if_false, List.map_cons, ih2,
        List.mem_cons, hqk, false_or]
      split <;> simp

theorem get_of_mem_on {F : Type} [GoFloat F] [DecidableEq F] {S : Point F → Prop}
    (hK : KeySet S) (M : AdjacencyMap F) (hM : ∀ e ∈ M, S e.1)
    (hnd : (M.map Prod.fst).Nodup) (e : Point F × List (Point F)) (he : e ∈ M) :
    get M e.1 = some e.2 := by
  induction M with
  | nil => simp at he
  | cons e0 rest ih =>
    obtain ⟨k, w⟩ := e0
    have hk : S k := hM (k, w) (List.mem_cons_self _ _)
    simp only [List.map_cons, List.nodup_cons] at hnd
    simp only [get, hK.keyEq_eq k e.1 hk (hM e he)]
    rcases List.mem_cons.mp he with rfl | he2
    · simp
    · have : k ≠ e.1 := by
        intro h
        exact hnd.1 (h ▸ List.mem_map_of_mem _ he2)
      simp only [this, decide_False, Bool.false_eq_true, if_false]
      exact ih (fun e he => hM e (List.mem_cons_of_mem _ he)) hnd.2 he2

theorem keys_del_on {F : Type} [GoFloat F] [DecidableEq F] {S : Point F → Prop}
    (hK : KeySet S) (points : AdjacencyMap F) (p : Point F)
    (h : ∀ e ∈ points, S e.1) (hp : S p) :
    (AdjacencyMap.del points p).map Prod.fst = (points.map Prod.fst).erase p := by
  induction points with
  | nil => simp [AdjacencyMap.del]
  | cons e rest ih =>
    obtain ⟨q, qs⟩ := e
    have hq : S q := h (q, qs) (List.mem_cons_self _ _)
    have ih2 := ih (fun e he => h e (List.mem_cons_of_mem _ he))
    simp only [AdjacencyMap.del, hK.keyEq_eq q p hq hp, List.map_cons, List.erase_cons]
    by_cases hqp : q = p
    · simp [hqp]
    · simp [hqp, ih2]

theorem del_mem_on {F : Type} [GoFloat F] (points : AdjacencyMap F) (p : Point F)
    (P : Point F × List (Point F) → Prop) (h : ∀ e ∈ points, P e) :
    ∀ e ∈ AdjacencyMap.del points p, P e := by
  induction points with
  | nil => simp [AdjacencyMap.del]
  | cons e rest ih =>
    obtain ⟨q, qs⟩ := e
    simp only [AdjacencyMap.del]
    split
    · intro e he; exact h e (List.mem_cons_of_mem _ he)
    · intro e he
      rcases List.mem_cons.mp he with rfl | he
      · exact h _ (List.mem_cons_self _ _)
      · exact ih (fun e he => h e (List.mem_cons_of_mem _ he)) e he

theorem foldl_del_all_on {F : Type} [GoFloat F] [DecidableEq F] {S : Point F → Prop}
    (hK : KeySet S) (ks : List (Point F)) (points : AdjacencyMap F)
    (h : ∀ e ∈ points, S e.1) (hp : (points.map Prod.fst).Perm ks) :
    ks.foldl AdjacencyMap.del points = [] := by
  induction ks generalizing points with
  | nil =>
    have := hp.length_eq
    cases points with
    | nil => rfl
    | cons a b => simp at this
  | cons k ks ih =>
    simp only [List.foldl_cons]
    have hk : S k := by
      have : k ∈ points.map Prod.fst := hp.mem_iff.mpr (List.mem_cons_self _ _)
      obtain ⟨e, he, hek⟩ := List.mem_map.mp this
      rw [← hek]
      exact h e he
    apply ih
    · exact AdjacencyMap.del_mem_on points k _ h
    · rw [AdjacencyMap.keys_del_on hK points k h hk]
      have := hp.erase k
      simpa using this

end AdjacencyMap

theorem removeDisconnectedPoints_cleared_on {F : Type} [GoFloat F] [DecidableEq F] {S : Point F → Prop}
    (hK : KeySet S) (ge : GeoEnv F)
    (points : AdjacencyMap F) (h : ∀ e ∈ points, S e.1 ∧ e.2 = []) :
    (removeDisconnectedPoints ge points).2 = [] := by
  have hf : (ge.rangeOrder points).filter (fun e => decide (e.2.length = 0)) =
      ge.rangeOrder points := by
    rw [List.filter_eq_self]
    intro e he
    have := (h e ((ge.rangeOrder_perm points).mem_iff.mp he)).2
    simp [this]
  simp only [removeDisconnectedPoints, hf]
  exact AdjacencyMap.foldl_del_all_on hK _ points (fun e he => (h e he).1)
    ((ge.rangeOrder_perm points).map Prod.fst).symm

theorem removeGroups_cleared_on {F : Type} [GoFloat F] [DecidableEq F] {S : Point F → Prop}
    (hK : KeySet S) (ge : GeoEnv F) (fuel : Nat)
    (points : AdjacencyMap F) (h : ∀ e ∈ points, S e.1 ∧ e.2 = []) :
    removeGroups ge (fuel + 1) points = some [] := by
  simp [removeGroups, removeDisconnectedPoints_cleared_on hK ge points h]

theorem AdjacencyMap.size_pos_on {F : Type} (points : AdjacencyMap F) (hne : points ≠ [])
    (h : ∀ e ∈ points, e.2 ≠ []) : 0 < AdjacencyMap.size points := by
  cases points with
  | nil => exact absurd rfl hne
  | cons e rest =>
    have := h e (List.mem_cons_self _ _)
    have hl : 0 < e.2.length := List.length_pos.mpr this
    simp [AdjacencyMap.size]
    omega

/-- A description whose points are all connected and are used up by one
tracing, whatever its start: `parseSVGPath` returns one group, the trace from
the point the `range` loop gives first. -/
theorem parseSVGPath_one_trace {F : Type} [GoFloat F] [DecidableEq F] {S : Point F → Prop}
    (hK : KeySet S) (ge : GeoEnv F) (svg : String)
    (hM : (stringsSplit svg).getD 0 "" = "M")
    (hvalid : (parsePathLoop (F := F) (stringsSplit svg) (stringsSplit svg).length 0
      ⟨GoFloat.ofInt 0, GoFloat.ofInt 0⟩ ⟨GoFloat.ofInt 0, GoFloat.ofInt 0⟩ []).isSome = true)
    (hne : pathPoints F svg ≠ [])
    (hconn : ∀ e ∈ pathPoints F svg, e.2 ≠ [])
    (hclear : ∀ r ∈ traceStarts F svg, ∀ e ∈ r.2, S e.1 ∧ e.2 = []) :
    ∃ r ∈ traceStarts F svg,
      parseSVGPath ge svg = some ([Component.Group ⟨r.1⟩], none) := by
  obtain ⟨e, he, hhead⟩ := rangeOrder_head_mem ge (pathPoints F svg) hne
  refine ⟨removeGroup ((pathPoints F svg).size + 1) e.1 (pathPoints F svg), ?_, ?_⟩
  · exact List.mem_map.mpr ⟨e, he, rfl⟩
  · have hloop : parsePathLoop (F := F) (stringsSplit svg) (stringsSplit svg).length 0
        ⟨GoFloat.ofInt 0, GoFloat.ofInt 0⟩ ⟨GoFloat.ofInt 0, GoFloat.ofInt 0⟩ [] =
        some (pathPoints F svg) := by
      unfold pathPoints
      cases hp : parsePathLoop (F := F) (stringsSplit svg) (stringsSplit svg).length 0
        ⟨GoFloat.ofInt 0, GoFloat.ofInt 0⟩ ⟨GoFloat.ofInt 0, GoFloat.ofInt 0⟩ [] with
      | none => simp [hp] at hvalid
      | some m => rfl
    have hpos := AdjacencyMap.size_pos_on (pathPoints F svg) hne hconn
    obtain ⟨k, hk⟩ : ∃ k, AdjacencyMap.size (pathPoints F svg) = k + 1 :=
      ⟨_, (Nat.succ_pred_eq_of_pos hpos).symm⟩
    have hlen : (pathPoints F svg).length ≠ 0 := by
      intro h0; exact hne (List.length_eq_zero.mp h0)
    have hcl := hclear _ (List.mem_map.mpr ⟨e, he, rfl⟩)
    simp only [parseSVGPath, hM, ne_eq, not_true_eq_false, if_false, hloop,
      removeDisconnectedPoints_connected ge _ hconn]
    simp only [removeGroups, removeDisconnectedPoints_connected ge _ hconn, hlen, if_false,
      hhead, Option.map_some', Option.getD_some]
    rw [hk] at hcl ⊢
    rw [removeGroups_cleared_on hK ge k _ hcl]
    rfl

theorem removeGroup_step {F : Type} [GoFloat F] (fuel : Nat) (curr nx : Point F)
    (ns : List (Point F)) (M : AdjacencyMap F)
    (h : AdjacencyMap.get M curr = some (nx :: ns)) :
    removeGroup (fuel + 1) curr M =
      ((removeGroup fuel nx (AdjacencyMap.set (AdjacencyMap.set M curr ns) nx
          (removeNeighbour ((AdjacencyMap.get (AdjacencyMap.set M curr ns) nx).getD [])
            curr))).1 ++ [NewSegment nx curr],
        (removeGroup fuel nx (AdjacencyMap.set (AdjacencyMap.set M curr ns) nx
          (removeNeighbour ((AdjacencyMap.get (AdjacencyMap.set M curr ns) nx).getD [])
            curr))).2) := by
  simp [removeGroup, h, popNeighbour]

theorem removeGroup_done {F : Type} [GoFloat F] (fuel : Nat) (curr : Point F)
    (M : AdjacencyMap F) (h : AdjacencyMap.get M curr = some []) :
    removeGroup fuel curr M = ([], M) := by
  cases fuel with
  | zero => rfl
  | succ f => simp [removeGroup, h]

theorem removeNeighbour_single {F : Type} [GoFloat F] (a c : Point F) :
    removeNeighbour [a] c = [] := by
  simp [removeNeighbour, removeNeighbourIndex]

theorem removeNeighbour_first {F : Type} [GoFloat F] (b c : Point F)
    (h : c.Equals c = true) : removeNeighbour [c, b] c = [b] := by
  simp [removeNeighbour, removeNeighbourIndex, h]

theorem removeNeighbour_second {F : Type} [GoFloat F] (b c : Point F)
    (h : b.Equals c = false) : removeNeighbour [b, c] c = [b] := by
  simp [removeNeighbour, removeNeighbourIndex, h]

theorem mem_keys_of_get {F : Type} [GoFloat F] [DecidableEq F] {S : Point F → Prop}
    (hK : KeySet S) {M : AdjacencyMap F} {q : Point F}
    {v : List (Point F)} (hM : ∀ e ∈ M, S e.1) (hq : S q)
    (h : AdjacencyMap.get M q = some v) : q ∈ M.map Prod.fst := by
  by_contra hqn
  rw [(AdjacencyMap.get_eq_none_iff_on hK M q hM hq).mpr hqn] at h
  cases h

theorem keys_set_of_get {F : Type} [GoFloat F] [DecidableEq F] {S : Point F → Prop}
    (hK : KeySet S) {M : AdjacencyMap F} {q : Point F}
    {v w : List (Point F)} (hM : ∀ e ∈ M, S e.1) (hq : S q)
    (h : AdjacencyMap.get M q = some v) :
    (AdjacencyMap.set M q w).map Prod.fst = M.map Prod.fst := by
  rw [AdjacencyMap.keys_set_on hK M q w hM hq, if_pos (mem_keys_of_get hK hM hq h)]

theorem mem_of_keys_eq {F : Type} (S : Point F → Prop) {M M2 : AdjacencyMap F}
    (hM : ∀ e ∈ M, S e.1)
    (h : M2.map Prod.fst = M.map Prod.fst) : ∀ e ∈ M2, S e.1 := by
  intro e he
  have : e.1 ∈ M.map Prod.fst := h ▸ List.mem_map_of_mem _ he
  obtain ⟨e0, he0, h0⟩ := List.mem_map.mp this
  rw [← h0]; exact hM e0 he0

/-- Tracing along a path: from the first point of a path `v 0, ..., v (m+1)`
of distinct points whose neighbour lists hold the path and nothing else,
`removeGroup` returns the segments of the path, last one first, and leaves
the lists of the path empty. -/
theorem removeGroup_path {F : Type} [GoFloat F] [DecidableEq F] {S : Point F → Prop}
    (hK : KeySet S) (m : Nat) : ∀ (v : Nat → Point F)
    (M : AdjacencyMap F) (fuel : Nat), m + 1 ≤ fuel → (∀ e ∈ M, S e.1) →
    (∀ j ≤ m + 1, S (v j)) →
    (∀ i ≤ m + 1, ∀ j ≤ m + 1, i ≠ j → (v i).Equals (v j) = false) →
    AdjacencyMap.get M (v 0) = some [v 1] →
    (∀ j, 0 < j → j < m + 1 → AdjacencyMap.get M (v j) = some [v (j - 1), v (j + 1)] ∨
      AdjacencyMap.get M (v j) = some [v (j + 1), v (j - 1)]) →
    AdjacencyMap.get M (v (m + 1)) = some [v m] →
    (removeGroup fuel (v 0) M).1 =
        (List.range (m + 1)).reverse.map (fun j => NewSegment (v (j + 1)) (v j)) ∧
      (∀ j ≤ m + 1, AdjacencyMap.get (removeGroup fuel (v 0) M).2 (v j) = some []) ∧
      (∀ q, S q → (∀ j ≤ m + 1, q ≠ v j) →
        AdjacencyMap.get (removeGroup fuel (v 0) M).2 q = AdjacencyMap.get M q) ∧
      (removeGroup fuel (v 0) M).2.map Prod.fst = M.map Prod.fst := by
  induction m with
  | zero =>
    intro v M fuel hfuel hM hvfin hinj h0 _ hlast
    obtain ⟨f, rfl⟩ : ∃ f, fuel = f + 1 := ⟨fuel - 1, by omega⟩
    have hv0 : S (v 0) := hvfin 0 (by omega)
    have hv1 : S (v 1) := hvfin 1 (by omega)
    have hne01 : v 0 ≠ v 1 :=
      hK.ne_of_Equals_false _ _ hv0 (hinj 0 (by omega) 1 (by omega) (by omega))
    have hM1 : ∀ e ∈ AdjacencyMap.set M (v 0) [], S e.1 :=
      mem_of_keys_eq S hM (keys_set_of_get hK hM hv0 h0)
    have hg1 : AdjacencyMap.get (AdjacencyMap.set M (v 0) []) (v 1) = some [v 0] := by
      rw [AdjacencyMap.get_set_ne_on hK M _ _ _ hM hv0 hv1 hne01]
      simpa using hlast
    rw [removeGroup_step f (v 0) (v 1) [] M h0]
    simp only [hg1, Option.getD_some, removeNeighbour_single]
    have hg2 : AdjacencyMap.get
        (AdjacencyMap.set (AdjacencyMap.set M (v 0) []) (v 1) []) (v 1) = some [] :=
      AdjacencyMap.get_set_self_on hK _ _ _ hM1 hv1
    rw [removeGroup_done f (v 1) _ hg2]
    refine ⟨by simp [List.range_succ], ?_, ?_, ?_⟩
    · intro j hj
      have hj2 : j = 0 ∨ j = 1 := by omega
      rcases hj2 with rfl | rfl
      · simp only []
        rw [AdjacencyMap.get_set_ne_on hK _ _ _ _ hM1 hv1 hv0 hne01.symm]
        exact AdjacencyMap.get_set_self_on hK _ _ _ hM hv0
      · exact hg2
    · intro q hqS hq
      simp only []
      rw [AdjacencyMap.get_set_ne_on hK _ _ _ _ hM1 hv1 hqS (hq 1 (by omega)).symm,
        AdjacencyMap.get_set_ne_on hK _ _ _ _ hM hv0 hqS (hq 0 (by omega)).symm]
    · simp only []
      rw [keys_set_of_get hK hM1 hv1 hg1, keys_set_of_get hK hM hv0 h0]
  | succ m ih =>
    intro v M fuel hfuel hM hvfin hinj h0 hmid hlast
    obtain ⟨f, rfl⟩ : ∃ f, fuel = f + 1 := ⟨fuel - 1, by omega⟩
    have hv0 : S (v 0) := hvfin 0 (by omega)
    have hv1 : S (v 1) := hvfin 1 (by omega)
    have hne : ∀ i ≤ m + 2, ∀ j ≤ m + 2, i ≠ j → v i ≠ v j := fun i hi j hj hij =>
      hK.ne_of_Equals_false _ _ (hvfin i hi) (hinj i hi j hj hij)
    have hM1 : ∀ e ∈ AdjacencyMap.set M (v 0) [], S e.1 :=
      mem_of_keys_eq S hM (keys_set_of_get hK hM hv0 h0)
    have hmid1 := hmid 1 (by omega) (by omega)
    simp only [Nat.sub_self, show 1 + 1 = 2 from rfl] at hmid1
    have hg1 : AdjacencyMap.get (AdjacencyMap.set M (v 0) []) (v 1) =
        AdjacencyMap.get M (v 1) :=
      AdjacencyMap.get_set_ne_on hK M _ _ _ hM hv0 hv1
        (hne 0 (by omega) 1 (by omega) (by omega))
    have hrem : removeNeighbour
        ((AdjacencyMap.get (AdjacencyMap.set M (v 0) []) (v 1)).getD []) (v 0) = [v 2] := by
      rw [hg1]
      rcases hmid1 with h | h
      · rw [h]
        exact removeNeighbour_first _ _ (hK.Equals_self _ hv0)
      · rw [h]
        exact removeNeighbour_second _ _ (hinj 2 (by omega) 0 (by omega) (by omega))
    rw [removeGroup_step f (v 0) (v 1) [] M h0, hrem]
    have hsome1 : ∃ w, AdjacencyMap.get (AdjacencyMap.set M (v 0) []) (v 1) = some w := by
      rw [hg1]; rcases hmid1 with h | h <;> exact ⟨_, h⟩
    obtain ⟨w1, hw1⟩ := hsome1
    have hM2 : ∀ e ∈ AdjacencyMap.set (AdjacencyMap.set M (v 0) []) (v 1) [v 2],
        S e.1 := mem_of_keys_eq S hM1 (keys_set_of_get hK hM1 hv1 hw1)
    have hget2 : ∀ q, S q → q ≠ v 0 → q ≠ v 1 →
        AdjacencyMap.get (AdjacencyMap.set (AdjacencyMap.set M (v 0) []) (v 1) [v 2]) q =
          AdjacencyMap.get M q := by
      intro q hqS hq0 hq1
      rw [AdjacencyMap.get_set_ne_on hK _ _ _ _ hM1 hv1 hqS hq1.symm,
        AdjacencyMap.get_set_ne_on hK _ _ _ _ hM hv0 hqS hq0.symm]
    have IH := ih (fun j => v (j + 1))
      (AdjacencyMap.set (AdjacencyMap.set M (v 0) []) (v 1) [v 2]) f (by omega) hM2
      (fun j hj => hvfin (j + 1) (by omega))
      (fun i hi j hj hij => hinj (i + 1) (by omega) (j + 1) (by omega) (by omega))
      (AdjacencyMap.get_set_self_on hK _ _ _ hM1 hv1)
      (by
        intro j hj0 hjm
        have h := hmid (j + 1) (by omega) (by omega)
        rw [hget2 _ (hvfin (j + 1) (by omega)) (hne (j + 1) (by omega) 0 (by omega) (by omega))
          (hne (j + 1) (by omega) 1 (by omega) (by omega))]
        simp only [Nat.add_sub_cancel] at h
        have e1 : j - 1 + 1 = j := by omega
        simp only [e1]
        exact h)
      (by
        rw [hget2 _ (hvfin (m + 2) (by omega)) (hne (m + 2) (by omega) 0 (by omega) (by omega))
          (hne (m + 2) (by omega) 1 (by omega) (by omega))]
        exact hlast)
    obtain ⟨ih1, ih2, ih3, ih4⟩ := IH
    refine ⟨?_, ?_, ?_, ?_⟩
    · simp only []
      rw [ih1, List.range_succ_eq_map (m + 1), List.reverse_cons, List.map_append,
        List.map_reverse, List.map_reverse, List.map_map]
      rfl
    · intro j hj
      simp only []
      rcases Nat.eq_zero_or_pos j with rfl | hpos
      · rw [ih3 (v 0) hv0 (fun i hi => hne 0 (by omega) (i + 1) (by omega) (by omega))]
        rw [AdjacencyMap.get_set_ne_on hK _ _ _ _ hM1 hv1 hv0
          (hne 1 (by omega) 0 (by omega) (by omega))]
        exact AdjacencyMap.get_set_self_on hK _ _ _ hM hv0
      · have := ih2 (j - 1) (by omega)
        simp only [show j - 1 + 1 = j by omega] at this
        exact this
    · intro q hqS hq
      simp only []
      rw [ih3 q hqS (fun i hi => hq (i + 1) (by omega))]
      exact hget2 q hqS (hq 0 (by omega)) (hq 1 (by omega))
    · simp only []
      rw [ih4, keys_set_of_get hK hM1 hv1 hw1, keys_set_of_get hK hM hv0 h0]

theorem linked_range_reverse {F : Type} [DecidableEq F] (f : Nat → Segment F) (n : Nat)
    (h : ∀ j, j + 1 < n → (f (j + 1)).PEnd = (f j).PStart) :
    linked ((List.range n).reverse.map f) = true := by
  induction n with
  | zero => rfl
  | succ n ih =>
    cases n with
    | zero => rfl
    | succ k =>
      have ih2 := ih (fun j hj => h j (by omega))
      rw [List.range_succ, List.reverse_append, List.reverse_singleton, List.singleton_append,
        List.map_cons]
      rw [List.range_succ, List.reverse_append, List.reverse_singleton, List.singleton_append,
        List.map_cons] at ih2 ⊢
      simp only [linked, Bool.and_eq_true, decide_eq_true_eq]
      exact ⟨h k (by omega), ih2⟩

theorem closedChain_range_reverse {F : Type} [DecidableEq F]
    (f : Nat → Segment F) (n : Nat) (hn : 0 < n)
    (h : ∀ j, j + 1 < n → (f (j + 1)).PEnd = (f j).PStart)
    (hclose : (f 0).PEnd = (f (n - 1)).PStart) :
    closedChain ((List.range n).reverse.map f) = true := by
  obtain ⟨k, rfl⟩ : ∃ k, n = k + 1 := ⟨n - 1, by omega⟩
  have hl := linked_range_reverse f (k + 1) h
  have hhead : ((List.range (k + 1)).reverse.map f).head? = some (f k) := by
    rw [List.range_succ, List.reverse_append]; rfl
  have hlast : ((List.range (k + 1)).reverse.map f).getLast? = some (f 0) := by
    rw [List.range_succ_eq_map, List.reverse_cons, List.map_append]
    simp
  simp only [closedChain, hhead, hlast, hl, Bool.true_and, decide_eq_true_eq]
  simpa using hclose

/-- Tracing around a cycle: from a point `w 0` of a cycle `w 0, ..., w (n-1)`
of distinct points, whose neighbour lists hold the two neighbours on the
cycle and the list of `w 0` starts with `w 1`, `removeGroup` returns `n`
segments that form a closed chain, and leaves the lists of the cycle empty. -/
theorem removeGroup_cycle {F : Type} [GoFloat F] [DecidableEq F] {S : Point F → Prop}
    (hK : KeySet S) (n : Nat) (hn : 3 ≤ n) (w : Nat → Point F)
    (M : AdjacencyMap F) (fuel : Nat) (hfuel : n ≤ fuel) (hM : ∀ e ∈ M, S e.1)
    (hwfin : ∀ i < n, S (w i))
    (hinj : ∀ i < n, ∀ j < n, i ≠ j → (w i).Equals (w j) = false)
    (h0 : AdjacencyMap.get M (w 0) = some [w 1, w (n - 1)])
    (hmid : ∀ i, 0 < i → i < n - 1 → AdjacencyMap.get M (w i) = some [w (i - 1), w (i + 1)] ∨
      AdjacencyMap.get M (w i) = some [w (i + 1), w (i - 1)])
    (hlast : AdjacencyMap.get M (w (n - 1)) = some [w (n - 2), w 0] ∨
      AdjacencyMap.get M (w (n - 1)) = some [w 0, w (n - 2)]) :
    (removeGroup fuel (w 0) M).1.length = n ∧
      closedChain (removeGroup fuel (w 0) M).1 = true ∧
      (∀ i < n, AdjacencyMap.get (removeGroup fuel (w 0) M).2 (w i) = some []) ∧
      (removeGroup fuel (w 0) M).2.map Prod.fst = M.map Prod.fst := by
  obtain ⟨f, rfl⟩ : ∃ f, fuel = f + 1 := ⟨fuel - 1, by omega⟩
  have hw0S : S (w 0) := hwfin 0 (by omega)
  have hw1S : S (w 1) := hwfin 1 (by omega)
  have hne : ∀ i < n, ∀ j < n, i ≠ j → w i ≠ w j := fun i hi j hj hij =>
    hK.ne_of_Equals_false _ _ (hwfin i hi) (hinj i hi j hj hij)
  have hM1 : ∀ e ∈ AdjacencyMap.set M (w 0) [w (n - 1)], S e.1 :=
    mem_of_keys_eq S hM (keys_set_of_get hK hM hw0S h0)
  have hmid1 := hmid 1 (by omega) (by omega)
  simp only [Nat.sub_self, show 1 + 1 = 2 from rfl] at hmid1
  have hg1 : AdjacencyMap.get (AdjacencyMap.set M (w 0) [w (n - 1)]) (w 1) =
      AdjacencyMap.get M (w 1) :=
    AdjacencyMap.get_set_ne_on hK M _ _ _ hM hw0S hw1S
      (hne 0 (by omega) 1 (by omega) (by omega))
  have hrem : removeNeighbour
      ((AdjacencyMap.get (AdjacencyMap.set M (w 0) [w (n - 1)]) (w 1)).getD []) (w 0) =
      [w 2] := by
    rw [hg1]
    rcases hmid1 with h | h
    · rw [h]
      exact removeNeighbour_first _ _ (hK.Equals_self _ hw0S)
    · rw [h]
      exact removeNeighbour_second _ _ (hinj 2 (by omega) 0 (by omega) (by omega))
  rw [removeGroup_step f (w 0) (w 1) [w (n - 1)] M h0, hrem]
  obtain ⟨w1, hw1⟩ : ∃ x, AdjacencyMap.get (AdjacencyMap.set M (w 0) [w (n - 1)]) (w 1) =
      some x := by
    rw [hg1]; rcases hmid1 with h | h <;> exact ⟨_, h⟩
  have hM2 : ∀ e ∈ AdjacencyMap.set (AdjacencyMap.set M (w 0) [w (n - 1)]) (w 1) [w 2],
      S e.1 := mem_of_keys_eq S hM1 (keys_set_of_get hK hM1 hw1S hw1)
  have hget2 : ∀ q, S q → q ≠ w 0 → q ≠ w 1 →
      AdjacencyMap.get (AdjacencyMap.set (AdjacencyMap.set M (w 0) [w (n - 1)]) (w 1)
        [w 2]) q = AdjacencyMap.get M q := by
    intro q hqS hq0 hq1
    rw [AdjacencyMap.get_set_ne_on hK _ _ _ _ hM1 hw1S hqS hq1.symm,
      AdjacencyMap.get_set_ne_on hK _ _ _ _ hM hw0S hqS hq0.symm]
  -- the path w 1, ..., w (n-1), w 0
  obtain ⟨v, hv, hvn⟩ : ∃ v : Nat → Point F,
      (∀ j, j + 1 < n → v j = w (j + 1)) ∧ v (n - 1) = w 0 := by
    refine ⟨fun j => if j + 1 < n then w (j + 1) else w 0, ?_, ?_⟩
    · intro j hj; simp [hj]
    · have : ¬ (n - 1 + 1 < n) := by omega
      simp [this]
  have hvfin : ∀ j ≤ n - 2 + 1, S (v j) := by
    intro j hj
    by_cases h : j + 1 < n
    · rw [hv j h]; exact hwfin _ h
    · have : j = n - 1 := by omega
      rw [this, hvn]; exact hw0S
  have hvinj : ∀ i ≤ n - 2 + 1, ∀ j ≤ n - 2 + 1, i ≠ j → (v i).Equals (v j) = false := by
    intro i hi j hj hij
    by_cases h1 : i + 1 < n <;> by_cases h2 : j + 1 < n
    · rw [hv i h1, hv j h2]; exact hinj _ h1 _ h2 (by omega)
    · have : j = n - 1 := by omega
      rw [hv i h1, this, hvn]; exact hinj _ h1 _ (by omega) (by omega)
    · have : i = n - 1 := by omega
      rw [hv j h2, this, hvn]; exact hinj _ (by omega) _ h2 (by omega)
    · omega
  have T := removeGroup_path hK (n - 2) v
    (AdjacencyMap.set (AdjacencyMap.set M (w 0) [w (n - 1)]) (w 1) [w 2]) f (by omega) hM2
    hvfin hvinj
    (by
      rw [hv 0 (by omega), hv 1 (by omega)]
      exact AdjacencyMap.get_set_self_on hK _ _ _ hM1 hw1S)
    (by
      intro j hj0 hjm
      have ej : j + 1 < n := by omega
      have hjm1 : v (j - 1) = w j := by
        rw [hv (j - 1) (by omega)]
        congr 1; omega
      rw [hv j ej, hjm1]
      rw [hget2 _ (hwfin (j + 1) ej) (hne (j + 1) ej 0 (by omega) (by omega))
        (hne (j + 1) ej 1 (by omega) (by omega))]
      by_cases hend : j + 1 + 1 < n
      · rw [hv (j + 1) hend]
        have h := hmid (j + 1) (by omega) (by omega)
        simpa using h
      · have e : j + 1 = n - 1 := by omega
        have e2 : j = n - 2 := by omega
        rw [e, hvn, e2]
        exact hlast)
    (by
      rw [show n - 2 + 1 = n - 1 by omega, hvn]
      rw [AdjacencyMap.get_set_ne_on hK _ _ _ _ hM1 hw1S hw0S
        (hne 1 (by omega) 0 (by omega) (by omega))]
      rw [AdjacencyMap.get_set_self_on hK _ _ _ hM hw0S]
      rw [hv (n - 2) (by omega), show n - 2 + 1 = n - 1 by omega])
  rw [hv 0 (by omega)] at T
  obtain ⟨t1, t2, _, t4⟩ := T
  obtain ⟨u, hu0, hu⟩ : ∃ u : Nat → Point F, u 0 = w 0 ∧ ∀ j, u (j + 1) = v j :=
    ⟨fun j => if j = 0 then w 0 else v (j - 1), by simp, by intro j; simp⟩
  have hall : (removeGroup f (w 1)
        (AdjacencyMap.set (AdjacencyMap.set M (w 0) [w (n - 1)]) (w 1) [w 2])).1 ++
        [NewSegment (w 1) (w 0)] =
      (List.range n).reverse.map (fun j => NewSegment (u (j + 1)) (u j)) := by
    rw [t1]
    have hn1 : n = (n - 2 + 1) + 1 := by omega
    conv_rhs => rw [hn1, List.range_succ_eq_map, List.reverse_cons, List.map_append]
    congr 1
    · rw [← List.map_reverse, List.map_map]
      apply List.map_congr_left
      intro j _
      simp [Function.comp, hu]
    · simp [hu, hu0, hv 0 (by omega)]
  have hun : u n = w 0 := by
    have := hu (n - 1)
    rw [show n - 1 + 1 = n by omega, hvn] at this
    exact this
  refine ⟨?_, ?_, ?_, ?_⟩
  · simp only []
    rw [hall]
    simp
  · simp only []
    rw [hall]
    apply closedChain_range_reverse _ n (by omega)
    · intro j hj
      simp [NewSegment]
    · have e : n - 1 + 1 = n := by omega
      simp [NewSegment, e, hun, hu0]
  · intro i hi
    simp only []
    rcases Nat.eq_zero_or_pos i with rfl | hpos
    · have := t2 (n - 1) (by omega)
      rw [hvn] at this
      exact this
    · have := t2 (i - 1) (by omega)
      rw [hv (i - 1) (by omega), show i - 1 + 1 = i by omega] at this
      exact this
  · simp only []
    rw [t4, keys_set_of_get hK hM1 hw1S hw1, keys_set_of_get hK hM hw0S h0]

/-! ## Closed loops: the parse -/

theorem getD_append_add {A : Type} (pre suf : List A) (j : Nat) (d : A) :
    (pre ++ suf).getD (pre.length + j) d = suf.getD j d := by
  induction pre with
  | nil => simp
  | cons a rest ih =>
    rw [List.cons_append, List.length_cons, show rest.length + 1 + j = (rest.length + j) + 1 by omega,
      List.getD_cons_succ]
    exact ih

theorem createPoint_absolute {F : Type} [GoFloat F] (xStr yStr : String) (x y : F)
    (prev : Point F) (hx : xStr ≠ "") (hy : yStr ≠ "")
    (hpx : GoFloat.ParseFloat xStr = (x, true)) (hpy : GoFloat.ParseFloat yStr = (y, true)) :
    createPoint xStr yStr false prev = ⟨x, y⟩ := by
  simp [createPoint, hx, hy, hpx, hpy]

theorem parseCommand_L {F : Type} [GoFloat F] (tokens : List String) (i : Nat)
    (prev lastM : Point F) (htok : tokens.getD i "" = "L") (hlen : i + 2 < tokens.length) :
    parseCommand tokens i prev lastM =
      ⟨createPoint (tokens.getD (i + 1) "") (tokens.getD (i + 2) "") false prev, 2, true, true,
        lastM⟩ := by
  have h1 : ¬ ("L" = "Z" ∨ "L" = "z") := by decide
  have h2 : ¬ ("L" = "M" ∨ "L" = "m") := by decide
  have h3 : decide (String.mk ("L".data.map Char.toLower) = "L") = false := by decide
  simp only [parseCommand, htok, h1, h2, h3, if_false, true_or, if_true, hlen]

theorem parseCommand_M {F : Type} [GoFloat F] (tokens : List String) (i : Nat)
    (prev lastM : Point F) (htok : tokens.getD i "" = "M") (hlen : i + 2 < tokens.length) :
    parseCommand tokens i prev lastM =
      ⟨createPoint (tokens.getD (i + 1) "") (tokens.getD (i + 2) "") false prev, 2, false, true,
        createPoint (tokens.getD (i + 1) "") (tokens.getD (i + 2) "") false prev⟩ := by
  have h1 : ¬ ("M" = "Z" ∨ "M" = "z") := by decide
  have h3 : decide (String.mk ("M".data.map Char.toLower) = "M") = false := by decide
  simp only [parseCommand, htok, h1, h3, if_false, true_or, if_true, hlen]

theorem parseCommand_Z {F : Type} [GoFloat F] (tokens : List String) (i : Nat)
    (prev lastM : Point F) (htok : tokens.getD i "" = "Z") :
    parseCommand tokens i prev lastM = ⟨lastM, 0, true, true, lastM⟩ := by
  simp only [parseCommand, htok, true_or, if_true]

theorem loopRest_length (xs ys : Nat → String) (k c : Nat) :
    (loopRest xs ys k c).length = 3 * c + 1 := by
  induction c generalizing k with
  | zero => rfl
  | succ c ih => simp [loopRest, ih]; omega

theorem parsePathLoop_step {F : Type} [GoFloat F] (tokens : List String) (fuel i : Nat)
    (prev lastM : Point F) (M : AdjacencyMap F) (cmd : Command F)
    (hi : i < tokens.length) (hcmd : parseCommand tokens i prev lastM = cmd)
    (hvalid : cmd.valid = true) (hneq : prev.Equals cmd.new = false) :
    parsePathLoop tokens (fuel + 1) i prev lastM M =
      parsePathLoop tokens fuel (i + cmd.offset + 1) cmd.new cmd.lastM
        (addPoint M prev cmd.new cmd.connected) := by
  simp [parsePathLoop, hi, hcmd, hvalid, hneq]

theorem parsePathLoop_end {F : Type} [GoFloat F] (tokens : List String) (fuel i : Nat)
    (prev lastM : Point F) (M : AdjacencyMap F) (hi : tokens.length ≤ i) :
    parsePathLoop tokens fuel i prev lastM M = some M := by
  cases fuel with
  | zero => rfl
  | succ f =>
    have : ¬ i < tokens.length := by omega
    simp [parsePathLoop, this]

theorem parsePathLoop_skip {F : Type} [GoFloat F] (tokens : List String) (fuel i : Nat)
    (prev lastM : Point F) (M : AdjacencyMap F) (cmd : Command F)
    (hi : i < tokens.length) (hcmd : parseCommand tokens i prev lastM = cmd)
    (hvalid : cmd.valid = true) (heq : prev.Equals cmd.new = true) :
    parsePathLoop tokens (fuel + 1) i prev lastM M =
      parsePathLoop tokens fuel (i + cmd.offset + 1) prev cmd.lastM M := by
  simp [parsePathLoop, hi, hcmd, hvalid, heq]

/-- The points of a loop whose vertices are told apart form a set on which
`==` is equality. -/
theorem distinctVertices_keySet {F : Type} [GoFloat F] [DecidableEq F] (p : Nat → Point F)
    (n : Nat) (hd : distinctVertices p n) : KeySet (fun a => ∃ i < n, a = p i) := by
  constructor
  · rintro a b ⟨i, hi, rfl⟩ ⟨j, hj, rfl⟩
    by_cases hij : i = j
    · subst hij
      simp [(hd i hi i hi).2]
    · have hne : p i ≠ p j := by
        intro h
        have h1 := (hd i hi j hj).2
        have h2 := (hd i hi i hi).2
        rw [← h, h2] at h1
        simp [hij] at h1
      simp [(hd i hi j hj).2, hij, hne]
  · rintro a ⟨i, hi, rfl⟩
    simp [(hd i hi i hi).1]

theorem distinctVertices_ne {F : Type} [GoFloat F] (p : Nat → Point F) (n : Nat)
    (hd : distinctVertices p n) : ∀ i < n, ∀ j < n, i ≠ j → p i ≠ p j := by
  intro i hi j hj hij h
  have h1 := (hd i hi j hj).2
  have h2 := (hd i hi i hi).2
  rw [← h, h2] at h1
  simp [hij] at h1

theorem distinctVertices_Equals {F : Type} [GoFloat F] (p : Nat → Point F) (n : Nat)
    (hd : distinctVertices p n) : ∀ i < n, ∀ j < n, i ≠ j → (p i).Equals (p j) = false := by
  intro i hi j hj hij
  simp [(hd i hi j hj).1, hij]

theorem chainNeighbours_stable {F : Type} (p : Nat → Point F) (k i : Nat) (h : i + 1 < k) :
    chainNeighbours p (k + 1) i = chainNeighbours p k i := by
  have h2 : i + 1 < k + 1 := by omega
  simp [chainNeighbours, h, h2]

theorem ChainTable_first {F : Type} [GoFloat F] (p : Nat → Point F) (n : Nat)
    (hd : distinctVertices p n) (hn : 0 < n) :
    ChainTable p 1 (addPoint [] ⟨GoFloat.ofInt 0, GoFloat.ofInt 0⟩ (p 0) false) := by
  constructor
  · simp [addPoint, AdjacencyMap.get, AdjacencyMap.set, List.range_succ]
  · intro i hi
    have : i = 0 := by omega
    subst this
    simp [addPoint, AdjacencyMap.get, AdjacencyMap.set, chainNeighbours, (hd 0 hn 0 hn).2]

/-- When the first vertex is the origin itself it is not entered by the
command `M`; the first command `L` enters the second vertex and then the
first. -/
theorem ChainTable_second {F : Type} [GoFloat F] (p : Nat → Point F) (n : Nat)
    (hd : distinctVertices p n) (hn : 1 < n) :
    ChainTable p 2 (addPoint [] (p 0) (p 1) true) := by
  have h00 := (hd 0 (by omega) 0 (by omega)).2
  have h11 := (hd 1 hn 1 hn).2
  have h10 := (hd 1 hn 0 (by omega)).2
  have h01 := (hd 0 (by omega) 1 hn).2
  simp only [decide_True, show ¬ (1 = 0) by omega, show ¬ (0 = 1) by omega, decide_False]
    at h00 h11 h10 h01
  have hform : addPoint [] (p 0) (p 1) true = [(p 1, [p 0]), (p 0, [p 1])] := by
    simp [addPoint, AdjacencyMap.get, AdjacencyMap.set, h11, h10]
  rw [hform]
  constructor
  · simp only [List.map_cons, List.map_nil, List.range_succ, List.range_zero, List.nil_append,
      List.cons_append]
    exact List.Perm.swap _ _ _
  · intro i hi
    have hi2 : i = 0 ∨ i = 1 := by omega
    rcases hi2 with rfl | rfl
    · simp [AdjacencyMap.get, h10, h00, chainNeighbours]
    · simp [AdjacencyMap.get, h11, chainNeighbours]

theorem ChainTable_mem {F : Type} [GoFloat F] (p : Nat → Point F) (n : Nat) {k : Nat} {M : AdjacencyMap F} (hk : k ≤ n)
    (h : ChainTable p k M) : ∀ e ∈ M, ∃ i < n, e.1 = p i := by
  intro e he
  have : e.1 ∈ (List.range k).map p := h.1.mem_iff.mp (List.mem_map_of_mem _ he)
  obtain ⟨i, hi, hie⟩ := List.mem_map.mp this
  exact ⟨i, by have := List.mem_range.mp hi; omega, hie.symm⟩

theorem not_mem_range_map {F : Type} [GoFloat F] (p : Nat → Point F) (n : Nat)
    (hd : distinctVertices p n) (k : Nat) (hk : k < n) :
    p k ∉ (List.range k).map p := by
  intro h
  obtain ⟨i, hi, hik⟩ := List.mem_map.mp h
  have hi2 := List.mem_range.mp hi
  exact distinctVertices_ne p n hd i (by omega) k hk (by omega) hik

theorem ChainTable_step {F : Type} [GoFloat F] [DecidableEq F] (p : Nat → Point F) (n : Nat)
    (hd : distinctVertices p n)
    (k : Nat) (hk1 : 1 ≤ k) (hkn : k < n) (M : AdjacencyMap F) (h : ChainTable p k M) :
    ChainTable p (k + 1) (addPoint M (p (k - 1)) (p k) true) := by
  have hK := distinctVertices_keySet p n hd
  have hM := ChainTable_mem p n (by omega) h
  have hne := distinctVertices_ne p n hd
  have hS : ∀ i, i < n → ∃ j < n, p i = p j := fun i hi => ⟨i, hi, rfl⟩
  have hnotin : p k ∉ M.map Prod.fst := by
    intro hmem
    exact not_mem_range_map p n hd k hkn (h.1.mem_iff.mp hmem)
  have hk0 := hS k hkn
  have hkm := hS (k - 1) (by omega)
  have hnone : AdjacencyMap.get M (p k) = none :=
    (AdjacencyMap.get_eq_none_iff_on hK M _ hM hk0).mpr hnotin
  -- the three assignments
  have hkeys1 : ((AdjacencyMap.set M (p k) []).map Prod.fst).Perm
      ((List.range (k + 1)).map p) := by
    rw [AdjacencyMap.keys_set_on hK M _ _ hM hk0, if_neg hnotin, List.range_succ,
      List.map_append]
    exact List.Perm.append_right _ h.1
  have hM1 : ∀ e ∈ AdjacencyMap.set M (p k) [], ∃ i < n, e.1 = p i := by
    intro e he
    have : e.1 ∈ (List.range (k + 1)).map p := hkeys1.mem_iff.mp (List.mem_map_of_mem _ he)
    obtain ⟨i, hi, hie⟩ := List.mem_map.mp this
    exact ⟨i, by have := List.mem_range.mp hi; omega, hie.symm⟩
  have hg1 : AdjacencyMap.get (AdjacencyMap.set M (p k) []) (p k) = some [] :=
    AdjacencyMap.get_set_self_on hK _ _ _ hM hk0
  have hM2 : ∀ e ∈ AdjacencyMap.set (AdjacencyMap.set M (p k) []) (p k) [p (k - 1)],
      ∃ i < n, e.1 = p i := mem_of_keys_eq (fun a => ∃ i < n, a = p i) hM1 (keys_set_of_get hK hM1 hk0 hg1)
  have hgprev : AdjacencyMap.get
      (AdjacencyMap.set (AdjacencyMap.set M (p k) []) (p k) [p (k - 1)]) (p (k - 1)) =
      some (chainNeighbours p k (k - 1)) := by
    rw [AdjacencyMap.get_set_ne_on hK _ _ _ _ hM1 hk0 hkm
        (hne k hkn (k - 1) (by omega) (by omega)),
      AdjacencyMap.get_set_ne_on hK _ _ _ _ hM hk0 hkm
        (hne k hkn (k - 1) (by omega) (by omega))]
    exact h.2 (k - 1) (by omega)
  have hform : addPoint M (p (k - 1)) (p k) true =
      AdjacencyMap.set (AdjacencyMap.set (AdjacencyMap.set M (p k) []) (p k) [p (k - 1)])
        (p (k - 1)) (chainNeighbours p k (k - 1) ++ [p k]) := by
    simp [addPoint, hnone, hg1, hgprev]
  rw [hform]
  constructor
  · rw [keys_set_of_get hK hM2 hkm hgprev, keys_set_of_get hK hM1 hk0 hg1]
    exact hkeys1
  · intro i hi
    by_cases hik : i = k
    · subst hik
      rw [AdjacencyMap.get_set_ne_on hK _ _ _ _ hM2 hkm hk0
        (hne (i - 1) (by omega) i hkn (by omega))]
      rw [AdjacencyMap.get_set_self_on hK _ _ _ hM1 hk0]
      have h1 : 0 < i := by omega
      simp [chainNeighbours, h1]
    · by_cases hik1 : i = k - 1
      · subst hik1
        rw [AdjacencyMap.get_set_self_on hK _ _ _ hM2 hkm]
        have e1 : ¬ (k - 1 + 1 < k) := by omega
        have e2 : k - 1 + 1 < k + 1 := by omega
        have e3 : k - 1 + 1 = k := by omega
        simp [chainNeighbours, e1, e2, e3]
      · have hi2 : i + 1 < k := by omega
        have hiS := hS i (by omega)
        rw [AdjacencyMap.get_set_ne_on hK _ _ _ _ hM2 hkm hiS
          (hne (k - 1) (by omega) i (by omega) (by omega)),
          AdjacencyMap.get_set_ne_on hK _ _ _ _ hM1 hk0 hiS (hne k hkn i (by omega) (by omega)),
          AdjacencyMap.get_set_ne_on hK _ _ _ _ hM hk0 hiS (hne k hkn i (by omega) (by omega)),
          chainNeighbours_stable p k i hi2]
        exact h.2 i (by omega)

theorem CycleTable_close {F : Type} [GoFloat F] [DecidableEq F] (p : Nat → Point F) (n : Nat)
    (hn : 3 ≤ n) (hd : distinctVertices p n)
    (M : AdjacencyMap F) (h : ChainTable p n M) :
    CycleTable p n (addPoint M (p (n - 1)) (p 0) true) := by
  have hK := distinctVertices_keySet p n hd
  have hM := ChainTable_mem p n (le_refl n) h
  have hne := distinctVertices_ne p n hd
  have hS : ∀ i, i < n → ∃ j < n, p i = p j := fun i hi => ⟨i, hi, rfl⟩
  have h0 := h.2 0 (by omega)
  have hl := h.2 (n - 1) (by omega)
  have hp0 := hS 0 (by omega)
  have hpl := hS (n - 1) (by omega)
  have hM1 : ∀ e ∈ AdjacencyMap.set M (p 0) (chainNeighbours p n 0 ++ [p (n - 1)]),
      ∃ i < n, e.1 = p i := mem_of_keys_eq (fun a => ∃ i < n, a = p i) hM (keys_set_of_get hK hM hp0 h0)
  have hgl : AdjacencyMap.get
      (AdjacencyMap.set M (p 0) (chainNeighbours p n 0 ++ [p (n - 1)])) (p (n - 1)) =
      some (chainNeighbours p n (n - 1)) := by
    rw [AdjacencyMap.get_set_ne_on hK _ _ _ _ hM hp0 hpl
      (hne 0 (by omega) (n - 1) (by omega) (by omega))]
    exact hl
  have hform : addPoint M (p (n - 1)) (p 0) true =
      AdjacencyMap.set (AdjacencyMap.set M (p 0) (chainNeighbours p n 0 ++ [p (n - 1)]))
        (p (n - 1)) (chainNeighbours p n (n - 1) ++ [p 0]) := by
    simp [addPoint, h0, hgl]
  rw [hform]
  refine ⟨?_, ?_, ?_, ?_⟩
  · rw [keys_set_of_get hK hM1 hpl hgl, keys_set_of_get hK hM hp0 h0]
    exact h.1
  · rw [AdjacencyMap.get_set_ne_on hK _ _ _ _ hM1 hpl hp0
      (hne (n - 1) (by omega) 0 (by omega) (by omega)),
      AdjacencyMap.get_set_self_on hK _ _ _ hM hp0]
    have e1 : 0 + 1 < n := by omega
    simp [chainNeighbours, e1]
  · intro i hi0 hin
    have hiS := hS i (by omega)
    rw [AdjacencyMap.get_set_ne_on hK _ _ _ _ hM1 hpl hiS
      (hne (n - 1) (by omega) i (by omega) (by omega)),
      AdjacencyMap.get_set_ne_on hK _ _ _ _ hM hp0 hiS
        (hne 0 (by omega) i (by omega) (by omega)),
      h.2 i (by omega)]
    have e1 : i + 1 < n := by omega
    simp [chainNeighbours, hi0, e1]
  · rw [AdjacencyMap.get_set_self_on hK _ _ _ hM1 hpl]
    have e1 : 0 < n - 1 := by omega
    have e2 : ¬ (n - 1 + 1 < n) := by omega
    have e3 : n - 1 - 1 = n - 2 := by omega
    simp [chainNeighbours, e1, e2, e3]

theorem parsePathLoop_rest {F : Type} [GoFloat F] [DecidableEq F] (xs ys : Nat → String)
    (p : Nat → Point F) (n : Nat) (hn : 3 ≤ n) (hd : distinctVertices p n)
    (hparse : ∀ i < n, xs i ≠ "" ∧ ys i ≠ "" ∧
      GoFloat.ParseFloat (xs i) = ((p i).X, true) ∧
      GoFloat.ParseFloat (ys i) = ((p i).Y, true)) :
    ∀ (c k : Nat) (pre : List String) (M : AdjacencyMap F) (fuel : Nat),
      k + c = n → 1 ≤ k → ChainTable p k M → 3 * c + 1 ≤ fuel →
      ∃ M2, parsePathLoop (pre ++ loopRest xs ys k c) fuel pre.length (p (k - 1)) (p 0) M =
          some M2 ∧ CycleTable p n M2 := by
  have hdist := distinctVertices_Equals p n hd
  intro c
  induction c with
  | zero =>
    intro k pre M fuel hk hk1 hM hfuel
    obtain ⟨f, rfl⟩ : ∃ f, fuel = f + 1 := ⟨fuel - 1, by omega⟩
    have hkn : k = n := by omega
    subst hkn
    have htok : (pre ++ loopRest xs ys k 0).getD pre.length "" = "Z" :=
      getD_append_add pre (loopRest xs ys k 0) 0 ""
    have hcmd := parseCommand_Z (pre ++ loopRest xs ys k 0) pre.length (p (k - 1)) (p 0) htok
    rw [parsePathLoop_step _ f pre.length _ _ M _ (by simp [loopRest]) hcmd rfl
      (hdist (k - 1) (by omega) 0 (by omega) (by omega))]
    rw [parsePathLoop_end _ _ _ _ _ _ (by simp [loopRest])]
    exact ⟨_, rfl, CycleTable_close p k hn hd M hM⟩
  | succ c ih =>
    intro k pre M fuel hk hk1 hM hfuel
    obtain ⟨f, rfl⟩ : ∃ f, fuel = f + 1 := ⟨fuel - 1, by omega⟩
    have hkn : k < n := by omega
    have hlenrest := loopRest_length xs ys (k + 1) c
    have htok : (pre ++ loopRest xs ys k (c + 1)).getD pre.length "" = "L" := by
      have := getD_append_add pre (loopRest xs ys k (c + 1)) 0 ""
      simpa [loopRest] using this
    have htok1 : (pre ++ loopRest xs ys k (c + 1)).getD (pre.length + 1) "" = xs k := by
      have := getD_append_add pre (loopRest xs ys k (c + 1)) 1 ""
      simpa [loopRest] using this
    have htok2 : (pre ++ loopRest xs ys k (c + 1)).getD (pre.length + 2) "" = ys k := by
      have := getD_append_add pre (loopRest xs ys k (c + 1)) 2 ""
      simpa [loopRest] using this
    have hlen : pre.length + 2 < (pre ++ loopRest xs ys k (c + 1)).length := by
      simp [loopRest]
    have hcmd := parseCommand_L (pre ++ loopRest xs ys k (c + 1)) pre.length (p (k - 1)) (p 0)
      htok hlen
    rw [htok1, htok2, createPoint_absolute (xs k) (ys k) (p k).X (p k).Y _
      (hparse k hkn).1 (hparse k hkn).2.1 (hparse k hkn).2.2.1 (hparse k hkn).2.2.2] at hcmd
    rw [parsePathLoop_step _ f pre.length _ _ M _ (by omega) hcmd rfl
      (hdist (k - 1) (by omega) k hkn (by omega))]
    have hstep := ChainTable_step p n hd k hk1 hkn M hM
    have IH := ih (k + 1) (pre ++ ["L", xs k, ys k]) _ f (by omega) (by omega) hstep (by omega)
    have e1 : pre ++ ["L", xs k, ys k] ++ loopRest xs ys (k + 1) c =
        pre ++ loopRest xs ys k (c + 1) := by simp [loopRest]
    have e2 : (pre ++ ["L", xs k, ys k]).length = pre.length + 2 + 1 := by simp
    rw [e1, e2] at IH
    simpa using IH

/-- The map the loop of `parseSVGPath` builds for a closed loop through `n`
vertices that are told apart, the first of which is the origin itself or is
not `Equals` to it. -/
theorem parsePathLoop_loop {F : Type} [GoFloat F] [DecidableEq F] (xs ys : Nat → String)
    (p : Nat → Point F) (n : Nat) (hn : 3 ≤ n) (hd : distinctVertices p n)
    (horigin : p 0 = ⟨GoFloat.ofInt 0, GoFloat.ofInt 0⟩ ∨
      Point.Equals ⟨GoFloat.ofInt 0, GoFloat.ofInt 0⟩ (p 0) = false)
    (hparse : ∀ i < n, xs i ≠ "" ∧ ys i ≠ "" ∧
      GoFloat.ParseFloat (xs i) = ((p i).X, true) ∧
      GoFloat.ParseFloat (ys i) = ((p i).Y, true)) :
    ∃ M, parsePathLoop (loopTokens n xs ys) (loopTokens n xs ys).length 0
        ⟨GoFloat.ofInt 0, GoFloat.ofInt 0⟩ ⟨GoFloat.ofInt 0, GoFloat.ofInt 0⟩ [] = some M ∧
      CycleTable p n M := by
  have hlenrest := loopRest_length xs ys 1 (n - 1)
  have hlen : (loopTokens n xs ys).length = (3 * (n - 1) + 1 + 2) + 1 := by
    simp [loopTokens, hlenrest]
  have hcmd := parseCommand_M (F := F) (loopTokens n xs ys) 0 ⟨GoFloat.ofInt 0, GoFloat.ofInt 0⟩
    ⟨GoFloat.ofInt 0, GoFloat.ofInt 0⟩ (by simp [loopTokens]) (by rw [hlen]; omega)
  have h1 : (loopTokens n xs ys).getD (0 + 1) "" = xs 0 := by simp [loopTokens]
  have h2 : (loopTokens n xs ys).getD (0 + 2) "" = ys 0 := by simp [loopTokens]
  have hp0 := hparse 0 (by omega)
  rw [h1, h2, createPoint_absolute (xs 0) (ys 0) (p 0).X (p 0).Y _
    hp0.1 hp0.2.1 hp0.2.2.1 hp0.2.2.2] at hcmd
  rcases horigin with hzero | hfar
  · -- the first vertex is the origin: the command `M` enters nothing
    have heq : Point.Equals (⟨GoFloat.ofInt 0, GoFloat.ofInt 0⟩ : Point F)
        (⟨(p 0).X, (p 0).Y⟩ : Point F) = true := by
      rw [← hzero]
      simpa using (hd 0 (by omega) 0 (by omega)).1
    rw [hlen, parsePathLoop_skip _ _ 0 _ _ [] _ (by rw [hlen]; omega) hcmd rfl heq]
    -- the first command `L`
    obtain ⟨m, hm⟩ : ∃ m, n - 1 = m + 1 := ⟨n - 2, by omega⟩
    have hrest : loopRest xs ys 1 (n - 1) = "L" :: xs 1 :: ys 1 :: loopRest xs ys 2 m := by
      rw [hm]; rfl
    have htoks : loopTokens n xs ys =
        ["M", xs 0, ys 0] ++ ("L" :: xs 1 :: ys 1 :: loopRest xs ys 2 m) := by
      simp [loopTokens, hrest]
    have hlen2 := loopRest_length xs ys 2 m
    have hcmdL := parseCommand_L (F := F) (loopTokens n xs ys) 3
      ⟨GoFloat.ofInt 0, GoFloat.ofInt 0⟩ ⟨(p 0).X, (p 0).Y⟩ (by rw [htoks]; rfl)
      (by rw [hlen]; omega)
    have h4 : (loopTokens n xs ys).getD (3 + 1) "" = xs 1 := by rw [htoks]; rfl
    have h5 : (loopTokens n xs ys).getD (3 + 2) "" = ys 1 := by rw [htoks]; rfl
    have hp1 := hparse 1 (by omega)
    rw [h4, h5, createPoint_absolute (xs 1) (ys 1) (p 1).X (p 1).Y _
      hp1.1 hp1.2.1 hp1.2.2.1 hp1.2.2.2] at hcmdL
    have hfuel : 3 * (n - 1) + 1 + 2 = (3 * m + 1 + 2 + 2) + 1 := by omega
    have hne01 : Point.Equals (⟨GoFloat.ofInt 0, GoFloat.ofInt 0⟩ : Point F)
        (⟨(p 1).X, (p 1).Y⟩ : Point F) = false := by
      rw [← hzero]
      simpa using (hd 0 (by omega) 1 (by omega)).1
    simp only [Nat.zero_add] at *
    rw [hfuel, parsePathLoop_step _ _ 3 _ _ [] _ (by rw [hlen]; omega) hcmdL rfl hne01]
    have hsecond := ChainTable_second p n hd (by omega)
    have R := parsePathLoop_rest xs ys p n hn hd hparse m 2
      ["M", xs 0, ys 0, "L", xs 1, ys 1] (addPoint [] (p 0) (p 1) true)
      (3 * m + 1 + 2 + 2) (by omega) (by omega) hsecond (by omega)
    have e0 : (⟨GoFloat.ofInt 0, GoFloat.ofInt 0⟩ : Point F) = p 0 := hzero.symm
    simpa [htoks, e0] using R
  · have hfar2 : Point.Equals (⟨GoFloat.ofInt 0, GoFloat.ofInt 0⟩ : Point F)
        (⟨(p 0).X, (p 0).Y⟩ : Point F) = false := hfar
    rw [hlen, parsePathLoop_step _ _ 0 _ _ [] _ (by rw [hlen]; omega) hcmd rfl hfar2]
    have hfirst := ChainTable_first p n hd (by omega)
    have R := parsePathLoop_rest xs ys p n hn hd hparse (n - 1) 1 ["M", xs 0, ys 0] _
      (3 * (n - 1) + 1 + 2) (by omega) (le_refl 1) hfirst (by omega)
    simpa [loopTokens] using R

/-! ## Closed loops: the tracing from any vertex -/

theorem CycleTable_mem {F : Type} [GoFloat F] {p : Nat → Point F} {n : Nat}
    {M : AdjacencyMap F} (keys : (M.map Prod.fst).Perm ((List.range n).map p)) :
    ∀ e ∈ M, ∃ i < n, e.1 = p i := by
  intro e he
  have : e.1 ∈ (List.range n).map p := keys.mem_iff.mp (List.mem_map_of_mem _ he)
  obtain ⟨i, hi, hie⟩ := List.mem_map.mp this
  exact ⟨i, List.mem_range.mp hi, hie.symm⟩

theorem range_map_nodup {F : Type} (p : Nat → Point F) (n : Nat)
    (hne : ∀ i < n, ∀ j < n, i ≠ j → p i ≠ p j) : ((List.range n).map p).Nodup := by
  apply List.Nodup.map_on _ (List.nodup_range n)
  intro i hi j hj hij
  by_contra h
  exact hne i (List.mem_range.mp hi) j (List.mem_range.mp hj) h hij

/-- From any vertex of the map of a closed loop, `removeGroup` traces all `n`
segments as a closed chain and leaves every list of the map empty. -/
theorem removeGroup_from_vertex {F : Type} [GoFloat F] [DecidableEq F] (p : Nat → Point F)
    (n : Nat) (hn : 3 ≤ n) (hd : distinctVertices p n)
    (M : AdjacencyMap F) (hM : CycleTable p n M) (fuel : Nat) (hfuel : n ≤ fuel)
    (k : Nat) (hk : k < n) :
    (removeGroup fuel (p k) M).1.length = n ∧
      closedChain (removeGroup fuel (p k) M).1 = true ∧
      (∀ e ∈ (removeGroup fuel (p k) M).2, (∃ i < n, e.1 = p i) ∧ e.2 = []) := by
  obtain ⟨hkeys, t0, tmid, tlast⟩ := hM
  have hK := distinctVertices_keySet p n hd
  have hdist := distinctVertices_Equals p n hd
  have hne := distinctVertices_ne p n hd
  have hMfin := CycleTable_mem hkeys
  have hS : ∀ i, i < n → ∃ j < n, p i = p j := fun i hi => ⟨i, hi, rfl⟩
  -- what the cycle lemma gives is enough
  have finish : ∀ r : List (Segment F) × AdjacencyMap F,
      (∀ i < n, AdjacencyMap.get r.2 (p i) = some []) →
      r.2.map Prod.fst = M.map Prod.fst →
      ∀ e ∈ r.2, (∃ i < n, e.1 = p i) ∧ e.2 = [] := by
    intro r hget hk2 e he
    have hfin2 : ∀ e ∈ r.2, ∃ i < n, e.1 = p i :=
      mem_of_keys_eq (fun a => ∃ i < n, a = p i) hMfin hk2
    have hnd : (r.2.map Prod.fst).Nodup := by
      rw [hk2]; exact (hkeys.nodup_iff).mpr (range_map_nodup p n hne)
    have h1 := AdjacencyMap.get_of_mem_on hK r.2 hfin2 hnd e he
    obtain ⟨i, hi, hie⟩ := hfin2 e he
    rw [hie, hget i hi] at h1
    exact ⟨hfin2 e he, (Option.some.inj h1).symm⟩
  rcases Nat.eq_zero_or_pos k with rfl | hkpos
  · -- from the first vertex the tracing runs forward
    obtain ⟨c1, c2, c3, c4⟩ := removeGroup_cycle hK n hn p M fuel hfuel hMfin hS
      hdist t0 (fun i hi0 hin => Or.inl (tmid i hi0 hin)) (Or.inl tlast)
    exact ⟨c1, c2, finish _ c3 c4⟩
  · -- from any other vertex it runs backward
    obtain ⟨w, hw1, hw2⟩ : ∃ w : Nat → Point F,
        (∀ i, i ≤ k → w i = p (k - i)) ∧ (∀ i, k < i → w i = p (n + k - i)) := by
      refine ⟨fun i => if i ≤ k then p (k - i) else p (n + k - i), ?_, ?_⟩
      · intro i hi; simp [hi]
      · intro i hi
        have : ¬ i ≤ k := by omega
        simp [this]
    have hw0 : w 0 = p k := by rw [hw1 0 (by omega)]; rfl
    have hwfin : ∀ i < n, ∃ j < n, w i = p j := by
      intro i hi
      by_cases h : i ≤ k
      · exact ⟨k - i, by omega, hw1 i h⟩
      · exact ⟨n + k - i, by omega, hw2 i (by omega)⟩
    have hwinj : ∀ i < n, ∀ j < n, i ≠ j → (w i).Equals (w j) = false := by
      intro i hi j hj hij
      by_cases h1 : i ≤ k <;> by_cases h2 : j ≤ k
      · rw [hw1 i h1, hw1 j h2]; exact hdist _ (by omega) _ (by omega) (by omega)
      · rw [hw1 i h1, hw2 j (by omega)]; exact hdist _ (by omega) _ (by omega) (by omega)
      · rw [hw2 i (by omega), hw1 j h2]; exact hdist _ (by omega) _ (by omega) (by omega)
      · rw [hw2 i (by omega), hw2 j (by omega)]
        exact hdist _ (by omega) _ (by omega) (by omega)
    -- the table of `p`, read at any index
    have table : ∀ a, a < n → AdjacencyMap.get M (p a) =
        some [if a = 0 then p 1 else p (a - 1), if a = 0 then p (n - 1)
          else if a = n - 1 then p 0 else p (a + 1)] := by
      intro a ha
      by_cases h0 : a = 0
      · subst h0; simpa using t0
      · by_cases hl : a = n - 1
        · subst hl
          have e : n - 1 - 1 = n - 2 := by omega
          simp only [h0, if_false, if_true, e]
          exact tlast
        · simp only [h0, hl, if_false]
          exact tmid a (by omega) (by omega)
    have h0 : AdjacencyMap.get M (w 0) = some [w 1, w (n - 1)] := by
      rw [hw0, table k hk, hw1 1 (by omega)]
      have hk0 : ¬ k = 0 := by omega
      simp only [hk0, if_false]
      by_cases hl : k = n - 1
      · rw [hw1 (n - 1) (by omega)]
        simp only [hl, if_true]
        rw [show n - 1 - (n - 1) = 0 by omega]
      · rw [hw2 (n - 1) (by omega)]
        simp only [hl, if_false]
        rw [show n + k - (n - 1) = k + 1 by omega]
    have hmid : ∀ i, 0 < i → i < n - 1 →
        AdjacencyMap.get M (w i) = some [w (i - 1), w (i + 1)] ∨
        AdjacencyMap.get M (w i) = some [w (i + 1), w (i - 1)] := by
      intro i hi0 hin
      by_cases hik : i ≤ k
      · rw [hw1 i hik, hw1 (i - 1) (by omega), table (k - i) (by omega)]
        by_cases ha : k - i = 0
        · -- the first vertex: its list is forward, then backward
          left
          rw [hw2 (i + 1) (by omega)]
          simp only [ha, if_true]
          rw [show k - (i - 1) = 1 by omega, show n + k - (i + 1) = n - 1 by omega]
        · right
          rw [hw1 (i + 1) (by omega)]
          have hl : ¬ k - i = n - 1 := by omega
          simp only [ha, hl, if_false]
          rw [show k - (i + 1) = k - i - 1 by omega, show k - (i - 1) = k - i + 1 by omega]
      · right
        rw [hw2 i (by omega), hw2 (i + 1) (by omega), table (n + k - i) (by omega)]
        have ha : ¬ n + k - i = 0 := by omega
        simp only [ha, if_false]
        rw [show n + k - (i + 1) = n + k - i - 1 by omega]
        by_cases hl : n + k - i = n - 1
        · simp only [hl, if_true]
          rw [hw1 (i - 1) (by omega), show k - (i - 1) = 0 by omega]
        · simp only [hl, if_false]
          rw [hw2 (i - 1) (by omega), show n + k - (i - 1) = n + k - i + 1 by omega]
    have hlast : AdjacencyMap.get M (w (n - 1)) = some [w (n - 2), w 0] ∨
        AdjacencyMap.get M (w (n - 1)) = some [w 0, w (n - 2)] := by
      rw [hw0]
      by_cases hl : k = n - 1
      · left
        rw [hw1 (n - 1) (by omega), hw1 (n - 2) (by omega), table (k - (n - 1)) (by omega)]
        have ha : k - (n - 1) = 0 := by omega
        simp only [ha, if_true]
        rw [show k - (n - 2) = 1 by omega, hl]
      · right
        rw [hw2 (n - 1) (by omega), table (n + k - (n - 1)) (by omega)]
        have ha : ¬ n + k - (n - 1) = 0 := by omega
        simp only [ha, if_false]
        rw [show n + k - (n - 1) - 1 = k by omega]
        by_cases hl2 : n + k - (n - 1) = n - 1
        · simp only [hl2, if_true]
          rw [hw1 (n - 2) (by omega), show k - (n - 2) = 0 by omega]
        · simp only [hl2, if_false]
          rw [hw2 (n - 2) (by omega),
            show n + k - (n - 1) + 1 = n + k - (n - 2) by omega]
    obtain ⟨c1, c2, c3, c4⟩ := removeGroup_cycle hK n hn w M fuel hfuel hMfin hwfin
      hwinj h0 hmid hlast
    rw [hw0] at c1 c2 c3 c4
    refine ⟨c1, c2, finish _ ?_ c4⟩
    intro j hj
    by_cases hjk : j ≤ k
    · have := c3 (k - j) (by omega)
      rw [hw1 (k - j) (by omega), show k - (k - j) = j by omega] at this
      exact this
    · have := c3 (n + k - j) (by omega)
      rw [hw2 (n + k - j) (by omega), show n + k - (n + k - j) = j by omega] at this
      exact this

/-! ## Segments between points with numbers as coordinates -/

theorem XR.sub_fin (a b : ℚ) : (XR.fin a - XR.fin b : XR) = XR.fin (a - b) := by
  show XR.add (XR.fin a) (XR.neg (XR.fin b)) = _
  simp [XR.add, XR.neg, sub_eq_add_neg]

theorem XR.add_fin (a b : ℚ) : (XR.fin a + XR.fin b : XR) = XR.fin (a + b) := rfl

theorem XR.mul_fin (a b : ℚ) : (XR.fin a * XR.fin b : XR) = XR.fin (a * b) := rfl

theorem XR.div_fin (a b : ℚ) (hb : b ≠ 0) : (XR.fin a / XR.fin b : XR) = XR.fin (a / b) := by
  show XR.div (XR.fin a) (XR.fin b) = _
  simp [XR.div, hb]

theorem NewSegment_fin (x1 y1 x2 y2 : ℚ) (h : x1 ≠ x2) :
    NewSegment (⟨.fin x1, .fin y1⟩ : Point XR) ⟨.fin x2, .fin y2⟩ =
      ⟨⟨.fin x1, .fin y1⟩, ⟨.fin x2, .fin y2⟩, .fin (y1 - (y2 - y1) / (x2 - x1) * x1),
        .fin ((y2 - y1) / (x2 - x1))⟩ := by
  have hd : x2 - x1 ≠ 0 := sub_ne_zero.mpr (Ne.symm h)
  have he : GoFloat.eq (XR.fin (x2 - x1)) (GoFloat.ofInt 0 : XR) = false := by
    show XR.eq (XR.fin (x2 - x1)) (XR.fin ((0 : Int) : ℚ)) = false
    simp [XR.eq, hd]
  simp only [NewSegment, XR.sub_fin, he, Bool.false_eq_true, if_false, XR.div_fin _ _ hd,
    XR.mul_fin]

theorem NewSegment_fin_vertical (x y1 y2 : ℚ) :
    NewSegment (⟨.fin x, .fin y1⟩ : Point XR) ⟨.fin x, .fin y2⟩ =
      ⟨⟨.fin x, .fin y1⟩, ⟨.fin x, .fin y2⟩, .fin (y1 - (y2 - y1) / (1 / 1000000) * x),
        .fin ((y2 - y1) / (1 / 1000000))⟩ := by
  have he : GoFloat.eq (XR.fin (x - x)) (GoFloat.ofInt 0 : XR) = true := by
    show XR.eq (XR.fin (x - x)) (XR.fin ((0 : Int) : ℚ)) = true
    simp [XR.eq]
  have hd : (1 / 1000000 : ℚ) ≠ 0 := by norm_num
  have hdiv : (XR.fin (y2 - y1) / (epsilon : XR)) = XR.fin ((y2 - y1) / (1 / 1000000)) :=
    XR.div_fin _ _ hd
  simp only [NewSegment, XR.sub_fin, he, if_true, hdiv, XR.mul_fin]

/-- The parser on a description that passes `oneLoop`, of at most 128 bytes:
one group, traced from one of the points of the map. -/
theorem ParseSVGString_one_group (ge : GeoEnv XR) (svg : String)
    (hlen : svg.utf8ByteSize ≤ 128) (h : oneLoop svg = true) :
    ∃ r ∈ traceStarts XR svg,
      ParseSVGString ge svg 0 = some ([Component.Group ⟨r.1⟩], none) := by
  simp only [oneLoop, Bool.and_eq_true, decide_eq_true_eq, List.all_eq_true] at h
  obtain ⟨⟨⟨⟨hM, hvalid⟩, hne⟩, hconn⟩, hclear⟩ := h
  obtain ⟨r, hr, hres⟩ := parseSVGPath_one_group ge svg hM hvalid hne hconn
    (by
      intro r hr e he
      have := hclear r hr e he
      simpa using this)
  refine ⟨r, hr, ?_⟩
  have hle : ¬ svg.utf8ByteSize > maxSVGLen := by simp [maxSVGLen]; exact hlen
  simp [ParseSVGString, hle, hres]

set_option maxRecDepth 1000000 in
/-- C16, at the failing input "M a b L 3 4": whatever the order of map
iteration, `ParseSVGString` returns a nil error and one group of one segment,
which joins the points (0,0) and (3,4). -/
theorem C16_non_numeric_coordinates_parse (ge : GeoEnv XR) :
    ∃ seg, ParseSVGString ge "M a b L 3 4" 0 = some ([.Group ⟨[seg]⟩], none) ∧
      (seg = NewSegment ⟨.fin 0, .fin 0⟩ ⟨.fin 3, .fin 4⟩ ∨
        seg = NewSegment ⟨.fin 3, .fin 4⟩ ⟨.fin 0, .fin 0⟩) := by
  obtain ⟨r, hr, hres⟩ := ParseSVGString_one_group ge "M a b L 3 4" (by decide) (by decide!)
  have hall : ∀ r ∈ traceStarts XR "M a b L 3 4",
      r.1 = [NewSegment ⟨.fin 0, .fin 0⟩ ⟨.fin 3, .fin 4⟩] ∨
      r.1 = [NewSegment ⟨.fin 3, .fin 4⟩ ⟨.fin 0, .fin 0⟩] := by decide!
  rcases hall r hr with h | h
  · exact ⟨_, by rw [hres, h], Or.inl rfl⟩
  · exact ⟨_, by rw [hres, h], Or.inr rfl⟩

set_option maxRecDepth 1000000 in
/-- The 8-vertex polygon and the hourglass of the tests: whatever the order of
map iteration, one group of 8 and of 4 segments, each of which ends where the
next one starts, the last one where the first one starts. -/
theorem ParseSVGString_test_loops (ge : GeoEnv XR) :
    (∃ g, ParseSVGString ge NonConvexPolySVG 0 = some ([.Group g], none) ∧
      g.Segments.length = 8 ∧ closedChain g.Segments = true) ∧
    (∃ g, ParseSVGString ge HourGlassSVG 0 = some ([.Group g], none) ∧
      g.Segments.length = 4 ∧ closedChain g.Segments = true) := by
  constructor
  · obtain ⟨r, hr, hres⟩ := ParseSVGString_one_group ge NonConvexPolySVG (by decide) (by decide!)
    have hall : ∀ r ∈ traceStarts XR NonConvexPolySVG,
        r.1.length = 8 ∧ closedChain r.1 = true := by decide!
    exact ⟨⟨r.1⟩, hres, hall r hr⟩
  · obtain ⟨r, hr, hres⟩ := ParseSVGString_one_group ge HourGlassSVG (by decide) (by decide!)
    have hall : ∀ r ∈ traceStarts XR HourGlassSVG,
        r.1.length = 4 ∧ closedChain r.1 = true := by decide!
    exact ⟨⟨r.1⟩, hres, hall r hr⟩

set_option maxRecDepth 1000000 in
/-- C17, counterexample: two closed loops through three distinct vertices.
In "M 10 10 L 10.0000001 10 L 20 20 Z" the second vertex is within `epsilon`
of the first and is dropped: the group has two segments.  In
"M 0.0000001 0 L 5 0 L 5 5 Z" the first vertex is within `epsilon` of the zero
`prevPoint` and is dropped, the loop is closed at a fourth point, and with
the map visited in stored order the parser returns two groups. -/
theorem C17_counterexample :
    ParseSVGString (storedOrder XR) "M 10 10 L 10.0000001 10 L 20 20 Z" 0 =
      some ([.Group ⟨[NewSegment ⟨.fin 10, .fin 10⟩ ⟨.fin 20, .fin 20⟩,
                      NewSegment ⟨.fin 20, .fin 20⟩ ⟨.fin 10, .fin 10⟩]⟩], none) ∧
    ParseSVGString (storedOrder XR) exNearOriginSvg 0 =
      some ([.Group ⟨[NewSegment ⟨.fin (1 / 10000000), .fin 0⟩ ⟨.fin 5, .fin 5⟩,
                      NewSegment ⟨.fin 5, .fin 5⟩ ⟨.fin 5, .fin 0⟩]⟩,
             .Group ⟨[NewSegment ⟨.fin 0, .fin 0⟩ ⟨.fin 5, .fin 0⟩]⟩], none) ∧
    (pathPoints XR exNearOriginSvg).map Prod.fst =
      [⟨.fin 5, .fin 0⟩, ⟨.fin 0, .fin 0⟩, ⟨.fin 5, .fin 5⟩, ⟨.fin (1 / 10000000), .fin 0⟩] := by
  decide!

set_option maxRecDepth 1000000 in
/-- C18: whatever the order of map iteration, the 8-vertex polygon of the
tests parses to one group, whose `Area` is 4000 with the fill only, 440 with
the stroke only and 4440 with both. -/
theorem C18_polygon_areas (ge : GeoEnv XR) :
    ∃ g, ParseSVGString ge "M 1 1 h 130 L 101 41 h -100 v -20 h 60 v -10 h -60 z" 0 =
        some ([.Group g], none) ∧
      g.Area true false = .fin 4000 ∧ g.Area false true = .fin 440 ∧
      g.Area true true = .fin 4440 := by
  obtain ⟨r, hr, hres⟩ := ParseSVGString_one_group ge
    "M 1 1 h 130 L 101 41 h -100 v -20 h 60 v -10 h -60 z" (by decide) (by decide!)
  have hall : ∀ r ∈ traceStarts XR "M 1 1 h 130 L 101 41 h -100 v -20 h 60 v -10 h -60 z",
      Group.Area ⟨r.1⟩ true false = .fin 4000 ∧ Group.Area ⟨r.1⟩ false true = .fin 440 ∧
      Group.Area ⟨r.1⟩ true true = .fin 4440 := by decide!
  exact ⟨⟨r.1⟩, hres, hall r hr⟩

/-- A closed loop `M p0 L p1 ... L p(n-1) Z` of at most 128 bytes, through
`n >= 3` vertices that are told apart and the first of which is the origin or
is not `Equals` to it: whatever the order of map iteration, the parser
returns one group of `n` segments that form a closed chain. -/
theorem ParseSVGString_closed_loop {F : Type} [GoFloat F] [DecidableEq F] (ge : GeoEnv F)
    (svg : String) (n : Nat) (xs ys : Nat → String) (p : Nat → Point F) (hn : 3 ≤ n)
    (hlen : svg.utf8ByteSize ≤ 128) (hsplit : stringsSplit svg = loopTokens n xs ys)
    (hparse : ∀ i < n, xs i ≠ "" ∧ ys i ≠ "" ∧
      GoFloat.ParseFloat (xs i) = ((p i).X, true) ∧
      GoFloat.ParseFloat (ys i) = ((p i).Y, true))
    (hd : distinctVertices p n)
    (horigin : p 0 = ⟨GoFloat.ofInt 0, GoFloat.ofInt 0⟩ ∨
      Point.Equals ⟨GoFloat.ofInt 0, GoFloat.ofInt 0⟩ (p 0) = false) :
    ∃ g, ParseSVGString ge svg 0 = some ([.Group g], none) ∧ g.Segments.length = n ∧
      closedChain g.Segments = true := by
  obtain ⟨M, hloop, hcyc⟩ := parsePathLoop_loop xs ys p n hn hd horigin hparse
  have hK := distinctVertices_keySet p n hd
  have hkeys := hcyc.1
  have hMfin := CycleTable_mem hkeys
  have hne := distinctVertices_ne p n hd
  have hnd : (M.map Prod.fst).Nodup := (hkeys.nodup_iff).mpr (range_map_nodup p n hne)
  have hpp : pathPoints F svg = M := by simp [pathPoints, hsplit, hloop]
  have hM0 : (stringsSplit svg).getD 0 "" = "M" := by rw [hsplit]; simp [loopTokens]
  have hvalid : (parsePathLoop (F := F) (stringsSplit svg) (stringsSplit svg).length 0
      ⟨GoFloat.ofInt 0, GoFloat.ofInt 0⟩ ⟨GoFloat.ofInt 0, GoFloat.ofInt 0⟩ []).isSome = true := by
    rw [hsplit, hloop]; rfl
  have hMne : pathPoints F svg ≠ [] := by
    rw [hpp]
    intro h
    rw [h] at hkeys
    have := hkeys.length_eq
    simp at this
    omega
  have hconn : ∀ e ∈ pathPoints F svg, e.2 ≠ [] := by
    rw [hpp]
    intro e he
    obtain ⟨k, hk, hke⟩ := hMfin e he
    have hg := AdjacencyMap.get_of_mem_on hK M hMfin hnd e he
    rw [hke] at hg
    obtain ⟨_, t0, tmid, tlast⟩ := hcyc
    intro hnil
    rw [hnil] at hg
    by_cases h0 : k = 0
    · subst h0; rw [t0] at hg; cases hg
    · by_cases hl : k = n - 1
      · subst hl; rw [tlast] at hg; cases hg
      · rw [tmid k (by omega) (by omega)] at hg; cases hg
  have htrace : ∀ r ∈ traceStarts F svg,
      r.1.length = n ∧ closedChain r.1 = true ∧
        (∀ e ∈ r.2, (∃ i < n, e.1 = p i) ∧ e.2 = []) := by
    intro r hr
    simp only [traceStarts, hpp] at hr
    obtain ⟨e, he, rfl⟩ := List.mem_map.mp hr
    obtain ⟨k, hk, hke⟩ := hMfin e he
    rw [hke, ← removeGroup_fuel (AdjacencyMap.size M + 1) n (p k) M (by omega)]
    exact removeGroup_from_vertex p n hn hd M hcyc _ (by omega) k hk
  obtain ⟨r, hr, hres⟩ := parseSVGPath_one_trace hK ge svg hM0 hvalid hMne hconn
    (fun r hr => (htrace r hr).2.2)
  have hle : ¬ svg.utf8ByteSize > maxSVGLen := by simp [maxSVGLen]; exact hlen
  exact ⟨⟨r.1⟩, by simp [ParseSVGString, hle, hres], (htrace r hr).1, (htrace r hr).2.1⟩

/-- C17 as amended: take a path description of at most 128 bytes
`M p0 L p1 ... L p(n-1) Z` through `n >= 3` vertices whose coordinates parse,
which are told apart by `Equals` and by `==` (each is `Equals` and `==` to
itself and to no other), and the first of which is the origin itself or is
not `Equals` to the origin.  On every carrier of the `float64` operations and
for every order of map iteration, `ParseSVGString` returns exactly one
component, a group of `n` segments in which each segment ends where the next
one starts and the last one ends where the first one starts.  The 8-vertex
polygon of the tests gives one group of 8 segments and the hourglass one
group of 4, closed in the same way. -/
theorem C17_closed_loop_is_one_closed_group {F : Type} [GoFloat F] [DecidableEq F]
    (ge : GeoEnv F) (svg : String) (n : Nat) (xs ys : Nat → String) (p : Nat → Point F)
    (hn : 3 ≤ n) (hlen : svg.utf8ByteSize ≤ 128)
    (hsplit : stringsSplit svg = loopTokens n xs ys)
    (hparse : ∀ i < n, xs i ≠ "" ∧ ys i ≠ "" ∧
      GoFloat.ParseFloat (xs i) = ((p i).X, true) ∧
      GoFloat.ParseFloat (ys i) = ((p i).Y, true))
    (hd : distinctVertices p n)
    (horigin : p 0 = ⟨GoFloat.ofInt 0, GoFloat.ofInt 0⟩ ∨
      Point.Equals ⟨GoFloat.ofInt 0, GoFloat.ofInt 0⟩ (p 0) = false) :
    (∃ g, ParseSVGString ge svg 0 = some ([.Group g], none) ∧ g.Segments.length = n ∧
      closedChain g.Segments = true) ∧
    (∀ ge2 : GeoEnv XR,
      ∃ g, ParseSVGString ge2 "M 1 1 h 130 L 101 41 h -100 v -20 h 60 v -10 h -60 z" 0 =
        some ([.Group g], none) ∧
      g.Segments.length = 8 ∧ closedChain g.Segments = true) ∧
    (∀ ge2 : GeoEnv XR,
      ∃ g, ParseSVGString ge2 "M 5 5 L 0 10 L 10 10 L 5 15 z" 0 = some ([.Group g], none) ∧
      g.Segments.length = 4 ∧ closedChain g.Segments = true) :=
  ⟨ParseSVGString_closed_loop ge svg n xs ys p hn hlen hsplit hparse hd horigin,
    fun ge2 => (ParseSVGString_test_loops ge2).1, fun ge2 => (ParseSVGString_test_loops ge2).2⟩

set_option maxRecDepth 1000000 in
/-- Witness for C17: the triangle "M 1 1 L 5 1 L 5 4 Z" with its three
vertices (1,1), (5,1), (5,4), and the triangle "M 0 0 L 5 0 L 5 4 Z" whose
first vertex is the origin, with the map visited in stored order: one group
of 3 segments each, closed. -/
theorem C17_closed_loop_is_one_closed_group_witness :
    (stringsSplit "M 1 1 L 5 1 L 5 4 Z" = loopTokens 3 exTriXs exTriYs ∧
      ∃ g, ParseSVGString (storedOrder XR) "M 1 1 L 5 1 L 5 4 Z" 0 = some ([.Group g], none) ∧
        g.Segments.length = 3 ∧ closedChain g.Segments = true) ∧
    (stringsSplit "M 0 0 L 5 0 L 5 4 Z" = loopTokens 3 exOriginXs exOriginYs ∧
      ∃ g, ParseSVGString (storedOrder XR) "M 0 0 L 5 0 L 5 4 Z" 0 = some ([.Group g], none) ∧
        g.Segments.length = 3 ∧ closedChain g.Segments = true) :=
  ⟨⟨by decide,
    (C17_closed_loop_is_one_closed_group (storedOrder XR) "M 1 1 L 5 1 L 5 4 Z" 3 exTriXs exTriYs
      exTriPoints (by decide) (by decide) (by decide) (by decide!)
      (by unfold distinctVertices; decide!) (Or.inr (by decide!))).1⟩,
   ⟨by decide,
    (C17_closed_loop_is_one_closed_group (storedOrder XR) "M 0 0 L 5 0 L 5 4 Z" 3 exOriginXs
      exOriginYs exOriginPoints (by decide) (by decide) (by decide) (by decide!)
      (by unfold distinctVertices; decide!) (Or.inl (by decide!))).1⟩⟩

/-! ## Validation of shapes -/

theorem XR.le_fin_mono (x : XR) (a b : ℚ) (hab : a ≤ b) (h : XR.le x (.fin a) = true) :
    XR.le x (.fin b) = true := by
  cases x with
  | fin q =>
    simp only [XR.le, XR.lt, XR.eq, Bool.or_eq_true, decide_eq_true_eq] at h ⊢
    rcases h with h | h
    · exact Or.inl (lt_of_lt_of_le h hab)
    · rcases eq_or_lt_of_le hab with h2 | h2
      · exact Or.inr (h.trans h2)
      · exact Or.inl (h ▸ h2)
  | posInf => simp [XR.le, XR.lt, XR.eq] at h
  | negInf => simp [XR.le, XR.lt]
  | nan => simp [XR.le, XR.lt, XR.eq] at h

theorem Point_IsBoundedBy_mono (p : Point XR) (x0 y0 : XR) (a b a2 b2 : ℚ) (ha : a ≤ a2)
    (hb : b ≤ b2) (h : p.IsBoundedBy x0 (.fin a) y0 (.fin b) = true) :
    p.IsBoundedBy x0 (.fin a2) y0 (.fin b2) = true := by
  simp only [Point.IsBoundedBy, Bool.and_eq_true] at h ⊢
  obtain ⟨⟨⟨h1, h2⟩, h3⟩, h4⟩ := h
  exact ⟨⟨⟨h1, XR.le_fin_mono _ _ _ ha h2⟩, h3⟩, XR.le_fin_mono _ _ _ hb h4⟩

theorem Group_IsBoundedBy_mono (g : Group XR) (x0 y0 : XR) (a b a2 b2 : ℚ) (ha : a ≤ a2)
    (hb : b ≤ b2) (h : g.IsBoundedBy x0 (.fin a) y0 (.fin b) = true) :
    g.IsBoundedBy x0 (.fin a2) y0 (.fin b2) = true := by
  simp only [Group.IsBoundedBy, List.all_eq_true, Bool.not_or, Bool.not_not,
    Bool.and_eq_true] at h ⊢
  intro s hs
  exact ⟨Point_IsBoundedBy_mono _ _ _ _ _ _ _ ha hb (h s hs).1,
    Point_IsBoundedBy_mono _ _ _ _ _ _ _ ha hb (h s hs).2⟩

theorem Shape.IllegalOverlap_empty {F : Type} [GoFloat F] (ce : CanvasEnv F) (s : Shape)
    (XMax YMax : Nat) (newComps : List (Component F)) :
    s.IllegalOverlap ce ⟨[], XMax, YMax⟩ newComps = some false := by
  have h : ce.shapesOrder [] = [] := List.Perm.eq_nil (ce.shapesOrder_perm [])
  simp [Shape.IllegalOverlap, h, illegalOverlapLoop]

set_option maxRecDepth 1000000 in
/-- C19: whatever the order of map iteration, the hourglass of the tests
parses to one group for which `IsSimpleClosed` is false; on an empty canvas
that bounds it (10 wide and 15 high at least) `Shape.Validate` rejects it
with `InvalidShapeSvgStringError` when its fill is not transparent, and
accepts it when its fill is transparent and its stroke is not. -/
theorem C19_hourglass_fill_is_rejected (ge : GeoEnv XR) (ce : CanvasEnv XR)
    (owner fill stroke : String) (XMax YMax : Nat) (hx : 10 ≤ XMax) (hy : 15 ≤ YMax) :
    (∃ g, ParseSVGString ge "M 5 5 L 0 10 L 10 10 L 5 15 z" 0 = some ([.Group g], none) ∧
      g.IsSimpleClosed = some false) ∧
    (fill ≠ "transparent" →
      Shape.Validate ge ce ⟨owner, 0, "M 5 5 L 0 10 L 10 10 L 5 15 z", fill, stroke⟩
        ⟨[], XMax, YMax⟩ =
        some (some (.InvalidShapeSvgStringError "M 5 5 L 0 10 L 10 10 L 5 15 z"))) ∧
    (stroke ≠ "transparent" →
      Shape.Validate ge ce ⟨owner, 0, "M 5 5 L 0 10 L 10 10 L 5 15 z", "transparent", stroke⟩
        ⟨[], XMax, YMax⟩ = some none) := by
  obtain ⟨r, hr, hres⟩ := ParseSVGString_one_group ge "M 5 5 L 0 10 L 10 10 L 5 15 z"
    (by decide) (by decide!)
  have hall : ∀ r ∈ traceStarts XR "M 5 5 L 0 10 L 10 10 L 5 15 z",
      Group.IsSimpleClosed ⟨r.1⟩ = some false ∧
      Group.IsBoundedBy ⟨r.1⟩ (.fin 0) (.fin 10) (.fin 0) (.fin 15) = true := by decide!
  obtain ⟨hsc, hb⟩ := hall r hr
  have hb2 : Group.IsBoundedBy ⟨r.1⟩ (GoFloat.ofInt 0) (GoFloat.ofInt (XMax : Int))
      (GoFloat.ofInt 0) (GoFloat.ofInt (YMax : Int)) = true := by
    have := Group_IsBoundedBy_mono ⟨r.1⟩ (.fin 0) (.fin 0) 10 15 ((XMax : Int) : ℚ)
      ((YMax : Int) : ℚ) (by exact_mod_cast hx) (by exact_mod_cast hy) hb
    simpa [GoFloat.ofInt] using this
  refine ⟨⟨⟨r.1⟩, hres, hsc⟩, ?_, ?_⟩
  · intro hfill
    simp [Shape.Validate, hres, Shape.WithinCanvas, Component.IsBoundedBy, hb2,
      Shape.HasStroke, Shape.IsFilled, hfill, Shape.IsFillValid, Component.IsSimpleClosed, hsc]
  · intro hstroke
    simp [Shape.Validate, hres, Shape.WithinCanvas, Component.IsBoundedBy, hb2,
      Shape.HasStroke, Shape.IsFilled, hstroke, Shape.IsFillValid,
      Shape.IllegalOverlap_empty]

set_option maxRecDepth 1000000 in
theorem C19_hourglass_fill_is_rejected_witness :
    (10 ≤ 1024 ∧ 15 ≤ 1024 ∧ "red" ≠ "transparent") ∧
    Shape.Validate (storedOrder XR) (storedCanvasOrder XR)
      ⟨"owner1", 0, "M 5 5 L 0 10 L 10 10 L 5 15 z", "red", "blue"⟩ ⟨[], 1024, 1024⟩ =
      some (some (.InvalidShapeSvgStringError "M 5 5 L 0 10 L 10 10 L 5 15 z")) :=
  ⟨by decide,
    (C19_hourglass_fill_is_rejected (storedOrder XR) (storedCanvasOrder XR) "owner1" "red"
      "blue" 1024 1024 (by decide) (by decide)).2.1 (by decide)⟩

/-! ## The overlap check: what its loops compute -/

theorem parseCircleLoop_error_kind {F : Type} [GoFloat F] (svg : String) (tokens : List String)
    (fuel i : Nat) (circ : Circle F) (err : Option Error)
    (herr : ∀ x, err ≠ some (.ShapeOverlapError x)) :
    ∀ x, (parseCircleLoop svg tokens fuel i circ err).2 ≠ some (.ShapeOverlapError x) := by
  induction fuel generalizing i circ err with
  | zero => intro x; simpa [parseCircleLoop] using herr x
  | succ fuel ih =>
    intro x
    simp only [parseCircleLoop]
    split
    · split
      · simp
      · have hnew : ∀ x, (if (GoFloat.ParseFloat (tokens.getD (i + 1) "") : F × Bool).2 = true
            then none else some (Error.strconvNumError (tokens.getD (i + 1) ""))) ≠
            some (Error.ShapeOverlapError x) := by
          intro x; split <;> simp
        split
        · exact ih _ _ _ hnew x
        · split
          · exact ih _ _ _ hnew x
          · split
            · exact ih _ _ _ hnew x
            · exact ih _ _ _ (by intro x; simp) x
    · exact herr x

/-- No error of `ParseSVGString` is a `ShapeOverlapError`. -/
theorem ParseSVGString_error_not_overlap {F : Type} [GoFloat F] (ge : GeoEnv F) (svg : String)
    (shapeType : ShapeType) (comps : List (Component F)) (err : Error)
    (hres : ParseSVGString ge svg shapeType = some (comps, some err)) :
    ∀ x, err ≠ .ShapeOverlapError x := by
  intro x
  simp only [ParseSVGString] at hres
  split at hres
  · simp at hres; rw [← hres.2]; simp
  · split at hres
    · simp only [parseSVGPath] at hres
      split at hres
      · simp at hres; rw [← hres.2]; simp
      · split at hres
        · simp at hres; rw [← hres.2]; simp
        · rename_i points _
          cases hg : removeGroups ge
            ((AdjacencyMap.size (removeDisconnectedPoints ge points).2) + 1)
            (removeDisconnectedPoints ge points).2 with
          | none => simp [hg] at hres
          | some groups => simp [hg] at hres
    · split at hres
      · simp only [Option.some.injEq] at hres
        have hc : (parseSVGCircle (F := F) svg).2 = some err := by rw [hres]
        simp only [parseSVGCircle] at hc
        split at hc
        · simp at hc; rw [← hc]; simp
        · intro hs
          rw [hs] at hc
          exact parseCircleLoop_error_kind svg _ 3 0 _ none (by intro x; simp) x hc
      · simp at hres; rw [← hres.2]; simp

/-- The loop of `IllegalOverlap` skips a shape of the owner of the new shape
before it parses it. -/
theorem illegalOverlapLoop_same_owner {F : Type} [GoFloat F] (ce : CanvasEnv F) (s : Shape)
    (newComps : List (Component F)) (shapes : List (String × Shape))
    (hsame : ∀ e ∈ shapes, e.2.Owner = s.Owner) :
    illegalOverlapLoop ce s newComps shapes = some false := by
  induction shapes with
  | nil => rfl
  | cons e rest ih =>
    obtain ⟨key, old⟩ := e
    have h1 : old.Owner = s.Owner := hsame (key, old) (List.mem_cons_self _ _)
    simp only [illegalOverlapLoop, h1, if_true]
    exact ih (fun e he => hsame e (List.mem_cons_of_mem _ he))

/-- C21: when every shape on the canvas has the owner of the new shape,
`Shape.IllegalOverlap` is false for whatever components, and `Shape.Validate`
does not return a `ShapeOverlapError`, whatever the description, the kind,
the fill and the stroke of the shapes, and whatever the order of map
iteration. -/
theorem C21_same_owner_never_overlaps {F : Type} [GoFloat F] (ge : GeoEnv F)
    (ce : CanvasEnv F) (s : Shape) (canvas : Canvas)
    (hsame : ∀ e ∈ canvas.Shapes, e.2.Owner = s.Owner) :
    (∀ newComps : List (Component F), s.IllegalOverlap ce canvas newComps = some false) ∧
    ∀ x, Shape.Validate ge ce s canvas ≠ some (some (.ShapeOverlapError x)) := by
  have hill : ∀ newComps : List (Component F),
      s.IllegalOverlap ce canvas newComps = some false := by
    intro newComps
    apply illegalOverlapLoop_same_owner
    intro e he
    exact hsame e ((ce.shapesOrder_perm canvas.Shapes).mem_iff.mp he)
  refine ⟨hill, ?_⟩
  intro x
  simp only [Shape.Validate]
  cases hp : ParseSVGString ge s.Svg s.ShapeType with
  | none => simp
  | some res =>
    obtain ⟨comps, err⟩ := res
    cases err with
    | some e =>
      simp only []
      intro h
      have := ParseSVGString_error_not_overlap ge s.Svg s.ShapeType comps e hp x
      simp at h
      exact this h
    | none =>
      simp only []
      split
      · simp
      · split
        · simp
        · cases hf : s.IsFillValid comps with
          | none => simp
          | some b =>
            cases b with
            | false => simp
            | true => simp [hill comps]

set_option maxRecDepth 1000000 in
theorem C21_same_owner_never_overlaps_witness :
    Shape.IllegalOverlap (storedCanvasOrder XR)
      ⟨"owner1", 0, "M 10 10 v 5 h 8 z", "green", "yellow"⟩
      ⟨[("hash1", ⟨"owner1", 0, "M 10 10 v 5 h 8 z", "red", "blue"⟩)], 1024, 1024⟩
      [Component.Point ⟨.fin 10, .fin 10⟩] = some false :=
  (C21_same_owner_never_overlaps (storedOrder XR) (storedCanvasOrder XR)
    ⟨"owner1", 0, "M 10 10 v 5 h 8 z", "green", "yellow"⟩
    ⟨[("hash1", ⟨"owner1", 0, "M 10 10 v 5 h 8 z", "red", "blue"⟩)], 1024, 1024⟩
    (by decide)).1 [Component.Point ⟨.fin 10, .fin 10⟩]

/-! ## The bounds check -/

/-- A group and a circle contain no point when the fill flag is false. -/
theorem ContainsPoint_without_fill {F : Type} [GoFloat F] (g : Group F) (c : Circle F)
    (p : Point F) : g.ContainsPoint p false = false ∧ c.ContainsPoint p false = false := by
  simp [Group.ContainsPoint, Circle.ContainsPoint]

/-- With the fill flag false, a point component contains every point that
`Equals` it, itself for one. -/
theorem Point_ContainsPoint_ignores_fill (x y : ℚ) :
    Point.ContainsPoint (⟨.fin x, .fin y⟩ : Point XR) ⟨.fin x, .fin y⟩ false = true := by
  simp [Point.ContainsPoint, Point.Equals, XR.FloatEQ_self]

/-- A path that is one `M` command away from the origin gives one point,
whatever the order of map iteration: the map has one entry. -/
theorem parseSVGPath_single_point (ge : GeoEnv XR) (svg : String) (p : Point XR)
    (hM : (stringsSplit svg).getD 0 "" = "M")
    (hloop : parsePathLoop (F := XR) (stringsSplit svg) (stringsSplit svg).length 0
      ⟨GoFloat.ofInt 0, GoFloat.ofInt 0⟩ ⟨GoFloat.ofInt 0, GoFloat.ofInt 0⟩ [] =
      some [(p, [])])
    (hfin : p.isFin = true) :
    parseSVGPath ge svg = some ([.Point p], none) := by
  have hro : ge.rangeOrder [(p, ([] : List (Point XR)))] = [(p, [])] :=
    List.perm_singleton.mp (ge.rangeOrder_perm _)
  have hro0 : ge.rangeOrder ([] : AdjacencyMap XR) = [] :=
    List.Perm.eq_nil (ge.rangeOrder_perm [])
  have hdel : AdjacencyMap.del [(p, ([] : List (Point XR)))] p = [] := by
    simp [AdjacencyMap.del, Point.keyEq_of_isFin p p hfin]
  have hrd : removeDisconnectedPoints ge [(p, ([] : List (Point XR)))] = ([.Point p], []) := by
    simp [removeDisconnectedPoints, hro, hdel]
  have hrd0 : removeDisconnectedPoints ge ([] : AdjacencyMap XR) = ([], []) := by
    simp [removeDisconnectedPoints, hro0]
  have hM2 : (stringsSplit svg)[0]?.getD "" = "M" := by simpa using hM
  simp [parseSVGPath, hM2, hloop, hrd, removeGroups, hrd0, AdjacencyMap.size]

set_option maxRecDepth 1000000 in
/-- C23, at the failing input: the point component (7,9) contains the point
(7,9) with the fill flag false, while a group and a circle contain no point
with that flag.  So with the circle "r 5 cx 7 cy 9" of the tests on the
canvas, stroked and not filled, the path "M 7 9" of another owner, a point
at its centre, is rejected with `ShapeOverlapError`, whereas the circle
"cx 8 cy 9 r 1" of that owner inside it is accepted, as the tests expect. -/
theorem C23_point_contains_point_without_fill (ge : GeoEnv XR) (ce : CanvasEnv XR) :
    Component.ContainsPoint (.Point (⟨.fin 7, .fin 9⟩ : Point XR)) ⟨.fin 7, .fin 9⟩ false = true ∧
    (∀ (g : Group XR) (c : Circle XR) (p : Point XR),
      Component.ContainsPoint (.Group g) p false = false ∧
      Component.ContainsPoint (.Circle c) p false = false) ∧
    Shape.Validate ge ce ⟨"owner2", 0, "M 7 9", "transparent", "red"⟩
      ⟨[("shape1", ⟨"owner1", 1, "r 5 cx 7 cy 9", "transparent", "blue"⟩)], 1000, 1500⟩ =
      some (some (.ShapeOverlapError "M 7 9")) ∧
    Shape.Validate ge ce ⟨"owner2", 1, "cx 8 cy 9 r 1", "transparent", "red"⟩
      ⟨[("shape1", ⟨"owner1", 1, "r 5 cx 7 cy 9", "transparent", "blue"⟩)], 1000, 1500⟩ =
      some none := by
  have horder : ce.shapesOrder
      [("shape1", (⟨"owner1", 1, "r 5 cx 7 cy 9", "transparent", "blue"⟩ : Shape))] =
      [("shape1", ⟨"owner1", 1, "r 5 cx 7 cy 9", "transparent", "blue"⟩)] :=
    List.perm_singleton.mp (ce.shapesOrder_perm _)
  have hold : ParseSVGString (ce.parseEnv "shape1") "r 5 cx 7 cy 9" 1 =
      some ([.Circle ⟨.fin 5, .fin 7, .fin 9⟩], none) := by
    have h : ParseSVGString (ce.parseEnv "shape1") "r 5 cx 7 cy 9" 1 =
        ParseSVGString (storedOrder XR) "r 5 cx 7 cy 9" 1 := rfl
    rw [h]; decide!
  have hnew2 : ParseSVGString ge "cx 8 cy 9 r 1" 1 =
      some ([.Circle ⟨.fin 1, .fin 8, .fin 9⟩], none) := by
    have h : ParseSVGString ge "cx 8 cy 9 r 1" 1 =
        ParseSVGString (storedOrder XR) "cx 8 cy 9 r 1" 1 := rfl
    rw [h]; decide!
  have hpt : ParseSVGString ge "M 7 9" 0 = some ([.Point ⟨.fin 7, .fin 9⟩], none) := by
    have hle : ¬ ("M 7 9" : String).utf8ByteSize > maxSVGLen := by decide
    simp only [ParseSVGString, hle, if_false, if_true]
    exact parseSVGPath_single_point ge "M 7 9" ⟨.fin 7, .fin 9⟩ (by decide) (by decide!)
      (by decide)
  refine ⟨Point_ContainsPoint_ignores_fill 7 9, ?_, ?_, ?_⟩
  · intro g c p
    exact ContainsPoint_without_fill g c p
  · have hfp : firstPair (fun oldComp newComp =>
        overlapTest oldComp newComp false false)
        [Component.Point (⟨.fin 7, .fin 9⟩ : Point XR)]
        [Component.Circle ⟨.fin 5, .fin 7, .fin 9⟩] = some true := by decide!
    have hin : Shape.WithinCanvas ⟨"owner2", 0, "M 7 9", "transparent", "red"⟩
        ⟨[("shape1", ⟨"owner1", 1, "r 5 cx 7 cy 9", "transparent", "blue"⟩)], 1000, 1500⟩
        [Component.Point (⟨.fin 7, .fin 9⟩ : Point XR)] = true := by decide!
    have hill : Shape.IllegalOverlap ce ⟨"owner2", 0, "M 7 9", "transparent", "red"⟩
        ⟨[("shape1", ⟨"owner1", 1, "r 5 cx 7 cy 9", "transparent", "blue"⟩)], 1000, 1500⟩
        [Component.Point (⟨.fin 7, .fin 9⟩ : Point XR)] = some true := by
      simp only [Shape.IllegalOverlap, horder, illegalOverlapLoop, hold]
      simp [Shape.IsFilled, hfp]
    simp [Shape.Validate, hpt, hin, hill, Shape.HasStroke, Shape.IsFilled, Shape.IsFillValid]
  · have hfp : firstPair (fun oldComp newComp =>
        overlapTest oldComp newComp false false)
        [Component.Circle (⟨.fin 1, .fin 8, .fin 9⟩ : Circle XR)]
        [Component.Circle ⟨.fin 5, .fin 7, .fin 9⟩] = some false := by decide!
    have hin : Shape.WithinCanvas ⟨"owner2", 1, "cx 8 cy 9 r 1", "transparent", "red"⟩
        ⟨[("shape1", ⟨"owner1", 1, "r 5 cx 7 cy 9", "transparent", "blue"⟩)], 1000, 1500⟩
        [Component.Circle (⟨.fin 1, .fin 8, .fin 9⟩ : Circle XR)] = true := by decide!
    have hill : Shape.IllegalOverlap ce
        ⟨"owner2", 1, "cx 8 cy 9 r 1", "transparent", "red"⟩
        ⟨[("shape1", ⟨"owner1", 1, "r 5 cx 7 cy 9", "transparent", "blue"⟩)], 1000, 1500⟩
        [Component.Circle (⟨.fin 1, .fin 8, .fin 9⟩ : Circle XR)] = some false := by
      simp only [Shape.IllegalOverlap, horder, illegalOverlapLoop, hold]
      simp [Shape.IsFilled, hfp]
    simp [Shape.Validate, hnew2, hin, hill, Shape.HasStroke, Shape.IsFilled,
      Shape.IsFillValid]

/-- The quotient by the slope 0 is an infinity or NaN, and `FloatEQ` of such a
value and anything is false. -/
theorem XR.FloatEQ_div_zero (a b : XR) : FloatEQ (a / (XR.fin 0)) b = false := by
  show XR.lt (XR.abs (XR.sub (XR.div a (.fin 0)) b)) (.fin (1 / 1000000)) = false
  cases a with
  | fin q =>
    by_cases h0 : q = 0
    · subst h0
      cases b <;> simp [XR.div, XR.sgn, XR.ofSign, XR.sub, XR.neg, XR.add, XR.abs, XR.lt]
    · by_cases hp : 0 < q
      · cases b <;> simp [XR.div, XR.sgn, XR.ofSign, XR.sub, XR.neg, XR.add, XR.abs, XR.lt, h0, hp]
      · cases b <;> simp [XR.div, XR.sgn, XR.ofSign, XR.sub, XR.neg, XR.add, XR.abs, XR.lt, h0, hp]
  | posInf =>
    cases b <;> simp [XR.div, XR.sgn, XR.ofSign, XR.sub, XR.neg, XR.add, XR.abs, XR.lt]
  | negInf =>
    cases b <;> simp [XR.div, XR.sgn, XR.ofSign, XR.sub, XR.neg, XR.add, XR.abs, XR.lt]
  | nan =>
    cases b <;> simp [XR.div, XR.sub, XR.neg, XR.add, XR.abs, XR.lt]

/-- The slope of a segment between two points of one height is 0. -/
theorem NewSegment_horizontal_Slope (x1 x2 y : ℚ) :
    (NewSegment (⟨.fin x1, .fin y⟩ : Point XR) ⟨.fin x2, .fin y⟩).Slope = .fin 0 := by
  by_cases h : x1 = x2
  · subst h
    rw [NewSegment_fin_vertical]
    simp
  · rw [NewSegment_fin x1 y x2 y h]
    simp

/-- No point intersects a horizontal segment, in the sense of
`Segment.IntersectsPoint`. -/
theorem Segment.IntersectsPoint_horizontal (x1 x2 y : ℚ) (p : Point XR) :
    (NewSegment (⟨.fin x1, .fin y⟩ : Point XR) ⟨.fin x2, .fin y⟩).IntersectsPoint p = false := by
  simp only [Segment.IntersectsPoint, NewSegment_horizontal_Slope, XR.FloatEQ_div_zero,
    Bool.and_false]

set_option maxRecDepth 1000000 in
/-- C24, at the failing input: for the group of the one horizontal segment
from (0,0) to (10,0) and the point (5,0) in its middle, `IntersectsBorder` is
false in both orders; so it is for every horizontal segment between points
with numbers as coordinates and every point.  The point (1,2) on a vertical
segment and the vertex (101,41) of the polygon of the tests do intersect. -/
theorem C24_point_on_horizontal_segment_is_missed :
    Point.IntersectsBorder (⟨.fin 5, .fin 0⟩ : Point XR)
      (.Group ⟨[NewSegment ⟨.fin 0, .fin 0⟩ ⟨.fin 10, .fin 0⟩]⟩) = false ∧
    Group.IntersectsBorder (⟨[NewSegment ⟨.fin 0, .fin 0⟩ ⟨.fin 10, .fin 0⟩]⟩ : Group XR)
      (.Point ⟨.fin 5, .fin 0⟩) = false ∧
    Point.IsBetween (⟨.fin 5, .fin 0⟩ : Point XR) ⟨.fin 0, .fin 0⟩ ⟨.fin 10, .fin 0⟩ = true ∧
    (NewSegment (⟨.fin 0, .fin 0⟩ : Point XR) ⟨.fin 10, .fin 0⟩).GetY (.fin 5) = .fin 0 ∧
    (∀ (x1 x2 y : ℚ) (p : Point XR),
      Point.IntersectsBorder p (.Group ⟨[NewSegment ⟨.fin x1, .fin y⟩ ⟨.fin x2, .fin y⟩]⟩) =
        false ∧
      Group.IntersectsBorder ⟨[NewSegment ⟨.fin x1, .fin y⟩ ⟨.fin x2, .fin y⟩]⟩ (.Point p) =
        false) ∧
    Group.IntersectsBorder (⟨[NewSegment ⟨.fin 1, .fin 11⟩ ⟨.fin 1, .fin 1⟩]⟩ : Group XR)
      (.Point ⟨.fin 1, .fin 2⟩) = true ∧
    Group.IntersectsBorder
      (⟨[NewSegment ⟨.fin 131, .fin 1⟩ ⟨.fin 101, .fin 41⟩,
         NewSegment ⟨.fin 101, .fin 41⟩ ⟨.fin 1, .fin 41⟩]⟩ : Group XR)
      (.Point ⟨.fin 101, .fin 41⟩) = true := by
  refine ⟨by decide!, by decide!, by decide!, by decide!, ?_, by decide!, by decide!⟩
  intro x1 x2 y p
  simp [Point.IntersectsBorder, Group.IntersectsBorder, Segment.IntersectsPoint_horizontal]

set_option maxRecDepth 1000000 in
/-- C25, at the failing input: the circle "r 5 cx 7 cy 9" of the tests and the
segment from (3,6) to (10,13), a chord of it.  The segment has slope 1 and
intercept 3; `x = 3` and `x = 10` are roots of
`(x - cx)^2 + (slope*x + yInt - cy)^2 = r^2`, and they give the two end points
of the segment; `Circle.IntersectsSegment` is false for the segment made in
either direction.  With the circle on the canvas, stroked and not filled,
the path "M 3 6 L 10 13" of another owner is accepted by `Shape.Validate`,
whatever the order of map iteration. -/
theorem C25_chord_of_circle_is_missed (ge : GeoEnv XR) (ce : CanvasEnv XR) :
    (NewSegment (⟨.fin 3, .fin 6⟩ : Point XR) ⟨.fin 10, .fin 13⟩).Slope = .fin 1 ∧
    (NewSegment (⟨.fin 3, .fin 6⟩ : Point XR) ⟨.fin 10, .fin 13⟩).YInt = .fin 3 ∧
    ((3 : ℚ) - 7) ^ 2 + (1 * 3 + 3 - 9) ^ 2 = 5 ^ 2 ∧
    ((10 : ℚ) - 7) ^ 2 + (1 * 10 + 3 - 9) ^ 2 = 5 ^ 2 ∧
    (NewSegment (⟨.fin 3, .fin 6⟩ : Point XR) ⟨.fin 10, .fin 13⟩).GetY (.fin 3) = .fin 6 ∧
    (NewSegment (⟨.fin 3, .fin 6⟩ : Point XR) ⟨.fin 10, .fin 13⟩).IntersectsPoint
      ⟨.fin 3, .fin 6⟩ = true ∧
    Circle.IntersectsSegment (⟨.fin 5, .fin 7, .fin 9⟩ : Circle XR)
      (NewSegment ⟨.fin 3, .fin 6⟩ ⟨.fin 10, .fin 13⟩) = false ∧
    Circle.IntersectsSegment (⟨.fin 5, .fin 7, .fin 9⟩ : Circle XR)
      (NewSegment ⟨.fin 10, .fin 13⟩ ⟨.fin 3, .fin 6⟩) = false ∧
    Shape.Validate ge ce ⟨"owner2", 0, "M 3 6 L 10 13", "transparent", "red"⟩
      ⟨[("shape1", ⟨"owner1", 1, "r 5 cx 7 cy 9", "transparent", "blue"⟩)], 1000, 1500⟩ =
      some none := by
  refine ⟨by decide!, by decide!, by norm_num, by norm_num, by decide!, by decide!, by decide!,
    by decide!, ?_⟩
  have horder : ce.shapesOrder
      [("shape1", (⟨"owner1", 1, "r 5 cx 7 cy 9", "transparent", "blue"⟩ : Shape))] =
      [("shape1", ⟨"owner1", 1, "r 5 cx 7 cy 9", "transparent", "blue"⟩)] :=
    List.perm_singleton.mp (ce.shapesOrder_perm _)
  have hold : ParseSVGString (ce.parseEnv "shape1") "r 5 cx 7 cy 9" 1 =
      some ([.Circle ⟨.fin 5, .fin 7, .fin 9⟩], none) := by
    have h : ParseSVGString (ce.parseEnv "shape1") "r 5 cx 7 cy 9" 1 =
        ParseSVGString (storedOrder XR) "r 5 cx 7 cy 9" 1 := rfl
    rw [h]; decide!
  obtain ⟨r, hr, hres⟩ := ParseSVGString_one_group ge "M 3 6 L 10 13" (by decide) (by decide!)
  have hall : ∀ r ∈ traceStarts XR "M 3 6 L 10 13",
      Shape.WithinCanvas ⟨"owner2", 0, "M 3 6 L 10 13", "transparent", "red"⟩
        ⟨[("shape1", ⟨"owner1", 1, "r 5 cx 7 cy 9", "transparent", "blue"⟩)], 1000, 1500⟩
        [Component.Group ⟨r.1⟩] = true ∧
      firstPair (fun oldComp newComp => overlapTest oldComp newComp false false)
        [Component.Group ⟨r.1⟩] [Component.Circle (⟨.fin 5, .fin 7, .fin 9⟩ : Circle XR)] =
        some false := by decide!
  obtain ⟨hin, hfp⟩ := hall r hr
  have hill : Shape.IllegalOverlap ce ⟨"owner2", 0, "M 3 6 L 10 13", "transparent", "red"⟩
      ⟨[("shape1", ⟨"owner1", 1, "r 5 cx 7 cy 9", "transparent", "blue"⟩)], 1000, 1500⟩
      [Component.Group ⟨r.1⟩] = some false := by
    simp only [Shape.IllegalOverlap, horder, illegalOverlapLoop, hold]
    simp [Shape.IsFilled, hfp]
  simp [Shape.Validate, hres, hin, hill, Shape.HasStroke, Shape.IsFilled, Shape.IsFillValid]

/-! ## The time bound of `FindNonce` -/

/-- More rounds do not change a result of `FindNonce`. -/
theorem FindNonce_fuel (env : Env) (ns : MinerNetSettings) (elapsed rnd : Nat → Nat)
    (block : Block) (fuel k i : Nat) (r : Option Block)
    (h : FindNonce env ns elapsed rnd block fuel i = some r) :
    FindNonce env ns elapsed rnd block (fuel + k) i = some r := by
  induction fuel generalizing i with
  | zero => simp [FindNonce] at h
  | succ fuel ih =>
    rw [show fuel + 1 + k = (fuel + k) + 1 by omega]
    simp only [FindNonce] at h ⊢
    by_cases hto : FindNonce_timeOutDuration ns block * timeSecond ≤ elapsed i
    · rw [if_pos hto] at h ⊢
      exact h
    · rw [if_neg hto] at h ⊢
      cases hz : ZeroPrefix env ns (block.setNonce (rnd i % 2 ^ 32)) with
      | none => rw [hz] at h; cases h
      | some b =>
        rw [hz] at h
        cases b with
        | true => exact h
        | false => exact ih _ h

/-- The time `FindNonce` allows is `difficulty * 25 mod 256` seconds, which is
`difficulty * 25` seconds exactly for the difficulties up to 10. -/
theorem FindNonce_timeOutDuration_eq (ns : MinerNetSettings) (block : Block)
    (hd : block.GetPowDifficulty ns < 256) :
    FindNonce_timeOutDuration ns block = block.GetPowDifficulty ns * 25 % 256 ∧
    (FindNonce_timeOutDuration ns block = block.GetPowDifficulty ns * 25 ↔
      block.GetPowDifficulty ns ≤ 10) := by
  cases block <;> simp only [FindNonce_timeOutDuration, Block.GetPowDifficulty] at hd ⊢ <;>
    omega

set_option maxRecDepth 1000000 in
/-- C26, at the failing input: with difficulty 11 for op blocks the time
`FindNonce` allows for an op block is 19 seconds, not 275.  On a clock that
shows 0, 10, 20 seconds in the first three rounds, with nonces that do not
give the zero prefix, `FindNonce` returns nil in the third round, 20 seconds
after its start. -/
theorem C26_timeout_is_a_uint8_product :
    FindNonce_timeOutDuration exNS11 (.OpBlock "a5c6e708294a6b8cadceef1031527394" [exOp2]
      "miner-0002" 0) = 19 ∧
    Block.GetPowDifficulty exNS11 (.OpBlock "a5c6e708294a6b8cadceef1031527394" [exOp2]
      "miner-0002" 0) * 25 = 275 ∧
    (∀ k, FindNonce toyEnv exNS11 exElapsed (fun i => i)
      (.OpBlock "a5c6e708294a6b8cadceef1031527394" [exOp2] "miner-0002" 0) (3 + k) 0 =
      some none) ∧
    exElapsed 1 < 19 * timeSecond ∧ exElapsed 2 = 20 * timeSecond ∧
    (∀ d, d < 256 → (d % 2 ^ 8 * 25 % 2 ^ 8 = d * 25 ↔ d ≤ 10)) := by
  refine ⟨by decide, by decide, ?_, by decide, by decide, ?_⟩
  · intro k
    exact FindNonce_fuel toyEnv exNS11 exElapsed (fun i => i) _ 3 k 0 none (by decide)
  · intro d hd
    omega

/-! ## Ink balances -/

set_option maxRecDepth 1000000 in
/-- C27, at the failing input: in the state after block A, `miner-0001` has
10 ink.  The op block `exTwoAdds` carries two add ops of `miner-0001` of cost
10 each; `ValidateBlock` accepts it, because `ValidateOp` compares each cost
with the balance at the tip, and `AddBlockToBlockchain` leaves `miner-0001`
with `10 - 10 - 10` in `uint32`, which is 4294967286.  The shape of the two
ops is a filled rectangle 5 by 2, of area 10, valid on an empty canvas. -/
theorem C27_two_adds_wrap_the_balance :
    inkOf exS1 (exA.Hash toyEnv) "miner-0001" = some 10 ∧
    exS1.longestLeafHash = exA.Hash toyEnv ∧
    ShapeInk toyEnv exOp0.OpShape = 10 ∧ ShapeInk toyEnv exOp2.OpShape = 10 ∧
    ValidateBlock toyEnv exNS exS1 exTwoAdds = some (exS1, true, none) ∧
    ((AddBlockToBlockchain toyEnv exNS exS1 exTwoAdds 0).bind fun s =>
      inkOf s (exTwoAdds.Hash toyEnv) "miner-0001") = some 4294967286 ∧
    Shape.Area (storedOrder XR) exShape = some (10, none) ∧
    Shape.Validate (storedOrder XR) (storedCanvasOrder XR) exShape ⟨[], 1024, 1024⟩ =
      some none := by
  refine ⟨by decide, by decide, by decide, by decide, by decide, by decide, by decide!,
    by decide!⟩

/-! ## Deletes -/

/-- An op that `ValidateOp` lets pass has a key that decodes and a signature
that verifies for the digest of its shape. -/
theorem ValidateOp_passed_signature (env : Env) (ns : MinerNetSettings) (s : State) (op : Op)
    (h : ValidateOp env ns s op = some (true, none)) :
    ∃ k, env.DecodePubKey op.PubKey = .key k ∧
      env.ecdsaVerify k (Shape.HashToBytes env op.OpShape) op.OpSig.R op.OpSig.S = true := by
  simp only [ValidateOp] at h
  cases hd : env.DecodePubKey op.PubKey with
  | hexError => simp [hd] at h
  | assertPanic => simp [hd] at h
  | key k =>
    refine ⟨k, rfl, ?_⟩
    simp only [hd] at h
    by_contra hv
    have hv2 : env.ecdsaVerify k (Shape.HashToBytes env op.OpShape) op.OpSig.R op.OpSig.S =
        false := by simpa using hv
    simp [hv2] at h

/-- C28: `ValidateOp` reads nothing but the op and the node at the tip, so it
cannot tell who submits an op.  Take an add op whose key decodes and whose
signature verifies for the digest of its shape (every op that `ValidateOp`
once let pass is such an op) and whose hash is a key of the canvas at the
tip.  The op `SetOpAdd(op, false)`, with the same signature, key and
`ValidNum`, passes `ValidateOp`, unless the pending queue at the tip holds a
delete under its hash.  The signature check reads the shape, the signature
and the key only: a delete op with these three fields does not fail it,
whatever its `ValidNum`, in whatever state. -/
theorem C28_delete_reuses_the_add_signature (env : Env) (ns : MinerNetSettings) (s : State)
    (op : Op) (tip : BlockChainNode) (k : PublicKey) (hadd : op.Add = true)
    (hkey : env.DecodePubKey op.PubKey = .key k)
    (hsig : env.ecdsaVerify k (Shape.HashToBytes env op.OpShape) op.OpSig.R op.OpSig.S = true)
    (htip : s.tip = some tip)
    (hcanvas : (s.heap.canvas tip.Canvas).has (op.HashToString env) = true)
    (hpending : ∀ q, (s.heap.queue tip.QueueShapes).get ((SetOpAdd op false).HashToString env) =
      some q → q.Add = true) :
    ValidateOp env ns s (SetOpAdd op false) = some (true, none) ∧
    ∀ (validNum : Nat) (s2 : State) (e : String),
      ValidateOp env ns s2 { op with Add := false, ValidNum := validNum } ≠
        some (false, some (.InvalidShapeHashError e)) := by
  constructor
  · have hback : SetOpAdd (SetOpAdd op false) true = op := by
      cases op
      simp only [SetOpAdd] at hadd ⊢
      simp [hadd]
    have h1 : (SetOpAdd op false).PubKey = op.PubKey := rfl
    have h2 : (SetOpAdd op false).OpShape = op.OpShape := rfl
    have h3 : (SetOpAdd op false).OpSig = op.OpSig := rfl
    have h4 : (SetOpAdd op false).Add = false := rfl
    simp only [ValidateOp, h1, h2, h3, h4, hkey, hsig, htip, hback, hcanvas, Bool.not_true,
      Bool.false_eq_true, if_false]
    cases hq : (s.heap.queue tip.QueueShapes).get ((SetOpAdd op false).HashToString env) with
    | none => rfl
    | some q => simp [hpending q hq]
  · intro validNum s2 e
    simp only [ValidateOp, hkey, hsig]
    cases s2.tip with
    | none => simp
    | some t =>
      simp only [Bool.not_true, Bool.false_eq_true, if_false]
      split
      · simp
      · split
        · split <;> simp
        · simp

set_option maxRecDepth 1000000 in
theorem C28_delete_reuses_the_add_signature_witness :
    ValidateOp toyEnv exNS exS1DGH (SetOpAdd exOp2 false) = some (true, none) :=
  (C28_delete_reuses_the_add_signature toyEnv exNS exS1DGH exOp2
    ((exS1DGH.tip).getD ⟨exA, [], 0, 0, 0, 0, 0⟩) ⟨1, 1⟩ (by decide) (by decide) (by decide)
    (by decide) (by decide) (by decide)).1

/-! ## The majority hash -/

theorem getHashWithMaxCount_fold_ge (tbl : BlockHashCountTable) (ks : List String)
    (acc : Nat × String) :
    let r := ks.foldl
      (fun (acc : Nat × String) hash =>
        let chains := (tbl.get hash).getD []
        if chains.length > acc.1 then (chains.length, hash) else acc) acc
    acc.1 ≤ r.1 ∧ ∀ k ∈ ks, ((tbl.get k).getD []).length ≤ r.1 := by
  induction ks generalizing acc with
  | nil => simp
  | cons k ks ih =>
    simp only [List.foldl_cons]
    by_cases hk : ((tbl.get k).getD []).length > acc.1
    · simp only [hk, if_true]
      obtain ⟨h1, h2⟩ := ih (((tbl.get k).getD []).length, k)
      simp only at h1 h2
      refine ⟨by omega, ?_⟩
      intro k2 hk2
      rcases List.mem_cons.mp hk2 with rfl | hk2
      · exact h1
      · exact h2 k2 hk2
    · simp only [hk, if_false]
      obtain ⟨h1, h2⟩ := ih acc
      simp only at h1 h2
      refine ⟨h1, ?_⟩
      intro k2 hk2
      rcases List.mem_cons.mp hk2 with rfl | hk2
      · omega
      · exact h2 k2 hk2

/-- The count that `getHashWithMaxCount` returns is no less than the count of
any hash of the table, whatever the order of map iteration. -/
theorem getHashWithMaxCount_ge (env : Env) (tbl : BlockHashCountTable) (k : String) :
    ((tbl.get k).getD []).length ≤ (getHashWithMaxCount env tbl).1 := by
  by_cases hk : tbl.get k = none
  · simp [hk]
  · have hmem : k ∈ env.rangeOrder tbl.keys :=
      (env.rangeOrder_perm tbl.keys).mem_iff.mpr ((GoMap.get_ne_none_iff_mem_keys tbl k).mp hk)
    exact (getHashWithMaxCount_fold_ge tbl (env.rangeOrder tbl.keys) (0, "")).2 k hmem

/-- Two different hashes are held, at one index, by different chains. -/
theorem holdersAt_add_le (env : Env) (chains : List RawBlockchain) (i : Nat) (h1 h2 : String)
    (hne : h1 ≠ h2) :
    holdersAt env chains i h1 + holdersAt env chains i h2 ≤ chains.length := by
  induction chains with
  | nil => simp [holdersAt]
  | cons ch cs ih =>
    rw [holdersAt_cons, holdersAt_cons]
    simp only [List.length_cons]
    by_cases c1 : (ch[i]?).map (Block.Hash env) = some h1
    · have c2 : ¬ (some h1 = some h2) := fun h => hne (Option.some.inj h)
      simp only [c1, c2, if_true, if_false]
      omega
    · simp only [c1, if_false]
      split <;> omega

theorem countHashesAt_congr (env env2 : Env) (hhash : ∀ b : Block, b.Hash env2 = b.Hash env)
    (chains : List RawBlockchain) (i : Nat) :
    countHashesAt env2 chains i = countHashesAt env chains i := by
  unfold countHashesAt
  congr 1
  funext acc chain
  cases chain[i]? with
  | none => rfl
  | some b => simp only [hhash]

/-- C29: at an index, at most one hash is held by more than half of the
chains (more than `len(chains) / 2` in integer division).  So when the count
that `getHashWithMaxCount` returns for the table of an index exceeds
`len(chains) / 2`, the hash it returns is the one hash that more than half of
the chains hold there, and the count is the number of chains that hold it:
count and hash are the same for every order of map iteration. -/
theorem C29_majority_hash_is_unique (env : Env) (chains : List RawBlockchain) (i : Nat) :
    (∀ h1 h2, holdersAt env chains i h1 > chains.length / 2 →
      holdersAt env chains i h2 > chains.length / 2 → h1 = h2) ∧
    ((getHashWithMaxCount env (countHashesAt env chains i).1).1 > chains.length / 2 →
      holdersAt env chains i (getHashWithMaxCount env (countHashesAt env chains i).1).2 =
        (getHashWithMaxCount env (countHashesAt env chains i).1).1 ∧
      (∀ h, holdersAt env chains i h > chains.length / 2 →
        h = (getHashWithMaxCount env (countHashesAt env chains i).1).2) ∧
      ∀ env2 : Env, (∀ b : Block, b.Hash env2 = b.Hash env) →
        getHashWithMaxCount env2 (countHashesAt env2 chains i).1 =
          getHashWithMaxCount env (countHashesAt env chains i).1) := by
  have huniq : ∀ h1 h2, holdersAt env chains i h1 > chains.length / 2 →
      holdersAt env chains i h2 > chains.length / 2 → h1 = h2 := by
    intro h1 h2 a b
    by_contra hne
    have := holdersAt_add_le env chains i h1 h2 hne
    omega
  refine ⟨huniq, ?_⟩
  intro hmaj
  have hspec : ∀ e : Env, (getHashWithMaxCount e (countHashesAt env chains i).1).1 > 0 →
      holdersAt env chains i (getHashWithMaxCount e (countHashesAt env chains i).1).2 =
        (getHashWithMaxCount e (countHashesAt env chains i).1).1 := by
    intro e hpos
    rcases getHashWithMaxCount_spec e (countHashesAt env chains i).1 with h0 | h1
    · omega
    · rw [← countHashesAt_get, ← h1]
  have hcount := hspec env (by omega)
  refine ⟨hcount, ?_, ?_⟩
  · intro h hh
    exact huniq _ _ hh (by rw [hcount]; exact hmaj)
  · intro env2 hhash
    rw [countHashesAt_congr env env2 hhash]
    have hge := getHashWithMaxCount_ge env2 (countHashesAt env chains i).1
      (getHashWithMaxCount env (countHashesAt env chains i).1).2
    rw [countHashesAt_get, hcount] at hge
    have hcount2 := hspec env2 (by omega)
    have h2 : (getHashWithMaxCount env2 (countHashesAt env chains i).1).2 =
        (getHashWithMaxCount env (countHashesAt env chains i).1).2 :=
      huniq _ _ (by rw [hcount2]; omega) (by rw [hcount]; exact hmaj)
    have h1 : (getHashWithMaxCount env2 (countHashesAt env chains i).1).1 =
        (getHashWithMaxCount env (countHashesAt env chains i).1).1 := by
      rw [← hcount2, h2, hcount]
    exact Prod.ext h1 h2

set_option maxRecDepth 1000000 in
theorem C29_majority_hash_is_unique_witness :
    (getHashWithMaxCount toyEnv (countHashesAt toyEnv [[exA], [exC], [exA]] 0).1).1 >
        [[exA], [exC], [exA]].length / 2 ∧
    holdersAt toyEnv [[exA], [exC], [exA]] 0
      (getHashWithMaxCount toyEnv (countHashesAt toyEnv [[exA], [exC], [exA]] 0).1).2 =
      (getHashWithMaxCount toyEnv (countHashesAt toyEnv [[exA], [exC], [exA]] 0).1).1 :=
  ⟨by decide,
    ((C29_majority_hash_is_unique toyEnv [[exA], [exC], [exA]] 0).2 (by decide)).1⟩

/-! ## The chain that the reconciliation returns -/

theorem GethMaxLengthOfChains_fold_ge (chains : List RawBlockchain) (m : Nat) :
    m ≤ chains.foldl (fun maxLength chain => if chain.length > maxLength then chain.length
      else maxLength) m ∧
    ∀ ch ∈ chains, ch.length ≤ chains.foldl
      (fun maxLength chain => if chain.length > maxLength then chain.length else maxLength) m := by
  induction chains generalizing m with
  | nil => simp
  | cons c cs ih =>
    simp only [List.foldl_cons]
    obtain ⟨h1, h2⟩ := ih (if c.length > m then c.length else m)
    refine ⟨?_, ?_⟩
    · refine le_trans ?_ h1
      split <;> omega
    · intro ch hch
      rcases List.mem_cons.mp hch with rfl | hch
      · refine le_trans ?_ h1
        split <;> omega
      · exact h2 ch hch

/-- No chain is longer than `GethMaxLengthOfChains` says. -/
theorem GethMaxLengthOfChains_ge (chains : List RawBlockchain) (ch : RawBlockchain)
    (h : ch ∈ chains) : ch.length ≤ GethMaxLengthOfChains chains :=
  (GethMaxLengthOfChains_fold_ge chains 0).2 ch h

/-- A hash that some chain holds at index `i` is the hash of a block, the
first holder exists and holds it, and `i` is below the greatest length. -/
theorem holdersAt_pos (env : Env) (chains : List RawBlockchain) (i : Nat) (h : String)
    (hpos : 0 < holdersAt env chains i h) :
    i < GethMaxLengthOfChains chains ∧ h ≠ "" ∧
    ∃ ch, firstHolder env chains i h = some ch ∧ (ch[i]?).map (Block.Hash env) = some h := by
  unfold holdersAt at hpos
  obtain ⟨ch, hch⟩ := List.exists_mem_of_length_pos hpos
  rw [List.mem_filter] at hch
  obtain ⟨hmem, hhold⟩ := hch
  have hhold2 : (ch[i]?).map (Block.Hash env) = some h := of_decide_eq_true hhold
  refine ⟨?_, ?_, ?_⟩
  · have hlen := GethMaxLengthOfChains_ge chains ch hmem
    cases hc : ch[i]? with
    | none => simp [hc] at hhold2
    | some b =>
      have := (List.getElem?_eq_some_iff.mp hc).1
      omega
  · cases hc : ch[i]? with
    | none => simp [hc] at hhold2
    | some b =>
      simp only [hc, Option.map_some', Option.some.injEq] at hhold2
      rw [← hhold2]
      exact Block.Hash_ne_empty env b
  · cases hf : firstHolder env chains i h with
    | none =>
      unfold firstHolder at hf
      rw [List.find?_eq_none] at hf
      exact absurd hhold (hf ch hmem)
    | some c =>
      refine ⟨c, rfl, ?_⟩
      unfold firstHolder at hf
      have hsome := List.find?_some hf
      exact of_decide_eq_true hsome

/-- At an index where a hash has the majority, `getHashWithMaxCount` returns
that hash with a count above `len(chains) / 2`. -/
theorem getHashWithMaxCount_majority (env : Env) (chains : List RawBlockchain) (i : Nat)
    (h : String) (hmaj : holdersAt env chains i h > chains.length / 2) :
    (getHashWithMaxCount env (countHashesAt env chains i).1).1 > chains.length / 2 ∧
    (getHashWithMaxCount env (countHashesAt env chains i).1).2 = h := by
  have hge := getHashWithMaxCount_ge env (countHashesAt env chains i).1 h
  rw [countHashesAt_get] at hge
  refine ⟨by omega, ?_⟩
  rcases getHashWithMaxCount_spec env (countHashesAt env chains i).1 with h0 | h1
  · omega
  · rw [countHashesAt_get] at h1
    by_contra hne
    have := holdersAt_add_le env chains i _ h hne
    omega

/-- At an index without a majority the count that `getHashWithMaxCount`
returns does not exceed `len(chains) / 2`. -/
theorem getHashWithMaxCount_no_majority (env : Env) (chains : List RawBlockchain) (j : Nat)
    (hno : ∀ h2, ¬ holdersAt env chains j h2 > chains.length / 2) :
    ¬ (getHashWithMaxCount env (countHashesAt env chains j).1).1 > chains.length / 2 := by
  rcases getHashWithMaxCount_spec env (countHashesAt env chains j).1 with h0 | h1
  · omega
  · rw [h1, countHashesAt_get]
    exact hno _

/-- The outer loop stops at the greatest index that has a majority. -/
theorem majorityLoop_at (env : Env) (chains : List RawBlockchain) (i : Nat) (h : String)
    (hmaj : holdersAt env chains i h > chains.length / 2)
    (hgreatest : ∀ j h2, i < j → ¬ holdersAt env chains j h2 > chains.length / 2)
    (n : Nat) (hn : i ≤ n) :
    majorityLoop env chains (chains.length / 2) n
      = (h, (countHashesAt env chains i).1, (countHashesAt env chains i).2) := by
  obtain ⟨m1, m2⟩ := getHashWithMaxCount_majority env chains i h hmaj
  induction n with
  | zero =>
    have hi : i = 0 := by omega
    subst hi
    simp only [majorityLoop]
    rw [if_pos m1, m2]
  | succ n ih =>
    simp only [majorityLoop]
    by_cases hi : i = n + 1
    · subst hi
      rw [if_pos m1, m2]
    · rw [if_neg (getHashWithMaxCount_no_majority env chains (n + 1)
        (fun h2 => hgreatest (n + 1) h2 (by omega)))]
      exact ih (by omega)

/-- C1: for every list of peer chains, if `i` is the greatest index at which
some block hash `h` is held by strictly more than half of the chains,
`GetLongestChainInNetwork` returns the first chain in input order whose block
at index `i` has hash `h` (such a chain exists), for every order of map
iteration. -/
theorem C1_GetLongestChainInNetwork_returns_first_holder (env : Env)
    (chains : List RawBlockchain) (i : Nat) (h : String)
    (hmaj : 2 * holdersAt env chains i h > chains.length)
    (hgreatest : ∀ j h2, i < j → ¬ 2 * holdersAt env chains j h2 > chains.length) :
    ∃ ch, firstHolder env chains i h = some ch ∧ (ch[i]?).map (Block.Hash env) = some h ∧
      GetLongestChainInNetwork env chains = some ch := by
  obtain ⟨hlt, hne, c, hc, hhold⟩ := holdersAt_pos env chains i h (by omega)
  refine ⟨c, hc, hhold, ?_⟩
  have hloop := majorityLoop_at env chains i h (by omega)
    (fun j h2 hj => by have := hgreatest j h2 hj; omega)
    (GethMaxLengthOfChains chains) (by omega)
  have hlen := countHashesAt_get env chains i h
  unfold GetLongestChainInNetwork
  simp only [hloop]
  rw [if_neg hne]
  cases hl : ((countHashesAt env chains i).1.get h).getD [] with
  | nil =>
    rw [hl] at hlen
    simp at hlen
    omega
  | cons p ps =>
    simp only []
    rw [countHashesAt_first env chains i h p ps hl, hc]

theorem toy_no_later_majority : ∀ (j : Nat) (h2 : String), 0 < j →
    ¬ 2 * holdersAt toyEnv [[exC], [exA, exC], [exA]] j h2 > [[exC], [exA, exC], [exA]].length := by
  intro j h2 hj
  have hle : holdersAt toyEnv [[exC], [exA, exC], [exA]] j h2 ≤ 1 := by
    rw [holdersAt_cons, holdersAt_cons, holdersAt_cons]
    have hnil : holdersAt toyEnv [] j h2 = 0 := by simp [holdersAt]
    rw [hnil]
    obtain ⟨k, rfl⟩ : ∃ k, j = k + 1 := ⟨j - 1, by omega⟩
    cases k with
    | zero =>
      simp
      split_ifs <;> omega
    | succ k => simp
  simp only [List.length_cons, List.length_nil]
  omega

set_option maxRecDepth 1000000 in
/-- Witness for C1: of the peer chains `[C]`, `[A, C]`, `[A]` two hold the
hash of `A` at index 0 and no later index has a majority; the chain returned
is `[A, C]`, the first holder, which is not the first chain. -/
theorem C1_GetLongestChainInNetwork_returns_first_holder_witness :
    2 * holdersAt toyEnv [[exC], [exA, exC], [exA]] 0 (exA.Hash toyEnv) >
      [[exC], [exA, exC], [exA]].length ∧
    GetLongestChainInNetwork toyEnv [[exC], [exA, exC], [exA]] = some [exA, exC] := by
  refine ⟨by decide, ?_⟩
  obtain ⟨c, hc, _, hr⟩ := C1_GetLongestChainInNetwork_returns_first_holder toyEnv
    [[exC], [exA, exC], [exA]] 0 (exA.Hash toyEnv) (by decide) toy_no_later_majority
  have hf : firstHolder toyEnv [[exC], [exA, exC], [exA]] 0 (exA.Hash toyEnv)
      = some [exA, exC] := by decide
  rw [hf] at hc
  cases hc
  exact hr

/-! ## The area of a circle -/

set_option maxRecDepth 1000000 in
/-- C30, at the failing input: `ParseSVGString` accepts the circle "r -5",
whose `Area` with the stroke only is `2 * (-5) * Pi`, below 0, and with fill
and stroke for "r -1" is `Pi - 2 * Pi`, below 0 too.  `Shape.Area` then
converts the ceiling -31 of a negative number to `uint64`: the ink cost of
the stroked circle "r -5" comes out as `2^64 - 31` (conversion as on amd64),
where the stroked circle "r 5" costs 32. -/
theorem C30_negative_radius_gives_negative_area (ge : GeoEnv XR) :
    ParseSVGString ge "r -5" 1 = some ([.Circle ⟨.fin (-5), .fin 0, .fin 0⟩], none) ∧
    GoFloat.lt (Circle.Area (⟨.fin (-5), .fin 0, .fin 0⟩ : Circle XR) false true)
      (GoFloat.ofInt 0) = true ∧
    GoFloat.lt (Circle.Area (⟨.fin (-1), .fin 0, .fin 0⟩ : Circle XR) true true)
      (GoFloat.ofInt 0) = true ∧
    GoFloat.ceil (Circle.Area (⟨.fin (-5), .fin 0, .fin 0⟩ : Circle XR) false true) =
      .fin (-31) ∧
    Shape.Area ge ⟨"owner1", 1, "r -5", "transparent", "red"⟩ =
      some (18446744073709551585, none) ∧
    Shape.Area ge ⟨"owner1", 1, "r 5", "transparent", "red"⟩ = some (32, none) := by
  have h1 : ParseSVGString ge "r -5" 1 = ParseSVGString (storedOrder XR) "r -5" 1 := rfl
  have h2 : Shape.Area ge ⟨"owner1", 1, "r -5", "transparent", "red"⟩ =
      Shape.Area (storedOrder XR) ⟨"owner1", 1, "r -5", "transparent", "red"⟩ := rfl
  have h3 : Shape.Area ge ⟨"owner1", 1, "r 5", "transparent", "red"⟩ =
      Shape.Area (storedOrder XR) ⟨"owner1", 1, "r 5", "transparent", "red"⟩ := rfl
  rw [h1, h2, h3]
  decide!

end Miner
